import Mathlib

/-!
Verification development for the multi-agent research pipeline
(query refinement → retrieval → reranking → drafting → claim extraction →
fact checking → final answer composition).

The Python sources are shallowly embedded as Lean definitions:

* pure helpers (`extract_json_from_text`, `calculate_overall_confidence`,
  `extract_claims`, `fact_check_claims`, `generate_final_answer`,
  `RerankerAgent.rerank`, `convert_docs_to_reranker_format`) become pure
  Lean functions over `String`, `List`, and `ℚ`;
* each LangGraph node becomes a function from the pipeline state to the
  pipeline state, with every external collaborator call (LLM completion,
  vector search, cross-encoder scoring) abstracted as an `Except`-valued
  field of an `Env` record, so a raised exception is modelled by the
  `.error` branch and a normal return by `.ok`;
* the LangGraph wiring is modelled as a Pregel-style superstep executor
  over the full edge set registered in `build_research_graph`: after a node
  finishes, both its unconditional `add_edge` target and its conditional
  router target are scheduled for the next superstep (de-duplicated, since
  LangGraph activates a node at most once per superstep).  A superstep with
  a single task runs it and applies its write; a superstep with two
  distinct tasks runs both nodes against the same snapshot and then raises
  `InvalidUpdateError`, because every node returns a full `{**state, ...}`
  dictionary and each channel of the reducer-less `ResearchState`
  `TypedDict` accepts only one value per step.  `run_research_pipeline`
  converts an escaped exception to the fixed critical-failure record, as
  the source's outer `except` does;
* Python floats are modelled as rationals (`ℚ`); `round(x, 2)` is modelled
  as exact half-to-even rounding of `100 * x`;
* Python's `json` module is modelled by an executable fuel-indexed parser
  over `List Char` restricted to the JSON fragment the pipeline exchanges:
  numbers are integers (float literals make the model parser fail rather
  than produce a float), `\uXXXX` escapes are decoded to the corresponding
  character, and objects are ordered association lists;
* in-place mutation (the dict assignment in `reasoning_node` and the
  `docs[i]["score"] = ...` writes in `RerankerAgent.rerank`) is made
  observable by returning, next to the ordinary result, the post-call
  contents of the mutated container and a flag recording that the received
  object was written to.
-/

/-! ## Python-style character and string helpers -/

/-- Whitespace for Python's `str.strip()` and the regex class `\s`
(space, tab, newline, carriage return, form feed, vertical tab). -/
def isPyWs (c : Char) : Bool :=
  c = ' ' || c = '\t' || c = '\n' || c = '\r' || c = '\x0b' || c = '\x0c'

/-- Drop trailing characters satisfying `p` (helper for `pyStripL`). -/
def dropEndWhile (p : Char → Bool) (cs : List Char) : List Char :=
  (cs.reverse.dropWhile p).reverse

/-- Python `str.strip()` on a character list. -/
def pyStripL (cs : List Char) : List Char :=
  dropEndWhile isPyWs (cs.dropWhile isPyWs)

/-- Python `str.strip()`. -/
def pyStrip (s : String) : String :=
  String.mk (pyStripL s.toList)

/-- Does `pre` occur at the head of `cs`? (helper for the substring test). -/
def headMatches : List Char → List Char → Bool
  | [], _ => true
  | _ :: _, [] => false
  | a :: pre, c :: cs => a = c && headMatches pre cs

/-- Does `needle` occur contiguously inside `hay`?  Models Python's
`needle in hay` test on strings. -/
def subOfL (needle : List Char) : List Char → Bool
  | [] => headMatches needle []
  | c :: cs => headMatches needle (c :: cs) || subOfL needle cs

/-- Python's substring test `a in b`. -/
def pySub (a b : String) : Bool :=
  subOfL a.toList b.toList

/-- Python's `b.startswith(a)`. -/
def pyStartsWith (a b : String) : Bool :=
  headMatches a.toList b.toList

/-! ## Claim-verification records and the two confidence aggregators

`ClaimVerification` models one value of the `verified_claims` mapping.
The status is kept as a raw string because the parsed model output may
carry anything (the final-answer module explicitly handles statuses
outside the four-value enumeration); the confidence is a rational
standing for the Python number. -/

structure ClaimVerification where
  verification_status : String
  confidence : ℚ
  evidence : String
  explanation : String
deriving DecidableEq, Repr

/-- The four statuses of the verification enumeration. -/
def enumStatuses : List String :=
  [("SUPPORTED" : String), ("PARTIALLY_SUPPORTED" : String),
   ("NOT_SUPPORTED" : String), ("CONTRADICTED" : String)]

/-- A well-formed verification value: one of the four enum statuses and a
confidence inside `[0, 100]`. -/
def WellFormedVerif (v : ClaimVerification) : Prop :=
  v.verification_status ∈ enumStatuses ∧ 0 ≤ v.confidence ∧ v.confidence ≤ 100

instance : DecidablePred WellFormedVerif := fun v => by
  unfold WellFormedVerif; infer_instance

/-- Half-to-even rounding of a rational to an integer: the rational model
of Python's `round` tie-breaking. -/
def halfEvenRound (q : ℚ) : ℤ :=
  if q - ⌊q⌋ < 1/2 then ⌊q⌋
  else if 1/2 < q - ⌊q⌋ then ⌊q⌋ + 1
  else if ⌊q⌋ % 2 = 0 then ⌊q⌋ else ⌊q⌋ + 1

/-- Python's `round(x, 2)` in the rational model: half-to-even rounding of
`100 * x`, divided back by `100`. -/
def round2 (q : ℚ) : ℚ :=
  (halfEvenRound (q * 100) : ℚ) / 100

/-- A rational that is representable with two decimal places. -/
def TwoDecimal (q : ℚ) : Prop :=
  ∃ z : ℤ, q = (z : ℚ) / 100

namespace FactCheckerAgent

/-- Status weight used by `calculate_overall_confidence` in the
fact-checker module.  The Python loop initialises `weight = 1.0` and only
the four enumerated statuses overwrite it, so any other status keeps
weight `1`. -/
def statusWeight (st : String) : ℚ :=
  if st = ("SUPPORTED" : String) then 1
  else if st = ("PARTIALLY_SUPPORTED" : String) then 3/5
  else if st = ("NOT_SUPPORTED" : String) then 1/10
  else if st = ("CONTRADICTED" : String) then 0
  else 1

/-- Running total of `confidence * weight` over the mapping's values
(the `total_confidence` accumulator of the Python loop). -/
def totalWeighted : List (String × ClaimVerification) → ℚ
  | [] => 0
  | (_, v) :: t => v.confidence * statusWeight v.verification_status + totalWeighted t

/-- The fact-checker module's `calculate_overall_confidence`: weighted
mean of the claim confidences, `0.0` on an empty mapping, rounded to two
decimal places. -/
def calculate_overall_confidence (verified_claims : List (String × ClaimVerification)) : ℚ :=
  if verified_claims = [] then 0
  else
    let total := totalWeighted verified_claims
    let count := verified_claims.length
    if 0 < count then round2 (total / count) else 0

end FactCheckerAgent

namespace FinalAnswerAgent

/-- Accumulator of the final-answer module's `calculate_overall_confidence`
loop: the weighted total and the count of entries whose status lies in the
four-value enumeration.  `SUPPORTED` contributes its confidence,
`PARTIALLY_SUPPORTED` contributes `0.7 * confidence`, `NOT_SUPPORTED` and
`CONTRADICTED` contribute nothing but are counted; any other status is
skipped entirely. -/
def validTotals : List (String × ClaimVerification) → ℚ × ℕ
  | [] => (0, 0)
  | (_, v) :: t =>
      let (tot, cnt) := validTotals t
      if v.verification_status = ("SUPPORTED" : String) then (tot + v.confidence, cnt + 1)
      else if v.verification_status = ("PARTIALLY_SUPPORTED" : String) then
        (tot + v.confidence * (7/10), cnt + 1)
      else if v.verification_status = ("NOT_SUPPORTED" : String)
          ∨ v.verification_status = ("CONTRADICTED" : String) then (tot, cnt + 1)
      else (tot, cnt)

/-- The final-answer module's `calculate_overall_confidence`: `0.0` on an
empty mapping or when no entry carries an enumerated status, otherwise the
capped, two-decimal weighted mean. -/
def calculate_overall_confidence (verified_claims : List (String × ClaimVerification)) : ℚ :=
  if verified_claims = [] then 0
  else
    let (total, valid) := validTotals verified_claims
    if valid = 0 then 0
    else min 100 (round2 (total / valid))

end FinalAnswerAgent

/-! ## The JSON model: values, parser, renderer, tolerant extraction -/

/-- JSON values as exchanged by the pipeline.  Numbers are integers:
the model parser fails on float literals instead of producing a float,
and objects are ordered association lists (Python preserves insertion
order; duplicate keys do not occur in the rendered fragment). -/
inductive JVal where
  | jnull : JVal
  | jbool : Bool → JVal
  | jnum : ℤ → JVal
  | jstr : String → JVal
  | jarr : List JVal → JVal
  | jobj : List (String × JVal) → JVal
deriving Repr

open JVal

/-- Whitespace skipped by the JSON grammar (space, tab, newline, return). -/
def isJsonWs (c : Char) : Bool :=
  c = ' ' || c = '\t' || c = '\n' || c = '\r'

/-- Decimal digit test. -/
def isDigitCh (c : Char) : Bool :=
  '0' ≤ c && c ≤ '9'

/-- Single-character escape sequences accepted after a backslash. -/
def escCharValue : Char → Option Char
  | '"' => some '"'
  | '\\' => some '\\'
  | '/' => some '/'
  | 'b' => some '\x08'
  | 'f' => some '\x0c'
  | 'n' => some '\n'
  | 'r' => some '\r'
  | 't' => some '\t'
  | _ => none

/-- Value of one hexadecimal digit. -/
def hexDigitValue (c : Char) : Option ℕ :=
  if '0' ≤ c && c ≤ '9' then some (c.toNat - 48)
  else if 'a' ≤ c && c ≤ 'f' then some (c.toNat - 97 + 10)
  else if 'A' ≤ c && c ≤ 'F' then some (c.toNat - 65 + 10)
  else none

/-- Contents of a JSON string after the opening quote: characters up to the
closing quote, decoding escapes, rejecting raw control characters. -/
def scanString : List Char → Option (List Char × List Char)
  | [] => none
  | '"' :: rest => some ([], rest)
  | '\\' :: 'u' :: a :: b :: c :: d :: rest => do
      let va ← hexDigitValue a
      let vb ← hexDigitValue b
      let vc ← hexDigitValue c
      let vd ← hexDigitValue d
      let (s, r) ← scanString rest
      pure (Char.ofNat (((va * 16 + vb) * 16 + vc) * 16 + vd) :: s, r)
  | '\\' :: e :: rest => do
      let ch ← escCharValue e
      let (s, r) ← scanString rest
      pure (ch :: s, r)
  | c :: rest =>
      if c.toNat < 32 then none
      else do
        let (s, r) ← scanString rest
        pure (c :: s, r)

/-- Numeric value of a list of decimal digit characters. -/
def digitsVal (ds : List Char) : ℕ :=
  ds.foldl (fun acc c => 10 * acc + (c.toNat - 48)) 0

/-- Unsigned integer literal: a digit run, honouring the JSON rule that a
literal starting with `0` is just `0` (remaining digits are left in the
input, as CPython's scanner does); a following `.`, `e` or `E` would start
a float literal, which the integer-only model rejects. -/
def scanNat (cs : List Char) : Option (ℕ × List Char) :=
  match cs.takeWhile isDigitCh, cs.dropWhile isDigitCh with
  | [], _ => none
  | d :: ds, rest =>
      match rest with
      | '.' :: _ => none
      | 'e' :: _ => none
      | 'E' :: _ => none
      | _ =>
          if d = '0' && ds ≠ [] then some (0, ds ++ rest)
          else some (digitsVal (d :: ds), rest)

/-- Signed integer literal. -/
def scanInt : List Char → Option (ℤ × List Char)
  | '-' :: cs => (scanNat cs).map (fun p => (-(p.1 : ℤ), p.2))
  | cs => (scanNat cs).map (fun p => ((p.1 : ℤ), p.2))

mutual

/-- One JSON value at the head of the input (whitespace first), in the
style of CPython's `json` scanner; `fuel` bounds the recursion depth and
is always sufficient when instantiated with the input length. -/
def jscan : ℕ → List Char → Option (JVal × List Char)
  | 0, _ => none
  | fuel + 1, cs =>
      match cs.dropWhile isJsonWs with
      | 'n' :: 'u' :: 'l' :: 'l' :: r => some (jnull, r)
      | 't' :: 'r' :: 'u' :: 'e' :: r => some (jbool true, r)
      | 'f' :: 'a' :: 'l' :: 's' :: 'e' :: r => some (jbool false, r)
      | '"' :: r => (scanString r).map (fun p => (jstr (String.mk p.1), p.2))
      | '[' :: r =>
          (match r.dropWhile isJsonWs with
           | ']' :: r2 => some (jarr [], r2)
           | other => (jscanList fuel other).map (fun p => (jarr p.1, p.2)))
      | '{' :: r =>
          (match r.dropWhile isJsonWs with
           | '}' :: r2 => some (jobj [], r2)
           | other => (jscanPairs fuel other).map (fun p => (jobj p.1, p.2)))
      | c :: r =>
          if c = '-' || isDigitCh c then
            (scanInt (c :: r)).map (fun p => (jnum p.1, p.2))
          else none
      | [] => none

/-- One or more comma-separated array elements followed by `]`. -/
def jscanList : ℕ → List Char → Option (List JVal × List Char)
  | 0, _ => none
  | fuel + 1, cs => do
      let (v, r) ← jscan fuel cs
      match r.dropWhile isJsonWs with
      | ',' :: r2 => (jscanList fuel r2).map (fun p => (v :: p.1, p.2))
      | ']' :: r2 => some ([v], r2)
      | _ => none

/-- One or more `"key": value` members followed by `}`. -/
def jscanPairs : ℕ → List Char → Option (List (String × JVal) × List Char)
  | 0, _ => none
  | fuel + 1, cs =>
      match cs.dropWhile isJsonWs with
      | '"' :: r => do
          let (k, r1) ← scanString r
          match r1.dropWhile isJsonWs with
          | ':' :: r2 => do
              let (v, r3) ← jscan fuel r2
              match r3.dropWhile isJsonWs with
              | ',' :: r4 => (jscanPairs fuel r4).map (fun p => ((String.mk k, v) :: p.1, p.2))
              | '}' :: r4 => some ([(String.mk k, v)], r4)
              | _ => none
          | _ => none
      | _ => none

end

/-- Python's `json.loads` on a character list: parse one value and demand
that only whitespace remains. -/
def jloadsL (cs : List Char) : Option JVal :=
  match jscan (cs.length + 1) cs with
  | some (v, r) => if r.dropWhile isJsonWs = [] then some v else none
  | none => none

/-- Python's `json.loads`. -/
def jloads (s : String) : Option JVal :=
  jloadsL s.toList

/-! ### Compact rendering -/

/-- Decimal digit characters of a natural number, most significant first,
accumulated onto `acc`. -/
def natDigitChars (n : ℕ) (acc : List Char) : List Char :=
  if h : n < 10 then Char.ofNat (48 + n) :: acc
  else natDigitChars (n / 10) (Char.ofNat (48 + n % 10) :: acc)
termination_by n
decreasing_by exact Nat.div_lt_self (by omega) (by omega)

/-- Characters of an integer literal. -/
def intChars (z : ℤ) : List Char :=
  if z < 0 then '-' :: natDigitChars z.natAbs []
  else natDigitChars z.natAbs []

/-- JSON escaping of one character, as `json.dumps` produces it. -/
def escapeJChar (c : Char) : List Char :=
  if c = '"' then ['\\', '"']
  else if c = '\\' then ['\\', '\\']
  else if c = '\n' then ['\\', 'n']
  else if c = '\r' then ['\\', 'r']
  else if c = '\t' then ['\\', 't']
  else if c = '\x08' then ['\\', 'b']
  else if c = '\x0c' then ['\\', 'f']
  else if c.toNat < 32 then
    ['\\', 'u', '0', '0',
     (if c.toNat / 16 < 10 then Char.ofNat (48 + c.toNat / 16) else Char.ofNat (87 + c.toNat / 16)),
     (if c.toNat % 16 < 10 then Char.ofNat (48 + c.toNat % 16) else Char.ofNat (87 + c.toNat % 16))]
  else [c]

/-- Characters of a rendered string literal. -/
def strLit (s : String) : List Char :=
  '"' :: (s.toList.flatMap escapeJChar ++ ['"'])

mutual

/-- Compact rendering of a JSON value (no whitespace, `,` and `:`
separators), the text form quantified over by the round-trip property. -/
def renderJ : JVal → List Char
  | jnull => ['n', 'u', 'l', 'l']
  | jbool true => ['t', 'r', 'u', 'e']
  | jbool false => ['f', 'a', 'l', 's', 'e']
  | jnum z => intChars z
  | jstr s => strLit s
  | jarr xs => '[' :: (renderSeq xs ++ [']'])
  | jobj kvs => '{' :: (renderPairs kvs ++ ['}'])

/-- Comma-separated renderings of array elements. -/
def renderSeq : List JVal → List Char
  | [] => []
  | [x] => renderJ x
  | x :: y :: t => renderJ x ++ ',' :: renderSeq (y :: t)

/-- Comma-separated renderings of object members. -/
def renderPairs : List (String × JVal) → List Char
  | [] => []
  | [(k, v)] => strLit k ++ ':' :: renderJ v
  | (k, v) :: m :: t => strLit k ++ ':' :: renderJ v ++ ',' :: renderPairs (m :: t)

end

/-- Rendering as a string. -/
def renderStr (v : JVal) : String :=
  String.mk (renderJ v)

mutual

/-- Rendering with a trailing comma inserted immediately before every
closing bracket of a non-empty array or object (the malformation the
round-trip claim allows). -/
def renderTC : JVal → List Char
  | jnull => ['n', 'u', 'l', 'l']
  | jbool true => ['t', 'r', 'u', 'e']
  | jbool false => ['f', 'a', 'l', 's', 'e']
  | jnum z => intChars z
  | jstr s => strLit s
  | jarr [] => ['[', ']']
  | jarr (x :: t) => '[' :: (renderTCSeq (x :: t) ++ [',', ']'])
  | jobj [] => ['{', '}']
  | jobj (kv :: t) => '{' :: (renderTCPairs (kv :: t) ++ [',', '}'])

def renderTCSeq : List JVal → List Char
  | [] => []
  | [x] => renderTC x
  | x :: y :: t => renderTC x ++ ',' :: renderTCSeq (y :: t)

def renderTCPairs : List (String × JVal) → List Char
  | [] => []
  | [(k, v)] => strLit k ++ ':' :: renderTC v
  | (k, v) :: m :: t => strLit k ++ ':' :: renderTC v ++ ',' :: renderTCPairs (m :: t)

end

/-! ### The tolerant extraction pipeline of `extract_json_from_text` -/

/-- Scan modelling `re.sub(r'```json\s*', '', text)`: every occurrence of
the literal ` ```json ` together with the following whitespace run is
removed, scanning left to right. -/
def cutFenceTag : List Char → List Char
  | '`' :: '`' :: '`' :: 'j' :: 's' :: 'o' :: 'n' :: r => cutFenceTag (r.dropWhile isPyWs)
  | c :: r => c :: cutFenceTag r
  | [] => []
termination_by cs => cs.length
decreasing_by
  all_goals simp only [List.length_cons]
  · have := (List.dropWhile_sublist (l := r) (p := isPyWs)).length_le
    omega
  · omega

/-- Scan modelling `re.sub(r'```\s*', '', text)`. -/
def cutFence : List Char → List Char
  | '`' :: '`' :: '`' :: r => cutFence (r.dropWhile isPyWs)
  | c :: r => c :: cutFence r
  | [] => []
termination_by cs => cs.length
decreasing_by
  all_goals simp only [List.length_cons]
  · have := (List.dropWhile_sublist (l := r) (p := isPyWs)).length_le
    omega
  · omega

/-- Prefix of `cs` up to and including the last occurrence of `c`
(`none` when `c` does not occur). -/
def upToLast (c : Char) (cs : List Char) : Option (List Char) :=
  match cs.reverse.dropWhile (fun x => x ≠ c) with
  | [] => none
  | l => some l.reverse

/-- Suffix of `cs` from the first occurrence of `o` (`none` when absent). -/
def fromFirst (o : Char) (cs : List Char) : Option (List Char) :=
  match cs.dropWhile (fun x => x ≠ o) with
  | [] => none
  | l => some l

/-- The span matched by the greedy DOTALL regex `o.*c`: from the first
occurrence of `o` that precedes the last occurrence of `c`, through that
last occurrence. -/
def grabSpan (o c : Char) (cs : List Char) : Option (List Char) :=
  (upToLast c cs).bind (fromFirst o)

/-- Scan modelling `re.sub(',\s*' + close, close, text)`: a comma whose
following whitespace run ends at `close` is removed together with that
whitespace, and scanning resumes after the bracket. -/
def repairCommaClose (close : Char) : List Char → List Char
  | [] => []
  | ',' :: r =>
      match h : r.dropWhile isPyWs with
      | c :: t =>
          if c = close then close :: repairCommaClose close t
          else ',' :: repairCommaClose close r
      | [] => ',' :: repairCommaClose close r
  | c :: r => c :: repairCommaClose close r
termination_by cs => cs.length
decreasing_by
  all_goals simp only [List.length_cons]
  · have h1 := (List.dropWhile_sublist (l := r) (p := isPyWs)).length_le
    rw [h] at h1
    simp only [List.length_cons] at h1
    omega
  · omega
  · omega
  · omega

namespace ClaimExtractorAgent

/-- The claim-extractor module's `extract_json_from_text`: strip code
fences, strip whitespace, grab the greedy `[.*]` span or else the greedy
`{.*}` span, strict-parse it, and on failure retry once after deleting
commas that directly precede a closing `]` and then those preceding a
closing `}`; `none` when everything fails. -/
def extract_json_from_text (s : String) : Option JVal :=
  let t := pyStripL (cutFence (cutFenceTag s.toList))
  match grabSpan '[' ']' t with
  | some span =>
      (match jloadsL span with
       | some v => some v
       | none => jloadsL (repairCommaClose '}' (repairCommaClose ']' span)))
  | none =>
      match grabSpan '{' '}' t with
      | some span =>
          (match jloadsL span with
           | some v => some v
           | none => jloadsL (repairCommaClose '}' (repairCommaClose ']' span)))
      | none => none

end ClaimExtractorAgent

namespace FactCheckerAgent

/-- Fallback object returned by the fact-checker module's parser when no
JSON object can be recovered from the text. -/
def parseFallback : JVal :=
  JVal.jobj [(("fallback" : String),
    JVal.jobj [(("verification_status" : String), JVal.jstr ("NOT_SUPPORTED" : String)),
               (("confidence" : String), JVal.jnum 0),
               (("evidence" : String), JVal.jstr ("JSON parsing failed" : String)),
               (("explanation" : String), JVal.jstr ("Could not parse verification results" : String))])]

/-- The fact-checker module's `extract_json_from_text`: like the
claim-extractor variant but it only looks for a `{.*}` span (never an
array), repairs `,}` before `,]`, and returns a fixed fallback object
instead of `none`. -/
def extract_json_from_text (s : String) : JVal :=
  let t := pyStripL (cutFence (cutFenceTag s.toList))
  match grabSpan '{' '}' t with
  | some span =>
      (match jloadsL span with
       | some v => v
       | none =>
          match jloadsL (repairCommaClose ']' (repairCommaClose '}' span)) with
          | some v => v
          | none => parseFallback)
  | none => parseFallback

end FactCheckerAgent

/-! ## Claim extraction -/

/-- Sentence delimiter class of the heuristic fallback split `[.!?]+`. -/
def isSentDelim (c : Char) : Bool :=
  c = '.' || c = '!' || c = '?'

/-- Model of `re.split(r'[.!?]+', text)`: maximal delimiter runs separate
segments; leading, trailing and empty segments appear as empty lists, as
`re.split` produces them. -/
def splitSentences : List Char → List (List Char)
  | [] => [[]]
  | c :: r =>
      if isSentDelim c then [] :: splitSentences (r.dropWhile isSentDelim)
      else (splitSentences r).modifyHead (fun seg => c :: seg)
termination_by cs => cs.length
decreasing_by
  all_goals simp only [List.length_cons]
  all_goals try omega
  all_goals exact Nat.lt_succ_of_le (List.Sublist.length_le (List.dropWhile_sublist _))

/-- Python truthiness of a parsed JSON value (`bool(x)` on the result of
`json.loads`). -/
def jtruthy : JVal → Bool
  | JVal.jnull => false
  | JVal.jbool b => b
  | JVal.jnum n => n ≠ 0
  | JVal.jstr s => s ≠ ("" : String)
  | JVal.jarr [] => false
  | JVal.jarr (_ :: _) => true
  | JVal.jobj [] => false
  | JVal.jobj (_ :: _) => true

namespace ClaimExtractorAgent

/-- Fixed claims returned when the claim-extraction collaborator call
raises. -/
def failureClaims : List String :=
  [("The text discusses workflow status check scripts" : String),
   ("Chatbots handle L0 diagnostics for workflow issues" : String),
   ("The system involves escalation procedures for complex cases" : String)]

/-- Heuristic fallback of `extract_claims`: split the model text on
sentence punctuation, keep stripped segments of length in `(20, 200)`,
and cap the list at five entries. -/
def sentenceFallback (text : String) : List JVal :=
  (((splitSentences text.toList).map pyStripL).filter
      (fun seg => 20 < seg.length && seg.length < 200)).take 5
    |>.map (fun seg => JVal.jstr (String.mk seg))

/-- The final filter of `extract_claims`: keep truthy string entries whose
stripped length exceeds ten characters. -/
def keptClaim : JVal → Option String
  | JVal.jstr s => if s ≠ ("" : String) && (pyStrip s).length > 10 then some s else none
  | _ => none

/-- The extraction prompt assembled by `extract_claims`. -/
def extractPrompt (answer_text : String) : String :=
  ("\nYou are a claim extraction expert. Extract concise factual claims from the following text.\nEach claim should be independently verifiable and written as a simple factual statement.\n\nFocus on extracting:\n- Specific facts and statements\n- Process descriptions\n- Technical details\n- Quantitative information\n- Procedural steps\n\nTEXT:\n"
    ++ answer_text
    ++ "\n\nReturn your output as a pure JSON list of strings, e.g.:\n[\"Claim 1\", \"Claim 2\", \"Claim 3\"]\n\nIMPORTANT: If the text contains no verifiable factual claims, return an empty list [].\nReturn a pure JSON and DONT USE: ```json\n")

/-- The claim-extractor module's `extract_claims`.  `answer_text` is the
draft to extract from; `complete` is the collaborator (an `.error` models
a raised exception, `.ok` carries `response.text`).  Parsing strategies,
the sentence-splitting fallback, the blank-input sentinel and the fixed
failure fallback follow the source. -/
def extract_claims (complete : String → Except String String) (answer_text : String) :
    List String :=
  if answer_text = ("" : String) || pyStrip answer_text = ("" : String) then
    [("No content available for claim extraction" : String)]
  else
    match complete (extractPrompt answer_text) with
    | .error _ => failureClaims
    | .ok text =>
        let parsed : Option JVal :=
          match jloads text with
          | some v => some v
          | none => extract_json_from_text text
        let stage3 : List JVal ⊕ JVal :=
          match parsed with
          | some v => if jtruthy v then Sum.inr v else Sum.inl (sentenceFallback text)
          | none => Sum.inl (sentenceFallback text)
        let asList : List JVal :=
          match stage3 with
          | Sum.inl segs => segs
          | Sum.inr (JVal.jarr xs) => xs
          | Sum.inr v => if jtruthy v then [v] else []
        asList.filterMap keptClaim

end ClaimExtractorAgent

/-! ## Documents and the reranker -/

/-- A LangChain document as the retriever returns it: page content plus a
metadata dictionary (modelled as an ordered association list). -/
structure LCDoc where
  page_content : String
  metadata : List (String × String)
deriving DecidableEq, Repr

/-- Association-list lookup, modelling `dict.__getitem__`/`dict.get`. -/
def assocGet? {α : Type} : List (String × α) → String → Option α
  | [], _ => none
  | (k, v) :: t, key => if k = key then some v else assocGet? t key

/-- Python's `d.get(key, default)`. -/
def assocGetD {α : Type} (m : List (String × α)) (key : String) (dflt : α) : α :=
  (assocGet? m key).getD dflt

/-- A document dictionary in the reranker's format: `content`, `metadata`
and, once the reranker has run, the `score` key it writes into the dict. -/
structure RDoc where
  content : String
  metadata : List (String × String)
  score : Option ℚ
deriving DecidableEq, Repr

/-- The adapter `convert_docs_to_reranker_format`: fresh dictionaries with
`content`/`metadata` drawn from each LangChain document (no `score` key
yet). -/
def convert_docs_to_reranker_format (docs : List LCDoc) : List RDoc :=
  docs.map (fun d => ⟨d.page_content, d.metadata, none⟩)

/-- The loop `for i, s in enumerate(scores): docs[i]["score"] = float(s)`:
the input dictionaries after the reranker has written its scores into
them. -/
def assignScores : List RDoc → List ℚ → List RDoc
  | d :: ds, s :: ss => ⟨d.content, d.metadata, some s⟩ :: assignScores ds ss
  | ds, [] => ds
  | [], _ => []

/-- The sort key `x["score"]` (every dictionary has been assigned a score
when the lengths of `docs` and `scores` agree). -/
def scoreKey (d : RDoc) : ℚ :=
  d.score.getD 0

/-- Comparison realising `sorted(..., key=lambda x: x["score"],
reverse=True)`: a stable descending sort by score. -/
def rerankLe (a b : RDoc) : Bool :=
  scoreKey b ≤ scoreKey a

/-- Outcome of one `rerank` call: the returned ranking, the post-call
contents of the caller's document list (observing the in-place `score`
writes), and whether the external scorer was consulted. -/
structure RerankResult where
  ranked : List RDoc
  docs_after : List RDoc
  scorer_called : Bool
deriving DecidableEq, Repr

namespace RerankerAgent

/-- The method `RerankerAgent.rerank`.  The external cross-encoder is the
function argument `score` (an `.error` models a raised exception, which
the caller's stage boundary catches).  An empty document list
short-circuits without consulting the scorer; otherwise every document is
paired with the query, scored, assigned its score in place, and the list
is sorted stably by descending score and truncated to `top_k`. -/
def rerank (score : List (String × String) → Except String (List ℚ))
    (query : String) (docs : List RDoc) (top_k : ℕ) : Except String RerankResult :=
  match docs with
  | [] => .ok ⟨[], [], false⟩
  | _ :: _ =>
      match score (docs.map (fun d => (query, d.content))) with
      | .error e => .error e
      | .ok scores =>
          let docs2 := assignScores docs scores
          .ok ⟨(docs2.mergeSort rerankLe).take top_k, docs2, true⟩

end RerankerAgent

/-! ## Fact checking -/

/-- Pairs each list element with its position, starting at `i`
(Python's `enumerate`). -/
def enumFrom {α : Type} (i : ℕ) : List α → List (ℕ × α)
  | [] => []
  | x :: t => (i, x) :: enumFrom (i + 1) t

/-- Python-dict assignment `m[k] = v`: overwrite in place when the key
exists, append otherwise (insertion order is preserved). -/
def dictSet {α : Type} : List (String × α) → String → α → List (String × α)
  | [], k, v => [(k, v)]
  | (k0, v0) :: t, k, v => if k0 = k then (k0, v) :: t else (k0, v0) :: dictSet t k v

/-- A dictionary built from a sequence of assignments in order
(comprehensions and assignment loops). -/
def pyDict {α : Type} (pairs : List (String × α)) : List (String × α) :=
  pairs.foldl (fun acc kv => dictSet acc kv.1 kv.2) []

/-- Occurrences of key `k` in the mapping (a Python dict always has
exactly one entry per present key). -/
def countKey {α : Type} (m : List (String × α)) (k : String) : ℕ :=
  (m.filter (fun kv => kv.1 = k)).length

namespace FactCheckerAgent

/-- Synthetic entry for a claim the parsed verification output does not
cover. -/
def missingVerif : ClaimVerification :=
  ⟨("NOT_SUPPORTED" : String), 0,
   ("Claim not found in verification results" : String),
   ("Verification system did not process this claim" : String)⟩

/-- Synthetic entry produced for every claim when the fact-checking
collaborator call raises with message `e`. -/
def failureVerif (e : String) : ClaimVerification :=
  ⟨("NOT_SUPPORTED" : String), 0,
   ("System error: " ++ e),
   ("Fact checking failed due to system error" : String)⟩

/-- Reconciliation loop of `fact_check_claims`: for the `i`-th claim, the
first parsed entry whose key contains the claim text or the tag
`Claim i+1` wins; a claim with no matching key receives the synthetic
missing-claim entry.  Results are written into a Python dict keyed by the
claim text itself. -/
def reconcile (results : List (String × ClaimVerification)) :
    ℕ → List String → List (String × ClaimVerification) → List (String × ClaimVerification)
  | _, [], acc => acc
  | i, c :: rest, acc =>
      let entry :=
        match results.find? (fun kv => pySub c kv.1 || pySub ("Claim " ++ toString (i + 1)) kv.1) with
        | some kv => kv.2
        | none => missingVerif
      reconcile results (i + 1) rest (dictSet acc c entry)

/-- Claims listing of the verification prompt (`1. claim`, one per line). -/
def claimsText (claims : List String) : String :=
  String.intercalate ("\n") ((enumFrom 0 claims).map (fun ic => toString (ic.1 + 1) ++ ". " ++ ic.2))

/-- Context block of the verification prompt: document contents joined by
blank lines (`content` field of the reranker-format dictionaries). -/
def contextText (docs : List RDoc) : String :=
  String.intercalate ("\n\n") (docs.map (fun d => d.content))

/-- The verification prompt assembled by `fact_check_claims` (JSON braces
of the format example written as escaped characters). -/
def verifyPrompt (ctx claims : String) : String :=
  ("\n**TASK**: You are a factual verification expert. Verify each claim against the provided context documents.\n\n**CONTEXT DOCUMENTS**:\n"
    ++ ctx
    ++ "\n\n**CLAIMS TO VERIFY**:\n"
    ++ claims
    ++ "\n\n**VERIFICATION CRITERIA**:\n- SUPPORTED: Claim is clearly and directly supported by evidence in the context\n- PARTIALLY_SUPPORTED: Some evidence exists but is incomplete or indirect  \n- NOT_SUPPORTED: No evidence found in the context\n- CONTRADICTED: Evidence directly contradicts the claim\n\n**REQUIRED OUTPUT FORMAT** (JSON only):\n\x7b\n  \"The workflow status check script for chatbots resolves L0 issues\": \x7b\n    \"verification_status\": \"SUPPORTED|PARTIALLY_SUPPORTED|NOT_SUPPORTED|CONTRADICTED\",\n    \"confidence\": 0-100,\n    \"evidence\": \"Direct quotes from context that support/contradict\",\n    \"explanation\": \"Brief reasoning for the verdict\"\n  \x7d,\n  \"Next claim text here\": \x7b\n    \"verification_status\": \"SUPPORTED\",\n    \"confidence\": 95,\n    \"evidence\": \"Specific quote from document...\",\n    \"explanation\": \"This is directly stated in the context...\"\n  \x7d\n\x7d\n\n**IMPORTANT**: \n- Use the EXACT claim text as keys (copy from the CLAIMS TO VERIFY section)\n- Be strict - only mark as SUPPORTED if clear evidence exists\n- Include direct quotes as evidence\n- Confidence should reflect how strongly the evidence supports the claim\n\n**START YOUR RESPONSE**:\n```json\n\x7b\n")

/-- The function `fact_check_claims`.  The collaborator call plus the
structured-output parsing is abstracted as `verify`, which returns either
the parsed verification mapping (`.ok`) or a raised exception's message
(`.error`); the parser itself is modelled separately as
`extract_json_from_text`.  On success every claim is reconciled against
the parsed mapping; on failure every claim receives the synthetic failure
entry. -/
def fact_check_claims (verify : String → Except String (List (String × ClaimVerification)))
    (claims : List String) (context_docs : List RDoc) : List (String × ClaimVerification) :=
  let prompt := verifyPrompt (contextText context_docs) (claimsText claims)
  match verify prompt with
  | .ok results => reconcile results 0 claims []
  | .error e => pyDict (claims.map (fun c => (c, failureVerif e)))

end FactCheckerAgent

/-! ## Final answer composition -/

/-- The `claim_breakdown` tallies of the final answer. -/
structure Breakdown where
  supported : ℕ
  partially_supported : ℕ
  not_supported : ℕ
  contradicted : ℕ
deriving DecidableEq, Repr

/-- Sum of the four tallies. -/
def Breakdown.total (b : Breakdown) : ℕ :=
  b.supported + b.partially_supported + b.not_supported + b.contradicted

/-- The final answer record.  `claim_breakdown` is optional because the
error handler's record omits the key entirely. -/
structure FinalAnswerR where
  final_answer : String
  confidence_score : ℚ
  verified_sources : List String
  limitations : String
  claim_breakdown : Option Breakdown
deriving DecidableEq, Repr

/-- First-occurrence deduplication.  Models the `set()` of source names;
Python's set iteration order is unspecified, the model fixes the order of
first insertion. -/
def dedupeFirst : List String → List String
  | [] => []
  | x :: t => x :: dedupeFirst (t.filter (fun y => y ≠ x))
termination_by l => l.length
decreasing_by
  simp only [List.length_cons]
  exact Nat.lt_succ_of_le (List.Sublist.length_le (List.filter_sublist _))

namespace FinalAnswerAgent

/-- Display name of one verified-claims key: keys shaped like
`claim_1_text` are re-labelled `Claim claim_1_text`, any other key is the
claim text itself. -/
def actualClaim (k : String) : String :=
  if pyStartsWith ("claim_") k && pySub ("_text") k then ("Claim " ++ k) else k

/-- Claims bucketed under one verification status. -/
def claimsWithStatus (st : String) (verified_claims : List (String × ClaimVerification)) :
    List String :=
  (verified_claims.filter (fun kv => kv.2.verification_status = st)).map
    (fun kv => actualClaim kv.1)

/-- Source label of the `i`-th context document: its `source` metadata if
present, else `Document i+1`. -/
def docSource (i : ℕ) (d : LCDoc) : String :=
  assocGetD d.metadata ("source") ("Document " ++ toString (i + 1))

/-- Deduplicated source labels of the context documents (the
`sources_used` set). -/
def sourcesUsed (docs : List LCDoc) : List String :=
  dedupeFirst ((enumFrom 0 docs).map (fun idoc => docSource idoc.1 idoc.2))

/-- Source-tagged context block (`context_with_sources`, joined with
newlines in the prompt). -/
def contextWithSources (docs : List LCDoc) : String :=
  String.intercalate ("\n")
    ((enumFrom 0 docs).map (fun idoc =>
      "[Source: " ++ docSource idoc.1 idoc.2 ++ "]\n" ++ idoc.2.page_content))

/-- Count block shared by both prompt variants. -/
def verificationCounts (nSup nPart nNot nCon : ℕ) : String :=
  ("**VERIFICATION RESULTS**:\n- SUPPORTED Claims: " ++ toString nSup
    ++ "\n- PARTIALLY SUPPORTED: " ++ toString nPart
    ++ "\n- NOT SUPPORTED: " ++ toString nNot
    ++ "\n- CONTRADICTED: " ++ toString nCon)

/-- Prompt used when at least one claim is SUPPORTED. -/
def positivePrompt (query ctx : String) (nSup nPart nNot nCon : ℕ) (conf : ℚ) : String :=
  ("\n**TASK**: You are a final answer synthesizer. Create a comprehensive, well-structured answer to the user's query using the verified claims and context provided.\n\n**ORIGINAL QUERY**: "
    ++ query ++ "\n\n" ++ verificationCounts nSup nPart nNot nCon
    ++ "\n\n**SUPPORTING CONTEXT DOCUMENTS**:\n" ++ ctx
    ++ "\n\n**INSTRUCTIONS**:\n1. Create a clear, well-structured answer focusing on the SUPPORTED claims\n2. Include specific details and examples from the context\n3. Cite your sources using [Source: ...] notation\n4. Be honest about any limitations or uncertainties\n5. The overall confidence in this answer is "
    ++ toString conf ++ "%\n\n**FINAL ANSWER**:\n")

/-- Prompt used when no claim is SUPPORTED. -/
def limitedPrompt (query ctx : String) (nSup nPart nNot nCon : ℕ) (conf : ℚ) : String :=
  ("\n**TASK**: You are a final answer synthesizer. The fact-checking process found limited support for claims related to the user's query.\n\n**ORIGINAL QUERY**: "
    ++ query ++ "\n\n" ++ verificationCounts nSup nPart nNot nCon
    ++ "\n\n**CONTEXT DOCUMENTS**:\n" ++ ctx
    ++ "\n\n**INSTRUCTIONS**:\n1. Honestly state that limited verified information was found\n2. Mention what the documents do contain that might be related\n3. Suggest what additional information would be needed\n4. The overall confidence in available information is "
    ++ toString conf ++ "%\n\n**FINAL ANSWER**:\n")

/-- The function `generate_final_answer`.  The LLM completion is the
function argument `complete` (an `.error` models a raised exception,
handled by the function's own fallback branch).  Tallies, aggregate
confidence, deduplicated sources and the claim breakdown follow the
source; entries whose status is outside the four-value enumeration fall
into no bucket. -/
def generate_final_answer (complete : String → Except String String)
    (original_query : String) (verified_claims : List (String × ClaimVerification))
    (context_docs : List LCDoc) : FinalAnswerR :=
  let nSup := (claimsWithStatus ("SUPPORTED") verified_claims).length
  let nPart := (claimsWithStatus ("PARTIALLY_SUPPORTED") verified_claims).length
  let nNot := (claimsWithStatus ("NOT_SUPPORTED") verified_claims).length
  let nCon := (claimsWithStatus ("CONTRADICTED") verified_claims).length
  let sources := sourcesUsed context_docs
  let ctx := contextWithSources context_docs
  let overall := calculate_overall_confidence verified_claims
  let breakdown : Breakdown := ⟨nSup, nPart, nNot, nCon⟩
  let prompt :=
    if 0 < nSup then positivePrompt original_query ctx nSup nPart nNot nCon overall
    else limitedPrompt original_query ctx nSup nPart nNot nCon overall
  match complete prompt with
  | .ok text =>
      ⟨text, overall, sources,
       ("Based on verification: " ++ toString nSup ++ " supported, "
         ++ toString nNot ++ " not supported claims"),
       some breakdown⟩
  | .error e =>
      ⟨("I encountered an error while generating the final answer: " ++ e),
       overall, sources,
       ("System error during answer generation"),
       some breakdown⟩

end FinalAnswerAgent

/-! ## The pipeline: state, collaborator environment, nodes, orchestration -/

/-- The external collaborators, one field per call the stages make.  An
`.error` value models the call raising an exception with that message; an
`.ok` value a normal return.  `llm_verify` stands for the verification
completion followed by the structured-output parse, abstracted as the
parsed mapping (the parser itself is modelled separately as
`extract_json_from_text`). -/
structure Env where
  llm_reformulate : String → Except String String
  search : String → ℕ → Except String (List LCDoc)
  cross_score : List (String × String) → Except String (List ℚ)
  llm_reasoning : String → Except String String
  llm_extract : String → Except String String
  llm_verify : String → Except String (List (String × ClaimVerification))
  llm_final : String → Except String String

/-- The shared pipeline state (`ResearchState`).  `refined_query` is an
`Option` so that the Python `state.get("refined_query", ...)` default can
be modelled: `none` is an absent key, and the initial state stores
`some ""` just as `run_research_pipeline` initialises the key with the
empty string. -/
structure RState where
  original_query : String
  refined_query : Option String
  retrieved_docs : List LCDoc
  reranked_docs : List LCDoc
  draft_answer : String
  extracted_claims : List String
  verified_claims : List (String × ClaimVerification)
  final_answer : Option FinalAnswerR
  error : String
deriving DecidableEq, Repr

/-- The expression `state.get("refined_query", state["original_query"])`
shared by the retrieval, reranking and reasoning nodes: the value under
the `refined_query` key whenever the key is present — even when it is the
empty string — and `original_query` only when the key is absent. -/
def refinedOrOriginal (s : RState) : String :=
  s.refined_query.getD s.original_query

/-- The query-reformulation prompt (`PROMPT_TEMPLATE.format(query=...)`). -/
def reformulatePrompt (q : String) : String :=
  ("\nYou are a query understanding agent.\nYour job is to reformulate vague or incomplete user queries into a clear, specific, and well-structured search question.\n\nExamples:\n- Input: \"workflow script bots\"\n  Output: \"Show me diagnostic chatbot scripts that handle workflow status issues.\"\n\n- Input: \"approval delay issue\"\n  Output: \"Explain possible causes and troubleshooting steps for delayed workflow approvals.\"\n\nNow reformulate this query clearly:\n\""
    ++ q ++ "\"\n")

/-- The function `reformulate_query`: one collaborator call, stripped. -/
def reformulate_query (env : Env) (q : String) : Except String String :=
  (env.llm_reformulate (reformulatePrompt q)).map pyStrip

/-- The function `run_retriever` (with `retrieve_docs` inlined): any
retrieval failure is caught inside the retriever and yields the empty
list, never an exception. -/
def run_retriever (env : Env) (q : String) (top_k : ℕ) : List LCDoc :=
  match env.search q top_k with
  | .ok ds => ds
  | .error _ => []

/-- Node 1, `query_understanding_node`. -/
def query_understanding_node (env : Env) (s : RState) : RState :=
  match reformulate_query env s.original_query with
  | .ok r => { s with refined_query := some r }
  | .error e => { s with error := ("Query understanding failed: " ++ e) }

/-- Node 2, `retrieval_node`.  Its `except` branch is unreachable in the
model because `run_retriever` already converts failures to `[]`. -/
def retrieval_node (env : Env) (s : RState) : RState :=
  { s with retrieved_docs := run_retriever env (refinedOrOriginal s) 5 }

/-- Node 3, `reranker_node`: converts the retrieved documents to the
reranker's dictionary format, reranks with `top_k = 3`, and re-associates
every ranked dictionary with the first retrieved document of identical
page content (ranked items without a match are dropped). -/
def reranker_node (env : Env) (s : RState) : RState :=
  match s.retrieved_docs with
  | [] => { s with reranked_docs := [] }
  | _ :: _ =>
      match RerankerAgent.rerank env.cross_score (refinedOrOriginal s)
          (convert_docs_to_reranker_format s.retrieved_docs) 3 with
      | .error e => { s with error := ("Reranking failed: " ++ e) }
      | .ok res =>
          { s with reranked_docs :=
              (res.ranked.filterMap
                (fun rd => s.retrieved_docs.find? (fun od => od.page_content = rd.content))) }

/-- The reasoning prompt of node 4 (the f-string keeps its source
indentation). -/
def reasoningPrompt (ctx query : String) : String :=
  ("\n        You are an intelligent reasoning agent.\n        Using the following context, answer the question precisely and clearly.\n        Be concise, factual, and grounded only in the given context.\n\n        CONTEXT:\n        "
    ++ ctx ++ "\n\n        QUESTION:\n        " ++ query ++ "\n\n        ANSWER:\n        ")

/-- Node 4, `reasoning_node`, with its in-place write made observable: the
boolean records whether the node assigned into the state dictionary it
received and returned that same dictionary (the empty-context path does;
every other path builds a fresh `{**state, ...}` dictionary). -/
def reasoning_node_run (env : Env) (s : RState) : RState × Bool :=
  let context_docs := if s.reranked_docs = [] then s.retrieved_docs else s.reranked_docs
  match context_docs with
  | [] => ({ s with draft_answer := ("No relevant documents found to answer the query.") }, true)
  | _ :: _ =>
      let ctx := String.intercalate ("\n\n") (context_docs.map (fun d => d.page_content))
      match env.llm_reasoning (reasoningPrompt ctx (refinedOrOriginal s)) with
      | .ok t => ({ s with draft_answer := t }, false)
      | .error e => ({ s with error := ("Reasoning failed: " ++ e) }, false)

/-- Node 4 as the graph sees it. -/
def reasoning_node (env : Env) (s : RState) : RState :=
  (reasoning_node_run env s).1

/-- Node 5, `claim_extraction_node`.  `extract_claims` never raises, so
the node's `except` branch is unreachable in the model. -/
def claim_extraction_node (env : Env) (s : RState) : RState :=
  { s with extracted_claims := (ClaimExtractorAgent.extract_claims env.llm_extract s.draft_answer) }

/-- Synthetic entry the fact-checking node writes for every claim when no
context documents are available. -/
def noDocsVerif : ClaimVerification :=
  ⟨("NOT_SUPPORTED" : String), 0,
   ("No documents available for verification" : String),
   ("Cannot verify claims without source documents" : String)⟩

/-- Node 6, `fact_checking_node`: reranked documents if any, else
retrieved; without context every claim gets the synthetic no-documents
entry and no collaborator call is made. -/
def fact_checking_node (env : Env) (s : RState) : RState :=
  let context_docs := if s.reranked_docs = [] then s.retrieved_docs else s.reranked_docs
  match context_docs with
  | [] =>
      { s with verified_claims := pyDict (s.extracted_claims.map (fun c => (c, noDocsVerif))) }
  | _ :: _ =>
      { s with verified_claims :=
          (FactCheckerAgent.fact_check_claims env.llm_verify s.extracted_claims
            (convert_docs_to_reranker_format context_docs)) }

/-- Node 7, `final_answer_node`. -/
def final_answer_node (env : Env) (s : RState) : RState :=
  let context_docs := if s.reranked_docs = [] then s.retrieved_docs else s.reranked_docs
  { s with final_answer :=
      (some (FinalAnswerAgent.generate_final_answer env.llm_final s.original_query
        s.verified_claims context_docs)) }

/-- The error handler, `error_node`: an error-shaped final answer with
confidence `0`, no sources, the fixed limitations text and no
`claim_breakdown` key.  (`state.get("error", ...)` reads the always
present `error` key of the threaded state.) -/
def error_node (s : RState) : RState :=
  { s with final_answer :=
      (some ⟨("❌ Pipeline Error: " ++ s.error), 0, [],
             ("System error prevented complete processing"), none⟩) }

/-- The stages of the orchestrator's state machine. -/
inductive Stage where
  | queryRefine
  | retrieve
  | rerankStage
  | draft
  | extractClaimsStage
  | verifyClaims
  | composeFinal
  | errorHandler
deriving DecidableEq, Repr

/-- The graph-level exceptions of the model: `InvalidUpdateError`, raised
when two tasks of one superstep write the same reducer-less state channel,
and `GraphRecursionError` for the recursion limit (unreachable on this
acyclic graph; present to make the executor total). -/
inductive GraphError where
  | invalidUpdate
  | recursionLimit
deriving DecidableEq, Repr

/-- `str(e)` for a graph-level exception.  The interpolated text of these
exceptions is produced by the LangGraph library, not by this repository;
the model abstracts it as the exception class name. -/
def graphErrorMsg : GraphError → String
  | GraphError.invalidUpdate => ("InvalidUpdateError" : String)
  | GraphError.recursionLimit => ("GraphRecursionError" : String)

/-- The unconditional `add_edge` wiring of `build_research_graph`:
`final_answer → END` is `none`, and `error_handler` has no outgoing edge
at all. -/
def staticNext : Stage → Option Stage
  | Stage.queryRefine => some Stage.retrieve
  | Stage.retrieve => some Stage.rerankStage
  | Stage.rerankStage => some Stage.draft
  | Stage.draft => some Stage.extractClaimsStage
  | Stage.extractClaimsStage => some Stage.verifyClaims
  | Stage.verifyClaims => some Stage.composeFinal
  | Stage.composeFinal => none
  | Stage.errorHandler => none

/-- The `add_conditional_edges` routers: each of the six nodes before
`final_answer` routes to the error handler when `state.get("error")` is
truthy (non-empty) and to the next stage otherwise; `final_answer` and
`error_handler` have no conditional edges. -/
def condNext : Stage → RState → Option Stage
  | Stage.queryRefine, s =>
      some (if s.error = ("" : String) then Stage.retrieve else Stage.errorHandler)
  | Stage.retrieve, s =>
      some (if s.error = ("" : String) then Stage.rerankStage else Stage.errorHandler)
  | Stage.rerankStage, s =>
      some (if s.error = ("" : String) then Stage.draft else Stage.errorHandler)
  | Stage.draft, s =>
      some (if s.error = ("" : String) then Stage.extractClaimsStage else Stage.errorHandler)
  | Stage.extractClaimsStage, s =>
      some (if s.error = ("" : String) then Stage.verifyClaims else Stage.errorHandler)
  | Stage.verifyClaims, s =>
      some (if s.error = ("" : String) then Stage.composeFinal else Stage.errorHandler)
  | Stage.composeFinal, _ => none
  | Stage.errorHandler, _ => none

/-- The node function registered under each graph name. -/
def runNode (env : Env) : Stage → RState → RState
  | Stage.queryRefine => query_understanding_node env
  | Stage.retrieve => retrieval_node env
  | Stage.rerankStage => reranker_node env
  | Stage.draft => reasoning_node env
  | Stage.extractClaimsStage => claim_extraction_node env
  | Stage.verifyClaims => fact_checking_node env
  | Stage.composeFinal => final_answer_node env
  | Stage.errorHandler => error_node

/-- The tasks of the superstep after node `n` finished with output `s`:
the `add_edge` target and the conditional router target, the two triggers
of one node de-duplicated into a single task (LangGraph activates each
node at most once per superstep). -/
def nextFrontier (n : Stage) (s : RState) : List Stage :=
  match staticNext n, condNext n s with
  | none, none => []
  | some a, none => [a]
  | none, some b => [b]
  | some a, some b => if a = b then [a] else [a, b]

/-- Pregel-style execution of the compiled graph.  A superstep with a
single task runs its node and applies the returned dictionary as the new
state.  A superstep with two distinct tasks runs both nodes against the
same snapshot — their collaborator calls happen, so both stages are
recorded in the trace — but applying the two full `{**state, ...}` writes
fails: every key of the reducer-less `ResearchState` receives two values,
so the step raises `InvalidUpdateError` and no further superstep runs
(the two computed dictionaries are discarded).  Exhausted fuel models
`GraphRecursionError`. -/
def runGraph (env : Env) : ℕ → RState → List Stage → List Stage →
    Except (GraphError × List Stage) (RState × List Stage)
  | 0, _, _, trace => Except.error (GraphError.recursionLimit, trace)
  | fuel + 1, s, frontier, trace =>
      match frontier with
      | [] => Except.ok (s, trace)
      | [n] =>
          let s2 := runNode env n s
          runGraph env fuel s2 (nextFrontier n s2) (trace ++ [n])
      | ns => Except.error (GraphError.invalidUpdate, trace ++ ns)

/-- `research_graph.invoke(initial_state)` with the default LangGraph
recursion limit of 25 supersteps. -/
def graphInvoke (env : Env) (s : RState) :
    Except (GraphError × List Stage) (RState × List Stage) :=
  runGraph env 25 s [Stage.queryRefine] []

/-- The initial `ResearchState` literal of `run_research_pipeline`: every
key present, strings empty, containers empty. -/
def initialState (q : String) : RState :=
  ⟨q, some (""), [], [], "", [], [], none, ""⟩

/-- What `run_research_pipeline` returns, with the trace of executed node
functions and the caught exception made observable: the final state
dictionary on normal completion, and on a graph-level exception the
dictionary built by the outer `except` — the fixed critical-failure
answer record plus the stringified exception under the `error` key. -/
inductive RunResult where
  | completed (s : RState) (trace : List Stage)
  | failed (answer : FinalAnswerR) (error : String) (trace : List Stage) (g : GraphError)
deriving DecidableEq, Repr

/-- The `final_answer` key of the returned dictionary. -/
def RunResult.finalAnswer : RunResult → Option FinalAnswerR
  | RunResult.completed s _ => s.final_answer
  | RunResult.failed a _ _ _ => some a

/-- The stages whose node functions executed during the run. -/
def RunResult.trace : RunResult → List Stage
  | RunResult.completed _ t => t
  | RunResult.failed _ _ t _ => t

/-- The pipeline `run_research_pipeline`: build the initial state, invoke
the compiled graph, and convert an escaped exception to the fixed
critical-failure record exactly as the outer `except` of the source function does. -/
def run_research_pipeline (env : Env) (q : String) : RunResult :=
  match graphInvoke env (initialState q) with
  | Except.ok (s, trace) => RunResult.completed s trace
  | Except.error (g, trace) =>
      RunResult.failed
        ⟨("❌ System Error: " ++ graphErrorMsg g), 0, [],
         ("Critical system failure" : String), none⟩
        (graphErrorMsg g) trace g

/-- Collaborator environment whose reformulation model returns the empty
string, whose search echoes its query into a single document, and whose
remaining collaborators return fixed benign values (used to exercise the
retrieval-query selection). -/
def envEmptyRefine : Env :=
  ⟨fun _ => .ok (""), fun q _ => .ok [⟨q, []⟩], fun ps => .ok (ps.map (fun _ => 0)),
   fun _ => .ok ("draft text"), fun _ => .ok ("[]"), fun _ => .ok [], fun _ => .ok ("ans")⟩

/-- Collaborator environment whose reformulation call raises. -/
def envRefineBoom : Env :=
  ⟨fun _ => .error ("boom"), fun _ _ => .ok [], fun _ => .ok [], fun _ => .ok (""),
   fun _ => .ok (""), fun _ => .ok [], fun _ => .ok ("")⟩
/-! ## Safe JSON fragment for the round-trip property -/

/-- Characters over which rendered strings interact with none of the
extraction machinery: printable (no raw control characters, which strict
JSON rejects), no quote or backslash (no escaping), no backtick (no fence
interference), and no brackets or braces (no span or repair
interference). -/
def safeChar (c : Char) : Bool :=
  32 ≤ c.toNat &&
    !(c = '"' || c = '\\' || c = '`' || c = '[' || c = ']' || c = '{' || c = '}')

/-- A string of safe characters. -/
def safeS (s : String) : Bool :=
  s.toList.all safeChar

mutual

/-- A JSON value whose every string (member keys included) is safe. -/
def safeV : JVal → Bool
  | JVal.jnull => true
  | JVal.jbool _ => true
  | JVal.jnum _ => true
  | JVal.jstr s => safeS s
  | JVal.jarr xs => safeVL xs
  | JVal.jobj kvs => safeVP kvs

def safeVL : List JVal → Bool
  | [] => true
  | x :: t => safeV x && safeVL t

def safeVP : List (String × JVal) → Bool
  | [] => true
  | (k, v) :: t => safeS k && safeV v && safeVP t

end

mutual

/-- A JSON value containing no array anywhere (so an object's rendering
contains no square bracket and the greedy array span cannot fire). -/
def arrFree : JVal → Bool
  | JVal.jnull => true
  | JVal.jbool _ => true
  | JVal.jnum _ => true
  | JVal.jstr _ => true
  | JVal.jarr _ => false
  | JVal.jobj kvs => arrFreeP kvs

def arrFreeP : List (String × JVal) → Bool
  | [] => true
  | (_, v) :: t => arrFree v && arrFreeP t

end

/-- A value whose trailing-comma rendering coincides with its plain
rendering: scalars and empty containers (a non-empty array or object
always receives an inserted comma). -/
def tcFree : JVal → Bool
  | JVal.jarr (_ :: _) => false
  | JVal.jobj (_ :: _) => false
  | _ => true

/-- The optional code fences the round-trip claim allows. -/
inductive FenceWrap where
  | plain
  | fencedJson
  | fenced
deriving DecidableEq, Repr

/-- Wrap a rendered value in the chosen fence. -/
def applyFence : FenceWrap → String → String
  | FenceWrap.plain, s => s
  | FenceWrap.fencedJson, s => ("```json\n" ++ s ++ "\n```")
  | FenceWrap.fenced, s => ("```\n" ++ s ++ "\n```")

/-- Rendering with or without inserted trailing commas. -/
def renderMaybeTC (tc : Bool) (v : JVal) : List Char :=
  if tc then renderTC v else renderJ v

mutual

/-- Intermediate rendering after the first repair pass (`,]` removed):
arrays are back to their plain form, non-empty objects still carry the
inserted comma before their closing brace. -/
def renderT1 : JVal → List Char
  | JVal.jnull => ['n', 'u', 'l', 'l']
  | JVal.jbool true => ['t', 'r', 'u', 'e']
  | JVal.jbool false => ['f', 'a', 'l', 's', 'e']
  | JVal.jnum z => intChars z
  | JVal.jstr s => strLit s
  | JVal.jarr [] => ['[', ']']
  | JVal.jarr (x :: t) => '[' :: (renderT1Seq (x :: t) ++ [']'])
  | JVal.jobj [] => ['{', '}']
  | JVal.jobj (kv :: t) => '{' :: (renderT1Pairs (kv :: t) ++ [',', '}'])

def renderT1Seq : List JVal → List Char
  | [] => []
  | [x] => renderT1 x
  | x :: y :: t => renderT1 x ++ ',' :: renderT1Seq (y :: t)

def renderT1Pairs : List (String × JVal) → List Char
  | [] => []
  | [(k, v)] => strLit k ++ ':' :: renderT1 v
  | (k, v) :: m :: t => strLit k ++ ':' :: renderT1 v ++ ',' :: renderT1Pairs (m :: t)

end

/-- First characters a rendered JSON value can start with. -/
def valueHead (c : Char) : Bool :=
  c = '"' || c = '-' || isDigitCh c || c = 'n' || c = 't' || c = 'f' || c = '[' || c = '{'

/-- Rest of input may follow a rendered number without extending it. -/
def numDelim : List Char → Bool
  | [] => true
  | c :: _ => !(isDigitCh c || c = '.' || c = 'e' || c = 'E')

/-! ## Theorems: rounding helpers -/

theorem floor_le_halfEvenRound (q : ℚ) : ⌊q⌋ ≤ halfEvenRound q := by
  unfold halfEvenRound
  split_ifs <;> omega

theorem halfEvenRound_le_ceil (q : ℚ) : halfEvenRound q ≤ ⌈q⌉ := by
  unfold halfEvenRound
  split_ifs with h1 h2 h3
  · exact Int.floor_le_ceil q
  · exact Int.lt_ceil.mpr (by linarith)
  · exact Int.floor_le_ceil q
  · exact Int.lt_ceil.mpr (by linarith)

theorem round2_nonneg {q : ℚ} (h : 0 ≤ q) : 0 ≤ round2 q := by
  unfold round2
  have h1 : (0 : ℤ) ≤ ⌊q * 100⌋ := Int.floor_nonneg.mpr (by positivity)
  have h2 := floor_le_halfEvenRound (q * 100)
  have h3 : (0 : ℚ) ≤ (halfEvenRound (q * 100) : ℚ) := by exact_mod_cast le_trans h1 h2
  positivity

theorem round2_le_100 {q : ℚ} (h : q ≤ 100) : round2 q ≤ 100 := by
  unfold round2
  have h1 : ⌈q * 100⌉ ≤ (10000 : ℤ) := Int.ceil_le.mpr (by push_cast; linarith)
  have h2 := halfEvenRound_le_ceil (q * 100)
  have h3 : (halfEvenRound (q * 100) : ℚ) ≤ 10000 := by exact_mod_cast le_trans h2 h1
  linarith

theorem round2_twoDecimal (q : ℚ) : TwoDecimal (round2 q) :=
  ⟨halfEvenRound (q * 100), rfl⟩

theorem halfEvenRound_intCast (z : ℤ) : halfEvenRound (z : ℚ) = z := by
  unfold halfEvenRound
  rw [Int.floor_intCast]
  norm_num

theorem round2_intCast (z : ℤ) : round2 (z : ℚ) = z := by
  unfold round2
  rw [show ((z : ℚ) * 100) = ((z * 100 : ℤ) : ℚ) by push_cast; ring, halfEvenRound_intCast]
  push_cast
  field_simp

theorem statusWeight_bounds (st : String) :
    0 ≤ FactCheckerAgent.statusWeight st ∧ FactCheckerAgent.statusWeight st ≤ 1 := by
  unfold FactCheckerAgent.statusWeight
  split_ifs <;> norm_num

theorem totalWeighted_bounds (m : List (String × ClaimVerification))
    (h : ∀ kv ∈ m, 0 ≤ kv.2.confidence ∧ kv.2.confidence ≤ 100) :
    0 ≤ FactCheckerAgent.totalWeighted m
      ∧ FactCheckerAgent.totalWeighted m ≤ 100 * m.length := by
  induction m with
  | nil => simp [FactCheckerAgent.totalWeighted]
  | cons kv t ih =>
      obtain ⟨hc0, hc1⟩ := h kv (List.mem_cons_self kv t)
      obtain ⟨ih0, ih1⟩ := ih (fun x hx => h x (List.mem_cons_of_mem kv hx))
      obtain ⟨hw0, hw1⟩ := statusWeight_bounds kv.2.verification_status
      have hterm0 : 0 ≤ kv.2.confidence * FactCheckerAgent.statusWeight kv.2.verification_status :=
        mul_nonneg hc0 hw0
      have hterm1 :
          kv.2.confidence * FactCheckerAgent.statusWeight kv.2.verification_status ≤ 100 := by
        calc kv.2.confidence * FactCheckerAgent.statusWeight kv.2.verification_status
            ≤ 100 * 1 := mul_le_mul hc1 hw1 hw0 (by norm_num)
          _ = 100 := by norm_num
      constructor
      · simpa [FactCheckerAgent.totalWeighted] using add_nonneg hterm0 ih0
      · simp only [FactCheckerAgent.totalWeighted, List.length_cons]
        push_cast
        linarith

theorem validTotals_bounds (m : List (String × ClaimVerification))
    (h : ∀ kv ∈ m, 0 ≤ kv.2.confidence ∧ kv.2.confidence ≤ 100) :
    0 ≤ (FinalAnswerAgent.validTotals m).1
      ∧ (FinalAnswerAgent.validTotals m).1 ≤ 100 * (FinalAnswerAgent.validTotals m).2 := by
  induction m with
  | nil => simp [FinalAnswerAgent.validTotals]
  | cons kv t ih =>
      obtain ⟨hc0, hc1⟩ := h kv (List.mem_cons_self kv t)
      obtain ⟨ih0, ih1⟩ := ih (fun x hx => h x (List.mem_cons_of_mem kv hx))
      simp only [FinalAnswerAgent.validTotals]
      split_ifs with h1 h2 h3 <;> constructor <;> push_cast <;> linarith

theorem fc_conf_nil : FactCheckerAgent.calculate_overall_confidence [] = 0 := by
  unfold FactCheckerAgent.calculate_overall_confidence
  simp

theorem fa_conf_nil : FinalAnswerAgent.calculate_overall_confidence [] = 0 := by
  unfold FinalAnswerAgent.calculate_overall_confidence
  simp

theorem fc_conf_eq (m : List (String × ClaimVerification)) (h : m ≠ []) :
    FactCheckerAgent.calculate_overall_confidence m
      = round2 (FactCheckerAgent.totalWeighted m / m.length) := by
  unfold FactCheckerAgent.calculate_overall_confidence
  rw [if_neg h]
  simp only
  rw [if_pos (List.length_pos.mpr h)]

theorem fa_conf_eq (m : List (String × ClaimVerification)) (h : m ≠ [])
    (hv : (FinalAnswerAgent.validTotals m).2 ≠ 0) :
    FinalAnswerAgent.calculate_overall_confidence m
      = min 100 (round2 ((FinalAnswerAgent.validTotals m).1 / (FinalAnswerAgent.validTotals m).2)) := by
  unfold FinalAnswerAgent.calculate_overall_confidence
  rw [if_neg h]
  simp only
  rw [if_neg hv]

theorem aggregator_range_core (m : List (String × ClaimVerification))
    (hwf : ∀ kv ∈ m, WellFormedVerif kv.2) :
    (0 ≤ FactCheckerAgent.calculate_overall_confidence m
      ∧ FactCheckerAgent.calculate_overall_confidence m ≤ 100
      ∧ TwoDecimal (FactCheckerAgent.calculate_overall_confidence m))
    ∧ (0 ≤ FinalAnswerAgent.calculate_overall_confidence m
      ∧ FinalAnswerAgent.calculate_overall_confidence m ≤ 100
      ∧ TwoDecimal (FinalAnswerAgent.calculate_overall_confidence m)) := by
  have hconf : ∀ kv ∈ m, 0 ≤ kv.2.confidence ∧ kv.2.confidence ≤ 100 :=
    fun kv hkv => ⟨(hwf kv hkv).2.1, (hwf kv hkv).2.2⟩
  by_cases hnil : m = []
  · subst hnil
    rw [fc_conf_nil, fa_conf_nil]
    exact ⟨⟨le_refl 0, by norm_num, ⟨0, by norm_num⟩⟩, le_refl 0, by norm_num, ⟨0, by norm_num⟩⟩
  · constructor
    · rw [fc_conf_eq m hnil]
      obtain ⟨ht0, ht1⟩ := totalWeighted_bounds m hconf
      have hlen : (0 : ℚ) < m.length := by
        exact_mod_cast List.length_pos.mpr hnil
      refine ⟨round2_nonneg (div_nonneg ht0 (le_of_lt hlen)), ?_, round2_twoDecimal _⟩
      refine round2_le_100 ?_
      rw [div_le_iff hlen]
      linarith
    · obtain ⟨ht0, ht1⟩ := validTotals_bounds m hconf
      by_cases hv : (FinalAnswerAgent.validTotals m).2 = 0
      · unfold FinalAnswerAgent.calculate_overall_confidence
        rw [if_neg hnil]
        simp only
        rw [if_pos hv]
        exact ⟨le_refl 0, by norm_num, ⟨0, by norm_num⟩⟩
      · rw [fa_conf_eq m hnil hv]
        have hvq : (0 : ℚ) < (FinalAnswerAgent.validTotals m).2 := by
          exact_mod_cast Nat.pos_of_ne_zero hv
        have hd0 : 0 ≤ (FinalAnswerAgent.validTotals m).1 / (FinalAnswerAgent.validTotals m).2 :=
          div_nonneg ht0 (le_of_lt hvq)
        have hd1 : (FinalAnswerAgent.validTotals m).1 / (FinalAnswerAgent.validTotals m).2 ≤ 100 := by
          rw [div_le_iff hvq]
          linarith
        refine ⟨le_min (by norm_num) (round2_nonneg hd0), min_le_left _ _, ?_⟩
        rcases min_choice (100 : ℚ) (round2 ((FinalAnswerAgent.validTotals m).1 / (FinalAnswerAgent.validTotals m).2)) with hmin | hmin
        · exact ⟨10000, by rw [hmin]; norm_num⟩
        · rw [hmin]
          exact round2_twoDecimal _

/-- C4: on a well-formed verified-claims mapping both confidence
aggregators return a value inside `[0, 100]` representable with two
decimal places; evaluating an aggregator twice on the same mapping gives
the same value (the functions are pure and leave the mapping untouched);
and both return `0.0` on the empty mapping. -/
theorem c4_confidence_aggregator_props (m : List (String × ClaimVerification))
    (hwf : ∀ kv ∈ m, WellFormedVerif kv.2) :
    (0 ≤ FactCheckerAgent.calculate_overall_confidence m
      ∧ FactCheckerAgent.calculate_overall_confidence m ≤ 100
      ∧ TwoDecimal (FactCheckerAgent.calculate_overall_confidence m))
    ∧ (0 ≤ FinalAnswerAgent.calculate_overall_confidence m
      ∧ FinalAnswerAgent.calculate_overall_confidence m ≤ 100
      ∧ TwoDecimal (FinalAnswerAgent.calculate_overall_confidence m))
    ∧ FactCheckerAgent.calculate_overall_confidence m
        = FactCheckerAgent.calculate_overall_confidence m
    ∧ FinalAnswerAgent.calculate_overall_confidence m
        = FinalAnswerAgent.calculate_overall_confidence m
    ∧ FactCheckerAgent.calculate_overall_confidence [] = 0
    ∧ FinalAnswerAgent.calculate_overall_confidence [] = 0 := by
  obtain ⟨hfc, hfa⟩ := aggregator_range_core m hwf
  exact ⟨hfc, hfa, rfl, rfl, fc_conf_nil, fa_conf_nil⟩

/-- Closed instance of `c4_confidence_aggregator_props` on a singleton
well-formed mapping. -/
theorem c4_confidence_aggregator_props_witness :
    0 ≤ FactCheckerAgent.calculate_overall_confidence
        [(("c" : String), ⟨("SUPPORTED" : String), 90, (""), ("")⟩)]
    ∧ FactCheckerAgent.calculate_overall_confidence
        [(("c" : String), ⟨("SUPPORTED" : String), 90, (""), ("")⟩)] ≤ 100 :=
  ⟨((c4_confidence_aggregator_props [(("c" : String), ⟨("SUPPORTED" : String), 90, (""), ("")⟩)]
      (by intro kv hkv
          simp only [List.mem_singleton] at hkv
          subst hkv
          exact ⟨by simp [enumStatuses], by norm_num, by norm_num⟩)).1).1,
   ((c4_confidence_aggregator_props [(("c" : String), ⟨("SUPPORTED" : String), 90, (""), ("")⟩)]
      (by intro kv hkv
          simp only [List.mem_singleton] at hkv
          subst hkv
          exact ⟨by simp [enumStatuses], by norm_num, by norm_num⟩)).1).2.1⟩

/-- C8: the two confidence aggregators diverge.  On the singleton mapping
whose claim is `PARTIALLY_SUPPORTED` with confidence `100`, the
fact-checker module returns `60` (weight `0.6`) while the final-answer
module returns `70` (multiplier `0.7`), so the modules disagree. -/
theorem c8_aggregators_diverge :
    FactCheckerAgent.calculate_overall_confidence
        [(("c1" : String), ⟨("PARTIALLY_SUPPORTED" : String), 100, (""), ("")⟩)] = 60
    ∧ FinalAnswerAgent.calculate_overall_confidence
        [(("c1" : String), ⟨("PARTIALLY_SUPPORTED" : String), 100, (""), ("")⟩)] = 70
    ∧ FactCheckerAgent.calculate_overall_confidence
        [(("c1" : String), ⟨("PARTIALLY_SUPPORTED" : String), 100, (""), ("")⟩)]
      ≠ FinalAnswerAgent.calculate_overall_confidence
        [(("c1" : String), ⟨("PARTIALLY_SUPPORTED" : String), 100, (""), ("")⟩)] := by
  have hfc : FactCheckerAgent.calculate_overall_confidence
      [(("c1" : String), ⟨("PARTIALLY_SUPPORTED" : String), 100, (""), ("")⟩)] = 60 := by
    rw [fc_conf_eq _ (by simp)]
    have h1 : FactCheckerAgent.totalWeighted
        [(("c1" : String), ⟨("PARTIALLY_SUPPORTED" : String), 100, (""), ("")⟩)] = 60 := by
      simp +decide [FactCheckerAgent.totalWeighted, FactCheckerAgent.statusWeight]
      norm_num
    rw [h1]
    simpa using round2_intCast 60
  have hfa : FinalAnswerAgent.calculate_overall_confidence
      [(("c1" : String), ⟨("PARTIALLY_SUPPORTED" : String), 100, (""), ("")⟩)] = 70 := by
    have hv : (FinalAnswerAgent.validTotals
        [(("c1" : String), ⟨("PARTIALLY_SUPPORTED" : String), 100, (""), ("")⟩)]) = (70, 1) := by
      simp +decide [FinalAnswerAgent.validTotals]
      norm_num
    rw [fa_conf_eq _ (by simp) (by rw [hv]; simp)]
    rw [hv]
    simp only
    have h70 := round2_intCast 70
    push_cast at h70 ⊢
    rw [show ((70:ℚ)/1) = 70 by norm_num, h70]
    norm_num
  refine ⟨hfc, hfa, ?_⟩
  rw [hfc, hfa]
  norm_num

/-! ## Theorems: dictionary semantics -/

theorem countKey_nil {α : Type} (x : String) : countKey ([] : List (String × α)) x = 0 := rfl

theorem countKey_cons {α : Type} (k : String) (v : α) (t : List (String × α)) (x : String) :
    countKey ((k, v) :: t) x = (if k = x then 1 else 0) + countKey t x := by
  unfold countKey
  by_cases h : k = x <;> simp [List.filter, h] <;> omega

theorem dictSet_countKey_ne {α : Type} (m : List (String × α)) (k : String) (v : α)
    (x : String) (hx : x ≠ k) : countKey (dictSet m k v) x = countKey m x := by
  have hkx : ¬(k = x) := fun h => hx h.symm
  induction m with
  | nil => simp [dictSet, countKey_cons, countKey_nil, hkx]
  | cons kv t ih =>
      obtain ⟨k0, v0⟩ := kv
      by_cases h : k0 = k
      · subst h
        simp [dictSet, countKey_cons, hkx]
      · simp only [dictSet, if_neg h, countKey_cons, ih]

theorem dictSet_countKey_self {α : Type} (m : List (String × α)) (k : String) (v : α)
    (hbound : countKey m k ≤ 1) : countKey (dictSet m k v) k = 1 := by
  induction m with
  | nil => simp [dictSet, countKey_cons, countKey_nil]
  | cons kv t ih =>
      obtain ⟨k0, v0⟩ := kv
      rw [countKey_cons] at hbound
      by_cases h : k0 = k
      · rw [if_pos h] at hbound
        have ht : countKey t k = 0 := by omega
        simp [dictSet, h, countKey_cons, ht]
      · rw [if_neg h] at hbound
        have hb2 : countKey t k ≤ 1 := by omega
        simp [dictSet, h, countKey_cons, ih hb2]

theorem dictSet_bound {α : Type} (m : List (String × α)) (k : String) (v : α)
    (hbound : ∀ y, countKey m y ≤ 1) : ∀ y, countKey (dictSet m k v) y ≤ 1 := by
  intro y
  by_cases hy : y = k
  · subst hy
    rw [dictSet_countKey_self m y v (hbound y)]
  · rw [dictSet_countKey_ne m k v y hy]
    exact hbound y

theorem assocGet_dictSet_self {α : Type} (m : List (String × α)) (k : String) (v : α) :
    assocGet? (dictSet m k v) k = some v := by
  induction m with
  | nil => simp [dictSet, assocGet?]
  | cons kv t ih =>
      obtain ⟨k0, v0⟩ := kv
      by_cases h : k0 = k
      · subst h
        simp [dictSet, assocGet?]
      · simp [dictSet, h, assocGet?, ih]

theorem assocGet_dictSet_ne {α : Type} (m : List (String × α)) (k : String) (v : α)
    (x : String) (hx : k ≠ x) : assocGet? (dictSet m k v) x = assocGet? m x := by
  induction m with
  | nil => simp [dictSet, assocGet?, hx]
  | cons kv t ih =>
      obtain ⟨k0, v0⟩ := kv
      by_cases h : k0 = k
      · subst h
        simp [dictSet, assocGet?, hx]
      · simp only [dictSet, if_neg h]
        by_cases h2 : k0 = x <;> simp [assocGet?, h2, ih]

theorem dictSet_length_new {α : Type} (m : List (String × α)) (k : String) (v : α)
    (habs : countKey m k = 0) : (dictSet m k v).length = m.length + 1 := by
  induction m with
  | nil => simp [dictSet]
  | cons kv t ih =>
      obtain ⟨k0, v0⟩ := kv
      rw [countKey_cons] at habs
      by_cases h : k0 = k
      · rw [if_pos h] at habs
        omega
      · rw [if_neg h] at habs
        simp [dictSet, h, ih (by omega)]

/-! ## Theorems: the reconciliation loop of `fact_check_claims` (C1) -/

theorem reconcile_countKey (results : List (String × ClaimVerification)) :
    ∀ (claims : List String) (i : ℕ) (acc : List (String × ClaimVerification)),
      (∀ y, countKey acc y ≤ 1) →
      ∀ x, countKey (FactCheckerAgent.reconcile results i claims acc) x
        = if x ∈ claims then 1 else countKey acc x := by
  intro claims
  induction claims with
  | nil => intro i acc hb x; simp [FactCheckerAgent.reconcile]
  | cons c rest ih =>
      intro i acc hb x
      simp only [FactCheckerAgent.reconcile]
      rw [ih (i + 1) _ (dictSet_bound _ _ _ hb)]
      by_cases hr : x ∈ rest
      · simp [hr, List.mem_cons]
      · by_cases hc : x = c
        · subst hc
          simp [hr, List.mem_cons, dictSet_countKey_self _ _ _ (hb x)]
        · simp [hr, hc, List.mem_cons, dictSet_countKey_ne _ _ _ _ hc]

theorem pyDict_countKey {α : Type} (pairs : List (String × α)) (x : String) :
    countKey (pyDict pairs) x = if x ∈ pairs.map (fun kv => kv.1) then 1 else 0 := by
  suffices h : ∀ (acc : List (String × α)), (∀ y, countKey acc y ≤ 1) →
      countKey (pairs.foldl (fun a kv => dictSet a kv.1 kv.2) acc) x
        = if x ∈ pairs.map (fun kv => kv.1) then 1 else countKey acc x by
    simpa [pyDict] using h [] (fun y => by simp [countKey_nil])
  induction pairs with
  | nil => intro acc hb; simp
  | cons p ps ih =>
      intro acc hb
      simp only [List.foldl_cons]
      rw [ih _ (dictSet_bound _ _ _ hb)]
      by_cases hr : x ∈ ps.map (fun kv => kv.1)
      · simp [hr]
      · by_cases hc : x = p.1
        · subst hc
          simp [hr, dictSet_countKey_self _ _ _ (hb p.1)]
        · simp [hr, hc, dictSet_countKey_ne _ _ _ _ hc]

theorem pyDict_const_get {α : Type} (v0 : α) :
    ∀ (pairs : List (String × α)) (acc : List (String × α)) (c : String),
      (∀ kv ∈ pairs, kv.2 = v0) →
      (c ∈ pairs.map (fun kv => kv.1) ∨ assocGet? acc c = some v0) →
      assocGet? (pairs.foldl (fun a kv => dictSet a kv.1 kv.2) acc) c = some v0 := by
  intro pairs
  induction pairs with
  | nil =>
      intro acc c _ hmem
      simpa using hmem.resolve_left (by simp)
  | cons p ps ih =>
      intro acc c hval hmem
      simp only [List.foldl_cons]
      refine ih _ c (fun kv hkv => hval kv (List.mem_cons_of_mem p hkv)) ?_
      by_cases hc : c = p.1
      · subst hc
        right
        rw [show dictSet acc p.1 p.2 = dictSet acc p.1 v0 by rw [hval p (List.mem_cons_self p ps)]]
        exact assocGet_dictSet_self _ _ _
      · rcases hmem with hmem | hmem
        · rcases List.mem_map.mp hmem with ⟨kv, hkv, hkv1⟩
          rcases List.mem_cons.mp hkv with rfl | hkv
          · exact absurd hkv1.symm (by simpa using hc)
          · exact Or.inl (List.mem_map.mpr ⟨kv, hkv, hkv1⟩)
        · right
          rw [assocGet_dictSet_ne _ _ _ _ (fun h => hc h.symm)]
          exact hmem

theorem reconcile_nil_results_get :
    ∀ (claims : List String) (i : ℕ) (acc : List (String × ClaimVerification)) (c : String),
      (c ∈ claims ∨ assocGet? acc c = some FactCheckerAgent.missingVerif) →
      assocGet? (FactCheckerAgent.reconcile [] i claims acc) c
        = some FactCheckerAgent.missingVerif := by
  intro claims
  induction claims with
  | nil =>
      intro i acc c hmem
      simpa [FactCheckerAgent.reconcile] using hmem.resolve_left (by simp)
  | cons c0 rest ih =>
      intro i acc c hmem
      simp only [FactCheckerAgent.reconcile, List.find?]
      refine ih (i + 1) _ c ?_
      by_cases hc : c = c0
      · subst hc
        exact Or.inr (assocGet_dictSet_self _ _ _)
      · rcases hmem with hmem | hmem
        · rcases List.mem_cons.mp hmem with rfl | hmem
          · exact absurd rfl hc
          · exact Or.inl hmem
        · exact Or.inr (by rw [assocGet_dictSet_ne _ _ _ _ (fun h => hc h.symm)]; exact hmem)

theorem reconcile_length (results : List (String × ClaimVerification)) :
    ∀ (claims : List String) (i : ℕ) (acc : List (String × ClaimVerification)),
      claims.Nodup → (∀ c ∈ claims, countKey acc c = 0) →
      (FactCheckerAgent.reconcile results i claims acc).length = acc.length + claims.length := by
  intro claims
  induction claims with
  | nil => intro i acc _ _; simp [FactCheckerAgent.reconcile]
  | cons c rest ih =>
      intro i acc hnd habs
      simp only [FactCheckerAgent.reconcile]
      rw [ih (i + 1) _ (List.nodup_cons.mp hnd).2 ?_]
      · rw [dictSet_length_new _ _ _ (habs c (List.mem_cons_self c rest))]
        simp
        omega
      · intro c' hc'
        have hne : c' ≠ c := fun h => (List.nodup_cons.mp hnd).1 (h ▸ hc')
        rw [dictSet_countKey_ne _ _ _ _ hne]
        exact habs c' (List.mem_cons_of_mem c hc')

theorem fcc_eq (verify : String → Except String (List (String × ClaimVerification)))
    (claims : List String) (docs : List RDoc) :
    FactCheckerAgent.fact_check_claims verify claims docs
      = match verify (FactCheckerAgent.verifyPrompt (FactCheckerAgent.contextText docs)
          (FactCheckerAgent.claimsText claims)) with
        | .ok results => FactCheckerAgent.reconcile results 0 claims []
        | .error e => pyDict (claims.map (fun c => (c, FactCheckerAgent.failureVerif e))) := rfl

/-- C1: the verified-claims mapping produced by `fact_check_claims` has
exactly one entry per claim string of `extracted_claims` — whatever the
parsed model output is, and also when the collaborator raises — the same
holds for the empty-context fallback of `fact_checking_node`, and on the
raising / missing-claim paths the entry is the synthetic record with
status `NOT_SUPPORTED` and confidence `0`. -/
theorem c1_fact_check_exactly_one_entry
    (claims : List String) (docs : List RDoc) (e : String) :
    (∀ (verify : String → Except String (List (String × ClaimVerification))) (c : String),
      countKey (FactCheckerAgent.fact_check_claims verify claims docs) c
        = if c ∈ claims then 1 else 0)
    ∧ (∀ c ∈ claims,
        assocGet? (FactCheckerAgent.fact_check_claims (fun _ => .error e) claims docs) c
          = some (FactCheckerAgent.failureVerif e))
    ∧ (∀ c ∈ claims,
        assocGet? (FactCheckerAgent.fact_check_claims (fun _ => .ok []) claims docs) c
          = some FactCheckerAgent.missingVerif)
    ∧ (∀ (env : Env) (s : RState), s.reranked_docs = [] → s.retrieved_docs = [] →
        (∀ c, countKey ((fact_checking_node env s).verified_claims) c
            = if c ∈ s.extracted_claims then 1 else 0)
        ∧ ∀ c ∈ s.extracted_claims,
            assocGet? ((fact_checking_node env s).verified_claims) c = some noDocsVerif)
    ∧ (FactCheckerAgent.failureVerif e).verification_status = ("NOT_SUPPORTED" : String)
    ∧ (FactCheckerAgent.failureVerif e).confidence = 0
    ∧ FactCheckerAgent.missingVerif.verification_status = ("NOT_SUPPORTED" : String)
    ∧ FactCheckerAgent.missingVerif.confidence = 0
    ∧ noDocsVerif.verification_status = ("NOT_SUPPORTED" : String)
    ∧ noDocsVerif.confidence = 0 := by
  refine ⟨?_, ?_, ?_, ?_, rfl, rfl, rfl, rfl, rfl, rfl⟩
  · intro verify c
    rw [fcc_eq]
    cases hv : verify (FactCheckerAgent.verifyPrompt (FactCheckerAgent.contextText docs)
        (FactCheckerAgent.claimsText claims)) with
    | ok results =>
        rw [reconcile_countKey results claims 0 [] (fun y => by simp [countKey_nil])]
        by_cases h : c ∈ claims <;> simp [h, countKey_nil]
    | error msg =>
        rw [pyDict_countKey]
        simp
  · intro c hc
    rw [fcc_eq]
    exact pyDict_const_get _ _ _ c (by simp) (Or.inl (by simpa using hc))
  · intro c hc
    rw [fcc_eq]
    exact reconcile_nil_results_get claims 0 [] c (Or.inl hc)
  · intro env s hrr hrd
    have hnode : (fact_checking_node env s).verified_claims
        = pyDict (s.extracted_claims.map (fun c => (c, noDocsVerif))) := by
      unfold fact_checking_node
      rw [hrr, hrd]
      simp
    constructor
    · intro c
      rw [hnode, pyDict_countKey]
      simp
    · intro c hc
      rw [hnode]
      simp only [pyDict]
      exact pyDict_const_get _ _ _ c (by simp) (Or.inl (by simpa using hc))

/-- Closed instance of `c1_fact_check_exactly_one_entry`: two claims, a
parsed output covering only the first, evaluated concretely. -/
theorem c1_fact_check_exactly_one_entry_witness :
    countKey (FactCheckerAgent.fact_check_claims
        (fun _ => .ok [(("Claim 1: alpha beta" : String),
          ⟨("SUPPORTED" : String), 90, ("ev" : String), ("ex" : String)⟩)])
        [("alpha beta" : String), ("gamma" : String)] []) ("gamma" : String)
      = if ("gamma" : String) ∈ [("alpha beta" : String), ("gamma" : String)] then 1 else 0 :=
  (c1_fact_check_exactly_one_entry [("alpha beta" : String), ("gamma" : String)] [] ("" : String)).1
    (fun _ => .ok [(("Claim 1: alpha beta" : String),
      ⟨("SUPPORTED" : String), 90, ("ev" : String), ("ex" : String)⟩)]) ("gamma" : String)

/-! ## Theorems: claim breakdown (C3) -/

theorem claimsWithStatus_length_cons (st : String) (kv : String × ClaimVerification)
    (t : List (String × ClaimVerification)) :
    (FinalAnswerAgent.claimsWithStatus st ((kv) :: t)).length
      = (if kv.2.verification_status = st then 1 else 0)
        + (FinalAnswerAgent.claimsWithStatus st t).length := by
  unfold FinalAnswerAgent.claimsWithStatus
  by_cases h : kv.2.verification_status = st <;> simp [List.filter, h] <;> omega

theorem breakdown_total_filter (vc : List (String × ClaimVerification)) :
    (FinalAnswerAgent.claimsWithStatus ("SUPPORTED" : String) vc).length
      + (FinalAnswerAgent.claimsWithStatus ("PARTIALLY_SUPPORTED" : String) vc).length
      + (FinalAnswerAgent.claimsWithStatus ("NOT_SUPPORTED" : String) vc).length
      + (FinalAnswerAgent.claimsWithStatus ("CONTRADICTED" : String) vc).length
    = (vc.filter (fun kv => kv.2.verification_status ∈ enumStatuses)).length := by
  induction vc with
  | nil => simp [FinalAnswerAgent.claimsWithStatus]
  | cons kv t ih =>
      rw [claimsWithStatus_length_cons, claimsWithStatus_length_cons,
          claimsWithStatus_length_cons, claimsWithStatus_length_cons]
      by_cases h : kv.2.verification_status ∈ enumStatuses
      · have hlen : (List.filter (fun kv => decide (kv.2.verification_status ∈ enumStatuses))
            (kv :: t)).length
            = (List.filter (fun kv => decide (kv.2.verification_status ∈ enumStatuses)) t).length
              + 1 := by
          simp [List.filter, h]
        rw [hlen]
        simp only [enumStatuses, List.mem_cons, List.mem_singleton, List.not_mem_nil,
          or_false] at h
        rcases h with h | h | h | h <;>
          · rw [h]
            simp +decide
            omega
      · have hlen : (List.filter (fun kv => decide (kv.2.verification_status ∈ enumStatuses))
            (kv :: t)).length
            = (List.filter (fun kv => decide (kv.2.verification_status ∈ enumStatuses)) t).length := by
          simp [List.filter, h]
        rw [hlen]
        simp only [enumStatuses, List.mem_cons, List.mem_singleton, List.not_mem_nil,
          or_false, not_or] at h
        rw [if_neg h.1, if_neg h.2.1, if_neg h.2.2.1, if_neg h.2.2.2]
        omega

theorem pyDict_length_nodup {α : Type} :
    ∀ (pairs : List (String × α)) (acc : List (String × α)),
      (pairs.map (fun kv => kv.1)).Nodup →
      (∀ kv ∈ pairs, countKey acc kv.1 = 0) →
      (pairs.foldl (fun a kv => dictSet a kv.1 kv.2) acc).length = acc.length + pairs.length := by
  intro pairs
  induction pairs with
  | nil => intro acc _ _; simp
  | cons p ps ih =>
      intro acc hnd habs
      simp only [List.map_cons, List.nodup_cons] at hnd
      simp only [List.foldl_cons]
      rw [ih _ hnd.2 ?_]
      · rw [dictSet_length_new _ _ _ (habs p (List.mem_cons_self p ps))]
        simp
        omega
      · intro kv hkv
        have hne : kv.1 ≠ p.1 := by
          intro h
          exact hnd.1 (List.mem_map.mpr ⟨kv, hkv, h⟩)
        rw [dictSet_countKey_ne _ _ _ _ hne]
        exact habs kv (List.mem_cons_of_mem p hkv)

theorem gfa_claim_breakdown (complete : String → Except String String)
    (q : String) (vc : List (String × ClaimVerification)) (docs : List LCDoc) :
    (FinalAnswerAgent.generate_final_answer complete q vc docs).claim_breakdown
      = some ⟨(FinalAnswerAgent.claimsWithStatus ("SUPPORTED" : String) vc).length,
              (FinalAnswerAgent.claimsWithStatus ("PARTIALLY_SUPPORTED" : String) vc).length,
              (FinalAnswerAgent.claimsWithStatus ("NOT_SUPPORTED" : String) vc).length,
              (FinalAnswerAgent.claimsWithStatus ("CONTRADICTED" : String) vc).length⟩ := by
  unfold FinalAnswerAgent.generate_final_answer
  dsimp only
  split <;> rfl

/-- C3 counterexample: a verification entry with status `UNKNOWN` falls
into no bucket, so the breakdown sums to `0` while the claim list has one
element; and the error handler's final answer record has no
`claim_breakdown` at all. -/
theorem c3_claim_breakdown_counterexample :
    ((FinalAnswerAgent.generate_final_answer (fun _ => .ok ("ans")) ("q")
        [(("c" : String), ⟨("UNKNOWN" : String), 50, (""), ("")⟩)] []).claim_breakdown.map
          Breakdown.total) = some 0
    ∧ [("c" : String)].length = 1
    ∧ (0 : ℕ) ≠ 1
    ∧ (error_node { initialState ("q") with error := ("E" : String) }).final_answer
        = some ⟨("❌ Pipeline Error: E" : String), 0, [],
                ("System error prevented complete processing" : String), none⟩ := by
  refine ⟨?_, rfl, by omega, rfl⟩
  rw [gfa_claim_breakdown]
  rfl

/-- C3 (amended): the claim-breakdown tallies of `generate_final_answer`
sum to the number of verified-claims entries whose status is one of the
four enumerated values — hence to the full mapping size when every entry
is well-formed, and `fact_check_claims` yields one entry per claim for
distinct claims — while the error handler's final answer carries no
claim breakdown at all. -/
theorem c3_claim_breakdown_amended (complete : String → Except String String) (q : String)
    (vc : List (String × ClaimVerification)) (docs : List LCDoc)
    (verify : String → Except String (List (String × ClaimVerification)))
    (claims : List String) (rdocs : List RDoc) :
    (∃ b, (FinalAnswerAgent.generate_final_answer complete q vc docs).claim_breakdown = some b
      ∧ b.total = (vc.filter (fun kv => kv.2.verification_status ∈ enumStatuses)).length)
    ∧ ((∀ kv ∈ vc, kv.2.verification_status ∈ enumStatuses) →
        ∃ b, (FinalAnswerAgent.generate_final_answer complete q vc docs).claim_breakdown = some b
          ∧ b.total = vc.length)
    ∧ (claims.Nodup →
        (FactCheckerAgent.fact_check_claims verify claims rdocs).length = claims.length)
    ∧ (∀ s : RState,
        ((error_node s).final_answer.map (fun fa => fa.claim_breakdown)) = some none) := by
  have hb := gfa_claim_breakdown complete q vc docs
  refine ⟨⟨_, hb, ?_⟩, fun hwf => ⟨_, hb, ?_⟩, fun hnd => ?_, fun s => rfl⟩
  · show _ + _ + _ + _ = _
    exact breakdown_total_filter vc
  · have hself : vc.filter (fun kv => kv.2.verification_status ∈ enumStatuses) = vc :=
      List.filter_eq_self.mpr (fun kv hkv => by simpa using hwf kv hkv)
    show _ + _ + _ + _ = _
    rw [breakdown_total_filter vc, hself]
  · rw [fcc_eq]
    cases hv : verify (FactCheckerAgent.verifyPrompt (FactCheckerAgent.contextText rdocs)
        (FactCheckerAgent.claimsText claims)) with
    | ok results =>
        rw [reconcile_length results claims 0 [] hnd (fun c _ => countKey_nil c)]
        simp
    | error msg =>
        unfold pyDict
        rw [pyDict_length_nodup _ [] (by simp only [List.map_map]; simpa [Function.comp_def] using hnd)
          (fun kv _ => countKey_nil kv.1)]
        simp

/-! ## Theorems: reranking (C5) -/

theorem rerankLe_trans (a b c : RDoc) :
    rerankLe a b = true → rerankLe b c = true → rerankLe a c = true := by
  simp only [rerankLe, decide_eq_true_eq]
  exact fun h1 h2 => le_trans h2 h1

theorem rerankLe_total (a b : RDoc) : (rerankLe a b || rerankLe b a) = true := by
  simp only [rerankLe, Bool.or_eq_true, decide_eq_true_eq]
  exact le_total (scoreKey b) (scoreKey a)

theorem assignScores_length (docs : List RDoc) (scores : List ℚ) :
    (assignScores docs scores).length = docs.length := by
  induction docs generalizing scores with
  | nil => cases scores <;> simp [assignScores]
  | cons d ds ih =>
      cases scores with
      | nil => simp [assignScores]
      | cons s ss => simp [assignScores, ih]

theorem rerank_eq_of_ok (score : List (String × String) → Except String (List ℚ))
    (query : String) (docs : List RDoc) (scores : List ℚ) (top_k : ℕ)
    (hne : docs ≠ [])
    (hs : score (docs.map (fun d => (query, d.content))) = .ok scores) :
    RerankerAgent.rerank score query docs top_k
      = .ok ⟨((assignScores docs scores).mergeSort rerankLe).take top_k,
             assignScores docs scores, true⟩ := by
  unfold RerankerAgent.rerank
  cases docs with
  | nil => exact absurd rfl hne
  | cons d ds => rw [hs]

theorem reranker_node_reranked_le (env : Env) (s : RState) (scores : List ℚ)
    (hs : env.cross_score ((convert_docs_to_reranker_format s.retrieved_docs).map
        (fun d => (refinedOrOriginal s, d.content))) = .ok scores) :
    (reranker_node env s).reranked_docs.length ≤ min 3 s.retrieved_docs.length := by
  unfold reranker_node
  cases hrd : s.retrieved_docs with
  | nil => simp
  | cons d ds =>
      rw [hrd] at hs
      have hne : convert_docs_to_reranker_format (d :: ds) ≠ [] := by
        simp [convert_docs_to_reranker_format]
      rw [rerank_eq_of_ok env.cross_score (refinedOrOriginal s)
        (convert_docs_to_reranker_format (d :: ds)) scores 3 hne hs]
      simp only
      have h1 := List.length_filterMap_le
        (fun rd => (d :: ds).find? (fun od => od.page_content = rd.content))
        (((assignScores (convert_docs_to_reranker_format (d :: ds)) scores).mergeSort
          rerankLe).take 3)
      have h2 : (((assignScores (convert_docs_to_reranker_format (d :: ds)) scores).mergeSort
          rerankLe).take 3).length = min 3 (d :: ds).length := by
        rw [List.length_take, List.length_mergeSort, assignScores_length,
          convert_docs_to_reranker_format, List.length_map]
      omega

/-- C5: with a non-empty document list the reranker returns the stable
descending sort of the score-assigned documents truncated to `top_k`
(size `min top_k |docs|`, non-increasing by score, ties keeping original
order), with the scorer consulted; an empty list short-circuits to an
empty ranking without consulting the scorer, the reranking node
short-circuits the same way on an empty retrieval, and the node's output
never exceeds `min 3 |retrieved_docs|`. -/
theorem c5_rerank_stage (score : List (String × String) → Except String (List ℚ))
    (query : String) (docs : List RDoc) (scores : List ℚ) (top_k : ℕ)
    (hne : docs ≠ [])
    (hs : score (docs.map (fun d => (query, d.content))) = .ok scores) :
    (∃ res, RerankerAgent.rerank score query docs top_k = .ok res
      ∧ res.ranked = ((assignScores docs scores).mergeSort rerankLe).take top_k
      ∧ res.ranked.length = min top_k docs.length
      ∧ res.ranked.Pairwise (fun a b => scoreKey b ≤ scoreKey a)
      ∧ (∀ a b : RDoc, scoreKey b ≤ scoreKey a →
          [a, b].Sublist (assignScores docs scores) →
          [a, b].Sublist ((assignScores docs scores).mergeSort rerankLe))
      ∧ res.scorer_called = true)
    ∧ (∀ (score2 : List (String × String) → Except String (List ℚ)) (query2 : String) (k2 : ℕ),
        RerankerAgent.rerank score2 query2 [] k2 = .ok ⟨[], [], false⟩)
    ∧ (∀ (env : Env) (s : RState), s.retrieved_docs = [] →
        reranker_node env s = { s with reranked_docs := [] })
    ∧ (∀ (env : Env) (s : RState) (scores2 : List ℚ),
        env.cross_score ((convert_docs_to_reranker_format s.retrieved_docs).map
          (fun d => (refinedOrOriginal s, d.content))) = .ok scores2 →
        (reranker_node env s).reranked_docs.length ≤ min 3 s.retrieved_docs.length) := by
  refine ⟨?_, fun score2 query2 k2 => rfl, fun env s hrd => ?_,
    fun env s scores2 hs2 => reranker_node_reranked_le env s scores2 hs2⟩
  · refine ⟨_, rerank_eq_of_ok score query docs scores top_k hne hs, rfl, ?_, ?_, ?_, rfl⟩
    · rw [List.length_take, List.length_mergeSort, assignScores_length]
    · have hsorted := List.sorted_mergeSort rerankLe_trans rerankLe_total
        (assignScores docs scores)
      have htake : (((assignScores docs scores).mergeSort rerankLe).take top_k).Sublist
          ((assignScores docs scores).mergeSort rerankLe) := List.take_sublist _ _
      exact (hsorted.sublist htake).imp (fun h => by
        simpa [rerankLe, decide_eq_true_eq] using h)
    · intro a b hba hsub
      exact List.mergeSort_stable_pair rerankLe_trans rerankLe_total
        (by simpa [rerankLe, decide_eq_true_eq] using hba) hsub
  · unfold reranker_node
    rw [hrd]

/-! ## Theorems: orchestration (C2), retrieval query (C6) -/

theorem append_ne_empty_left (a b : String) (ha : a ≠ ("" : String)) :
    a ++ b ≠ ("" : String) := by
  intro h
  apply ha
  have hd := congrArg String.data h
  rw [String.data_append] at hd
  rcases List.append_eq_nil.mp hd with ⟨h1, _⟩
  cases a
  simp_all

theorem qu_node_error (env : Env) (s : RState) (e : String)
    (h : env.llm_reformulate (reformulatePrompt s.original_query) = .error e) :
    query_understanding_node env s
      = { s with error := ("Query understanding failed: " ++ e) } := by
  unfold query_understanding_node reformulate_query
  rw [h]
  rfl

theorem runGraph_one (env : Env) (f : ℕ) (s : RState) (n : Stage) (trace : List Stage) :
    runGraph env (f + 1) s [n] trace
      = runGraph env f (runNode env n s) (nextFrontier n (runNode env n s)) (trace ++ [n]) :=
  rfl

theorem runGraph_conflict (env : Env) (f : ℕ) (s : RState) (n1 n2 : Stage)
    (ns trace : List Stage) :
    runGraph env (f + 1) s (n1 :: n2 :: ns) trace
      = Except.error (GraphError.invalidUpdate, trace ++ n1 :: n2 :: ns) :=
  rfl

/-- C2 counterexample: with a collaborator whose reformulation call raises
`boom`, the executed stages are QueryRefine, then — in one superstep —
Retrieve AND the error handler (the unconditional edge schedules Retrieve
even though the router picks the error handler), so Retrieve does run; the
superstep with two full-state writes raises `InvalidUpdateError`, and the
returned final answer is the outer handler record with limitations
`Critical system failure`, not the error handler record with limitations
`System error prevented complete processing` that the claim asserts. -/
theorem c2_error_path_counterexample :
    (run_research_pipeline envRefineBoom ("what")).trace
        = [Stage.queryRefine, Stage.retrieve, Stage.errorHandler]
    ∧ Stage.retrieve ∈ (run_research_pipeline envRefineBoom ("what")).trace
    ∧ (run_research_pipeline envRefineBoom ("what")).finalAnswer
        = some ⟨("❌ System Error: " ++ graphErrorMsg GraphError.invalidUpdate), 0, [],
                ("Critical system failure" : String), none⟩
    ∧ (run_research_pipeline envRefineBoom ("what")).finalAnswer
        ≠ some ⟨("❌ Pipeline Error: " ++ ("Query understanding failed: " ++ "boom")), 0, [],
                ("System error prevented complete processing" : String), none⟩ := by
  refine ⟨rfl, by decide, rfl, by decide⟩

/-- C2 (amended): when the QueryRefine collaborator call raises, the
error field of the state becomes the non-empty `Query understanding failed:`
message; the next superstep is scheduled by both the unconditional edge
(Retrieve) and the conditional router (the error handler), so Retrieve
executes after the failure, the two full-state writes of that superstep
raise `InvalidUpdateError`, and the pipeline returns the outer except
handler record (limitations `Critical system failure`) — never the
error handler record that the claim asserts. -/
theorem c2_error_path_amended (env : Env) (q e : String)
    (h : env.llm_reformulate (reformulatePrompt q) = .error e) :
    (query_understanding_node env (initialState q)).error
        = ("Query understanding failed: " ++ e)
    ∧ run_research_pipeline env q
        = RunResult.failed
            ⟨("❌ System Error: " ++ graphErrorMsg GraphError.invalidUpdate), 0, [],
             ("Critical system failure" : String), none⟩
            (graphErrorMsg GraphError.invalidUpdate)
            [Stage.queryRefine, Stage.retrieve, Stage.errorHandler]
            GraphError.invalidUpdate
    ∧ Stage.retrieve ∈ (run_research_pipeline env q).trace
    ∧ (run_research_pipeline env q).finalAnswer
        ≠ (error_node { initialState q with
            error := ("Query understanding failed: " ++ e) }).final_answer := by
  have hne : ("Query understanding failed: " ++ e) ≠ ("" : String) :=
    append_ne_empty_left _ _ (by decide)
  have hnode : query_understanding_node env (initialState q)
      = { initialState q with error := ("Query understanding failed: " ++ e) } :=
    qu_node_error env (initialState q) e h
  have hrn : runNode env Stage.queryRefine (initialState q)
      = { initialState q with error := ("Query understanding failed: " ++ e) } := by
    rw [show runNode env Stage.queryRefine = query_understanding_node env from rfl, hnode]
  have hcond : condNext Stage.queryRefine
        { initialState q with error := ("Query understanding failed: " ++ e) }
      = some Stage.errorHandler := by
    rw [show condNext Stage.queryRefine
          { initialState q with error := ("Query understanding failed: " ++ e) }
        = some (if ("Query understanding failed: " ++ e) = ("" : String)
            then Stage.retrieve else Stage.errorHandler) from rfl,
      if_neg hne]
  have hfront : nextFrontier Stage.queryRefine
        { initialState q with error := ("Query understanding failed: " ++ e) }
      = [Stage.retrieve, Stage.errorHandler] := by
    unfold nextFrontier
    rw [hcond]
    rfl
  have hrun : run_research_pipeline env q
      = RunResult.failed
          ⟨("❌ System Error: " ++ graphErrorMsg GraphError.invalidUpdate), 0, [],
           ("Critical system failure" : String), none⟩
          (graphErrorMsg GraphError.invalidUpdate)
          [Stage.queryRefine, Stage.retrieve, Stage.errorHandler]
          GraphError.invalidUpdate := by
    unfold run_research_pipeline graphInvoke
    rw [show (25 : ℕ) = 24 + 1 from rfl, runGraph_one, hrn, hfront,
      show (24 : ℕ) = 23 + 1 from rfl, runGraph_conflict]
    rfl
  refine ⟨by rw [hnode], hrun, ?_, ?_⟩
  · rw [hrun]; decide
  · rw [hrun]
    intro heq
    have h2 : (⟨("❌ System Error: " ++ graphErrorMsg GraphError.invalidUpdate), 0, [],
          ("Critical system failure" : String), none⟩ : FinalAnswerR)
        = ⟨("❌ Pipeline Error: " ++ ("Query understanding failed: " ++ e)), 0, [],
          ("System error prevented complete processing" : String), none⟩ :=
      Option.some.inj heq
    have h3 : ("Critical system failure" : String)
        = ("System error prevented complete processing" : String) :=
      congrArg FinalAnswerR.limitations h2
    exact absurd h3 (by decide)

/-- C6 counterexample: after QueryRefine returns the empty string the
state's refined_query key holds `""`, and the Retrieve stage passes `""`
to the search collaborator (observed through a collaborator that echoes
its query), not the original query — refuting `refined_query if non-empty
else original_query`. -/
theorem c6_retrieval_query_counterexample :
    query_understanding_node envEmptyRefine (initialState ("what is X"))
      = { initialState ("what is X") with refined_query := some ("" : String) }
    ∧ (retrieval_node envEmptyRefine
        { initialState ("what is X") with refined_query := some ("" : String) }).retrieved_docs
      = [⟨("" : String), []⟩]
    ∧ ([⟨("" : String), []⟩] : List LCDoc) ≠ [⟨("what is X" : String), []⟩] := by
  refine ⟨rfl, rfl, by decide⟩

/-- C6 (amended): the query passed to the search collaborator is the
value under the `refined_query` key whenever that key is present — even
when it is the empty string — and `original_query` only when the key is
absent; the pipeline's initial state stores the key with the empty
string, so the fallback to `original_query` never fires in a pipeline
run. -/
theorem c6_retrieval_query_amended :
    (∀ (env : Env) (s : RState) (v : String), s.refined_query = some v →
      retrieval_node env s = { s with retrieved_docs := run_retriever env v 5 })
    ∧ (∀ (env : Env) (s : RState), s.refined_query = none →
      retrieval_node env s = { s with retrieved_docs := run_retriever env s.original_query 5 })
    ∧ (∀ q : String, (initialState q).refined_query = some ("" : String)) := by
  refine ⟨fun env s v hv => ?_, fun env s hv => ?_, fun q => rfl⟩
  · unfold retrieval_node refinedOrOriginal
    rw [hv]
    rfl
  · unfold retrieval_node refinedOrOriginal
    rw [hv]
    rfl

/-! ## Theorems: frame conditions and in-place mutation (C9) -/

theorem assignScores_strip (docs : List RDoc) (scores : List ℚ) :
    (assignScores docs scores).map (fun d => (d.content, d.metadata))
      = docs.map (fun d => (d.content, d.metadata)) := by
  induction docs generalizing scores with
  | nil => cases scores <;> simp [assignScores]
  | cons d ds ih =>
      cases scores with
      | nil => simp [assignScores]
      | cons sc ss => simp [assignScores, ih]

/-- C9 counterexample: on the empty-context path the Draft stage assigns
`draft_answer` into the state dictionary it received and returns that
same dictionary, and `RerankerAgent.rerank` writes a `score` key into the
document records it was given, so the post-call records differ from the
ones passed in. -/
theorem c9_mutation_counterexample :
    (reasoning_node_run envEmptyRefine (initialState ("q"))).2 = true
    ∧ RerankerAgent.rerank (fun _ => .ok [5]) ("q") [⟨("a" : String), [], none⟩] 3
        = .ok ⟨[⟨("a" : String), [], some 5⟩], [⟨("a" : String), [], some 5⟩], true⟩
    ∧ ([⟨("a" : String), [], some (5 : ℚ)⟩] : List RDoc) ≠ [⟨("a" : String), [], none⟩] := by
  refine ⟨rfl, ?_, by decide⟩
  unfold RerankerAgent.rerank
  simp [assignScores]

/-- C9 (amended): every stage leaves the fields written by previous
stages unchanged, but two stages do write into what they received: the
Draft stage assigns into the received state dictionary exactly on the
empty-context path, and `RerankerAgent.rerank` adds a score to each of
the (converted copies of the) document records handed to it, altering no
content or metadata. -/
theorem c9_frame_amended :
    (∀ (env : Env) (s : RState), (query_understanding_node env s).original_query = s.original_query)
    ∧ (∀ (env : Env) (s : RState),
        (retrieval_node env s).original_query = s.original_query
        ∧ (retrieval_node env s).refined_query = s.refined_query)
    ∧ (∀ (env : Env) (s : RState),
        (reranker_node env s).original_query = s.original_query
        ∧ (reranker_node env s).refined_query = s.refined_query
        ∧ (reranker_node env s).retrieved_docs = s.retrieved_docs)
    ∧ (∀ (env : Env) (s : RState),
        (reasoning_node env s).original_query = s.original_query
        ∧ (reasoning_node env s).refined_query = s.refined_query
        ∧ (reasoning_node env s).retrieved_docs = s.retrieved_docs
        ∧ (reasoning_node env s).reranked_docs = s.reranked_docs)
    ∧ (∀ (env : Env) (s : RState),
        (claim_extraction_node env s).original_query = s.original_query
        ∧ (claim_extraction_node env s).refined_query = s.refined_query
        ∧ (claim_extraction_node env s).retrieved_docs = s.retrieved_docs
        ∧ (claim_extraction_node env s).reranked_docs = s.reranked_docs
        ∧ (claim_extraction_node env s).draft_answer = s.draft_answer)
    ∧ (∀ (env : Env) (s : RState),
        (fact_checking_node env s).original_query = s.original_query
        ∧ (fact_checking_node env s).refined_query = s.refined_query
        ∧ (fact_checking_node env s).retrieved_docs = s.retrieved_docs
        ∧ (fact_checking_node env s).reranked_docs = s.reranked_docs
        ∧ (fact_checking_node env s).draft_answer = s.draft_answer
        ∧ (fact_checking_node env s).extracted_claims = s.extracted_claims)
    ∧ (∀ (env : Env) (s : RState),
        (final_answer_node env s).original_query = s.original_query
        ∧ (final_answer_node env s).refined_query = s.refined_query
        ∧ (final_answer_node env s).retrieved_docs = s.retrieved_docs
        ∧ (final_answer_node env s).reranked_docs = s.reranked_docs
        ∧ (final_answer_node env s).draft_answer = s.draft_answer
        ∧ (final_answer_node env s).extracted_claims = s.extracted_claims
        ∧ (final_answer_node env s).verified_claims = s.verified_claims)
    ∧ (∀ (env : Env) (s : RState), (reasoning_node_run env s).2 = true ↔
        (if s.reranked_docs = [] then s.retrieved_docs else s.reranked_docs) = [])
    ∧ (∀ (score : List (String × String) → Except String (List ℚ)) (query : String)
        (docs : List RDoc) (top_k : ℕ) (res : RerankResult),
        RerankerAgent.rerank score query docs top_k = .ok res →
        res.docs_after.map (fun d => (d.content, d.metadata))
          = docs.map (fun d => (d.content, d.metadata))) := by
  refine ⟨fun env s => ?_, fun env s => ?_, fun env s => ?_, fun env s => ?_, fun env s => ?_,
    fun env s => ?_, fun env s => ?_, fun env s => ?_, fun score query docs top_k res hres => ?_⟩
  · unfold query_understanding_node reformulate_query
    cases env.llm_reformulate (reformulatePrompt s.original_query) <;> rfl
  · exact ⟨rfl, rfl⟩
  · unfold reranker_node
    cases s.retrieved_docs with
    | nil => exact ⟨rfl, rfl, rfl⟩
    | cons d ds =>
        simp only
        split <;> exact ⟨rfl, rfl, rfl⟩
  · unfold reasoning_node reasoning_node_run
    dsimp only
    split
    · exact ⟨rfl, rfl, rfl, rfl⟩
    · split <;> exact ⟨rfl, rfl, rfl, rfl⟩
  · exact ⟨rfl, rfl, rfl, rfl, rfl⟩
  · unfold fact_checking_node
    dsimp only
    split <;> exact ⟨rfl, rfl, rfl, rfl, rfl, rfl⟩
  · exact ⟨rfl, rfl, rfl, rfl, rfl, rfl, rfl⟩
  · unfold reasoning_node_run
    dsimp only
    split
    · rename_i heq
      simp [heq]
    · rename_i heq
      split <;> simp [heq]
  · unfold RerankerAgent.rerank at hres
    cases docs with
    | nil =>
        simp only [Except.ok.injEq] at hres
        rw [← hres]
    | cons d ds =>
        cases hsc : score ((d :: ds).map (fun x => (query, x.content))) with
        | error msg => rw [hsc] at hres; exact absurd hres (by simp)
        | ok scores =>
            rw [hsc] at hres
            simp only [Except.ok.injEq] at hres
            rw [← hres]
            exact assignScores_strip (d :: ds) scores

/-! ## Theorems: extracted claim lengths (C10) -/

theorem keptClaim_inv (j : JVal) (c : String)
    (h : ClaimExtractorAgent.keptClaim j = some c) : 10 < (pyStrip c).length := by
  cases j <;> simp [ClaimExtractorAgent.keptClaim] at h
  rename_i s
  rcases h with ⟨⟨_, hlen⟩, rfl⟩
  exact hlen

/-- C10: every string in the list returned by `extract_claims` has a
stripped length greater than ten characters, on the JSON path, the
sentence-splitting fallback, the blank-input sentinel and the fixed
collaborator-failure fallback alike. -/
theorem c10_extract_claims_min_length (complete : String → Except String String) (answer_text : String) :
    ∀ c ∈ ClaimExtractorAgent.extract_claims complete answer_text,
      10 < (pyStrip c).length := by
  intro c hc
  unfold ClaimExtractorAgent.extract_claims at hc
  split at hc
  · simp at hc
    subst hc
    decide
  · revert hc
    cases hcall : complete (ClaimExtractorAgent.extractPrompt answer_text) with
    | error msg =>
        intro hc
        simp only [ClaimExtractorAgent.failureClaims, List.mem_cons, List.not_mem_nil,
          or_false] at hc
        rcases hc with rfl | rfl | rfl <;> decide
    | ok text =>
        intro hc
        rcases List.mem_filterMap.mp hc with ⟨j, _, hj⟩
        exact keptClaim_inv j c hj

/-- Closed instance of `c2_error_path_amended` at a collaborator whose
reformulation call raises `boom`. -/
theorem c2_error_path_amended_witness :
    (query_understanding_node envRefineBoom (initialState ("what"))).error
        = ("Query understanding failed: " ++ "boom")
    ∧ run_research_pipeline envRefineBoom ("what")
        = RunResult.failed
            ⟨("❌ System Error: " ++ graphErrorMsg GraphError.invalidUpdate), 0, [],
             ("Critical system failure" : String), none⟩
            (graphErrorMsg GraphError.invalidUpdate)
            [Stage.queryRefine, Stage.retrieve, Stage.errorHandler]
            GraphError.invalidUpdate
    ∧ Stage.retrieve ∈ (run_research_pipeline envRefineBoom ("what")).trace
    ∧ (run_research_pipeline envRefineBoom ("what")).finalAnswer
        ≠ (error_node { initialState ("what") with
            error := ("Query understanding failed: " ++ "boom") }).final_answer :=
  c2_error_path_amended envRefineBoom ("what") ("boom") rfl

/-- Closed instance of `c3_claim_breakdown_amended` on two distinct
claims. -/
theorem c3_claim_breakdown_amended_witness :
    (FactCheckerAgent.fact_check_claims (fun _ => .ok []) [("a" : String), ("b" : String)] []).length
      = [("a" : String), ("b" : String)].length :=
  (c3_claim_breakdown_amended (fun _ => .ok ("t")) ("q") [] [] (fun _ => .ok [])
    [("a" : String), ("b" : String)] []).2.2.1 (by decide)

/-- Closed instance of `c5_rerank_stage` on a singleton document list
scored `5`. -/
theorem c5_rerank_stage_witness :
    ∃ res : RerankResult, RerankerAgent.rerank (fun _ => .ok [(5 : ℚ)]) ("q")
        [⟨("a" : String), [], none⟩] 3 = .ok res
      ∧ res.ranked = ((assignScores [⟨("a" : String), [], none⟩] [(5 : ℚ)]).mergeSort
          rerankLe).take 3
      ∧ res.ranked.length = min 3 ([⟨("a" : String), [], none⟩] : List RDoc).length
      ∧ res.ranked.Pairwise (fun a b => scoreKey b ≤ scoreKey a)
      ∧ (∀ a b : RDoc, scoreKey b ≤ scoreKey a →
          [a, b].Sublist (assignScores [⟨("a" : String), [], none⟩] [(5 : ℚ)]) →
          [a, b].Sublist ((assignScores [⟨("a" : String), [], none⟩] [(5 : ℚ)]).mergeSort rerankLe))
      ∧ res.scorer_called = true :=
  (c5_rerank_stage (fun _ => .ok [(5 : ℚ)]) ("q") [⟨("a" : String), [], none⟩] [(5 : ℚ)] 3
    (by decide) rfl).1

/-- Closed instance of `c6_retrieval_query_amended` at a state whose
refined query is `x`. -/
theorem c6_retrieval_query_amended_witness :
    retrieval_node envEmptyRefine
        { initialState ("q") with refined_query := some ("x" : String) }
      = { { initialState ("q") with refined_query := some ("x" : String) } with
          retrieved_docs := run_retriever envEmptyRefine ("x" : String) 5 } :=
  c6_retrieval_query_amended.1 envEmptyRefine
    { initialState ("q") with refined_query := some ("x" : String) } ("x" : String) rfl

/-- Closed instance of `c9_frame_amended`: the score-assigned copies of a
concrete document list keep its contents and metadata. -/
theorem c9_frame_amended_witness :
    ([⟨("a" : String), [], some (5 : ℚ)⟩] : List RDoc).map (fun d => (d.content, d.metadata))
      = ([⟨("a" : String), [], none⟩] : List RDoc).map (fun d => (d.content, d.metadata)) :=
  (c9_frame_amended).2.2.2.2.2.2.2.2 (fun _ => .ok [(5 : ℚ)]) ("q")
    [⟨("a" : String), [], none⟩] 3
    (⟨[⟨("a" : String), [], some (5 : ℚ)⟩], [⟨("a" : String), [], some (5 : ℚ)⟩], true⟩
      : RerankResult)
    (by unfold RerankerAgent.rerank
        simp [assignScores])

/-- Closed instance of `c10_extract_claims_min_length` at the blank-input
sentinel. -/
theorem c10_extract_claims_min_length_witness :
    10 < (pyStrip ("No content available for claim extraction")).length :=
  c10_extract_claims_min_length (fun _ => .ok ("[]")) ("")
    ("No content available for claim extraction") (by decide)

/-! ## Theorems: the structured-output parser round-trip (C7) -/

theorem rcc_nil (b : Char) : repairCommaClose b [] = [] := by
  rw [repairCommaClose.eq_def]

theorem rcc_cons_ne (b c : Char) (l : List Char) (h : c ≠ ',') :
    repairCommaClose b (c :: l) = c :: repairCommaClose b l := by
  rw [repairCommaClose.eq_def]
  split
  · rename_i heq; cases heq
  · rename_i r heq
    injection heq with h1 h2
    exact absurd h1 h
  · rename_i c' r heq
    injection heq with h1 h2
    subst h1; subst h2
    rfl

theorem rcc_comma_empty (b : Char) (l : List Char) (h : l.dropWhile isPyWs = []) :
    repairCommaClose b (',' :: l) = ',' :: repairCommaClose b l := by
  rw [repairCommaClose.eq_def]
  split
  · rename_i heq; cases heq
  · rename_i r heq
    injection heq with _ h2
    subst h2
    split
    · rename_i c t hdw; rw [h] at hdw; cases hdw
    · rfl
  · rename_i c' r hne heq
    injection heq with h1 h2
    exact absurd h1.symm hne

theorem rcc_comma_ne (b c : Char) (l t : List Char)
    (h : l.dropWhile isPyWs = c :: t) (hc : c ≠ b) :
    repairCommaClose b (',' :: l) = ',' :: repairCommaClose b l := by
  rw [repairCommaClose.eq_def]
  split
  · rename_i heq; cases heq
  · rename_i r heq
    injection heq with _ h2
    subst h2
    split
    · rename_i c' t' hdw
      rw [h] at hdw
      injection hdw with hd1 hd2
      subst hd1
      subst hd2
      rw [if_neg hc]
    · rfl
  · rename_i c' r hne heq
    injection heq with h1 h2
    exact absurd h1.symm hne

theorem rcc_comma_match (b : Char) (l t : List Char)
    (h : l.dropWhile isPyWs = b :: t) :
    repairCommaClose b (',' :: l) = b :: repairCommaClose b t := by
  rw [repairCommaClose.eq_def]
  split
  · rename_i heq; cases heq
  · rename_i r heq
    injection heq with _ h2
    subst h2
    split
    · rename_i c' t' hdw
      rw [h] at hdw
      injection hdw with hd1 hd2
      subst hd1
      subst hd2
      rw [if_pos rfl]
    · rename_i heq2
      rw [h] at heq2
      cases heq2
  · rename_i c' r hne heq
    injection heq with h1 h2
    exact absurd h1.symm hne


theorem safeChar_spec (c : Char) (h : safeChar c = true) :
    32 ≤ c.toNat ∧ c ≠ '"' ∧ c ≠ '\\' ∧ c ≠ '`' ∧ c ≠ '[' ∧ c ≠ ']' ∧ c ≠ '{' ∧ c ≠ '}' := by
  simp only [safeChar, Bool.and_eq_true, Bool.not_eq_true', Bool.or_eq_false_iff,
    decide_eq_true_eq, decide_eq_false_iff_not] at h
  refine ⟨h.1, ?_, ?_, ?_, ?_, ?_, ?_, ?_⟩ <;> tauto

theorem safeChar_not_ctrl (c : Char) (h : safeChar c = true) : ¬ c.toNat < 32 := by
  have := (safeChar_spec c h).1; omega

theorem escapeJChar_safe (c : Char) (h : safeChar c = true) : escapeJChar c = [c] := by
  obtain ⟨h32, hq, hbs, -, -, -, -, -⟩ := safeChar_spec c h
  rw [escapeJChar, if_neg hq, if_neg hbs,
    if_neg (fun hc => by rw [hc] at h32; exact absurd h32 (by decide)),
    if_neg (fun hc => by rw [hc] at h32; exact absurd h32 (by decide)),
    if_neg (fun hc => by rw [hc] at h32; exact absurd h32 (by decide)),
    if_neg (fun hc => by rw [hc] at h32; exact absurd h32 (by decide)),
    if_neg (fun hc => by rw [hc] at h32; exact absurd h32 (by decide)),
    if_neg (by omega)]

theorem flatMap_escape_safe (l : List Char) (h : ∀ c ∈ l, safeChar c = true) :
    l.flatMap escapeJChar = l := by
  induction l with
  | nil => rfl
  | cons c t ih =>
      rw [List.flatMap_cons, escapeJChar_safe c (h c (List.mem_cons_self c t)),
        ih (fun x hx => h x (List.mem_cons_of_mem c hx))]
      rfl

theorem strLit_safe (s : String) (h : safeS s = true) :
    strLit s = '"' :: (s.toList ++ ['"']) := by
  rw [strLit, flatMap_escape_safe]
  intro c hc
  exact List.all_eq_true.mp h c hc

theorem scanString_safe (l : List Char) (h : ∀ c ∈ l, safeChar c = true) (rest : List Char) :
    scanString (l ++ '"' :: rest) = some (l, rest) := by
  induction l with
  | nil => rfl
  | cons c t ih =>
      obtain ⟨h32, hq, hbs, -, -, -, -, -⟩ := safeChar_spec c (h c (List.mem_cons_self c t))
      rw [List.cons_append, scanString.eq_def]
      split
      · rename_i heq; cases heq
      · rename_i r heq
        injection heq with h1 h2
        exact absurd h1 hq
      · rename_i a b c' d r heq
        injection heq with h1 h2
        exact absurd h1 hbs
      · rename_i e r heq
        injection heq with h1 h2
        exact absurd h1 hbs
      · rename_i c' r heq
        injection heq with h1 h2
        subst h1; subst h2
        rw [if_neg (by omega)]
        rw [ih (fun x hx => h x (List.mem_cons_of_mem c hx))]
        rfl

theorem natDigitChars_lt (n : ℕ) (acc : List Char) (h : n < 10) :
    natDigitChars n acc = Char.ofNat (48 + n) :: acc := by
  conv_lhs => rw [natDigitChars]
  simp only [dif_pos h]

theorem natDigitChars_ge (n : ℕ) (acc : List Char) (h : ¬ n < 10) :
    natDigitChars n acc = natDigitChars (n / 10) (Char.ofNat (48 + n % 10) :: acc) := by
  conv_lhs => rw [natDigitChars]
  simp only [dif_neg h]

theorem natDigitChars_acc (n : ℕ) :
    ∀ acc : List Char, natDigitChars n acc = natDigitChars n [] ++ acc := by
  induction n using Nat.strong_induction_on with
  | _ n ih =>
      intro acc
      by_cases h : n < 10
      · rw [natDigitChars_lt n acc h, natDigitChars_lt n [] h]
        rfl
      · have hlt : n / 10 < n := Nat.div_lt_self (by omega) (by omega)
        rw [natDigitChars_ge n acc h, natDigitChars_ge n [] h,
          ih (n / 10) hlt (Char.ofNat (48 + n % 10) :: acc),
          ih (n / 10) hlt [Char.ofNat (48 + n % 10)]]
        simp

theorem natDigitChars_ne_nil (n : ℕ) (acc : List Char) : natDigitChars n acc ≠ [] := by
  by_cases h : n < 10
  · rw [natDigitChars_lt n acc h]
    exact List.cons_ne_nil _ _
  · rw [natDigitChars_ge n acc h]
    by_cases h2 : n / 10 < 10
    · rw [natDigitChars_lt _ _ h2]
      exact List.cons_ne_nil _ _
    · rw [natDigitChars_ge _ _ h2, natDigitChars_acc]
      simp

theorem digitChar_spec (d : ℕ) (h : d < 10) :
    (Char.ofNat (48 + d)).toNat = 48 + d ∧ isDigitCh (Char.ofNat (48 + d)) = true := by
  interval_cases d <;> exact ⟨by decide, by decide⟩

theorem natDigitChars_digits (n : ℕ) :
    ∀ c ∈ natDigitChars n [], ∃ d, d < 10 ∧ c = Char.ofNat (48 + d) := by
  induction n using Nat.strong_induction_on with
  | _ n ih =>
      intro c hc
      by_cases h : n < 10
      · rw [natDigitChars_lt n [] h] at hc
        rcases List.mem_singleton.mp hc with rfl
        exact ⟨n, h, rfl⟩
      · rw [natDigitChars_ge n [] h, natDigitChars_acc] at hc
        rcases List.mem_append.mp hc with h1 | h1
        · exact ih (n / 10) (Nat.div_lt_self (by omega) (by omega)) c h1
        · rcases List.mem_singleton.mp h1 with rfl
          exact ⟨n % 10, Nat.mod_lt _ (by omega), rfl⟩

theorem digitsVal_append (l : List Char) (c : Char) :
    digitsVal (l ++ [c]) = 10 * digitsVal l + (c.toNat - 48) := by
  simp [digitsVal, List.foldl_append]

theorem digitsVal_natDigitChars (n : ℕ) : digitsVal (natDigitChars n []) = n := by
  induction n using Nat.strong_induction_on with
  | _ n ih =>
      by_cases h : n < 10
      · rw [natDigitChars_lt n [] h]
        have hv := (digitChar_spec n h).1
        simp [digitsVal, hv]
      · rw [natDigitChars_ge n [] h, natDigitChars_acc, digitsVal_append,
          ih (n / 10) (Nat.div_lt_self (by omega) (by omega)),
          (digitChar_spec (n % 10) (Nat.mod_lt _ (by omega))).1]
        omega

theorem natDigitChars_head_big (n : ℕ) (h : 10 ≤ n) :
    ∃ c t, natDigitChars n [] = c :: t ∧ c ≠ '0' ∧ t ≠ [] := by
  induction n using Nat.strong_induction_on with
  | _ n ih =>
      rw [natDigitChars_ge n [] (by omega), natDigitChars_acc]
      by_cases h10 : n / 10 < 10
      · have h1 : 1 ≤ n / 10 := Nat.le_div_iff_mul_le (by omega) |>.mpr (by omega)
        rw [natDigitChars_lt _ _ h10]
        refine ⟨Char.ofNat (48 + n / 10), [Char.ofNat (48 + n % 10)], rfl, ?_, by simp⟩
        interval_cases h' : n / 10 <;> decide
      · obtain ⟨c, t, heq, hc, ht⟩ := ih (n / 10) (Nat.div_lt_self (by omega) (by omega)) (by omega)
        rw [heq]
        exact ⟨c, t ++ [Char.ofNat (48 + n % 10)], rfl, hc, by simp⟩

theorem takeWhile_append_all (p : Char → Bool) (l rest : List Char)
    (hl : ∀ c ∈ l, p c = true) (hrest : ∀ c t, rest = c :: t → p c = false) :
    (l ++ rest).takeWhile p = l ∧ (l ++ rest).dropWhile p = rest := by
  induction l with
  | nil =>
      cases rest with
      | nil => simp
      | cons c t => simp [List.takeWhile_cons, List.dropWhile_cons, hrest c t rfl]
  | cons a l' ih =>
      have ha := hl a (List.mem_cons_self a l')
      have ih' := ih (fun c hc => hl c (List.mem_cons_of_mem a hc))
      simp [List.takeWhile_cons, List.dropWhile_cons, ha, ih'.1, ih'.2]

theorem numDelim_spec (c : Char) (t : List Char) (h : numDelim (c :: t) = true) :
    isDigitCh c = false ∧ c ≠ '.' ∧ c ≠ 'e' ∧ c ≠ 'E' := by
  simp only [numDelim, Bool.not_eq_true', Bool.or_eq_false_iff,
    decide_eq_false_iff_not] at h
  exact ⟨h.1.1.1, h.1.1.2, h.1.2, h.2⟩

theorem scanNat_render (n : ℕ) (rest : List Char) (hd : numDelim rest = true) :
    scanNat (natDigitChars n [] ++ rest) = some (n, rest) := by
  have hdig : ∀ c ∈ natDigitChars n [], isDigitCh c = true := by
    intro c hc
    obtain ⟨d, hd10, rfl⟩ := natDigitChars_digits n c hc
    exact (digitChar_spec d hd10).2
  have hrest : ∀ c t, rest = c :: t → isDigitCh c = false := by
    intro c t hr
    subst hr
    exact (numDelim_spec c t hd).1
  obtain ⟨htw, hdw⟩ := takeWhile_append_all isDigitCh (natDigitChars n []) rest hdig hrest
  rw [scanNat, htw, hdw]
  by_cases h10 : n < 10
  · rw [natDigitChars_lt n [] h10]
    have hdv : digitsVal [Char.ofNat (48 + n)] = n := by
      simp [digitsVal, (digitChar_spec n h10).1]
    cases rest with
    | nil => simp [hdv]
    | cons c t =>
        obtain ⟨-, hdot, he, hE⟩ := numDelim_spec c t hd
        dsimp only
        split
        · rename_i heq; injection heq with h1 _; exact absurd h1 hdot
        · rename_i heq; injection heq with h1 _; exact absurd h1 he
        · rename_i heq; injection heq with h1 _; exact absurd h1 hE
        · simp [hdv]
  · obtain ⟨c0, t0, heq, hc0, ht0⟩ := natDigitChars_head_big n (by omega)
    rw [heq]
    have hdv : digitsVal (c0 :: t0) = n := by
      rw [← heq, digitsVal_natDigitChars]
    cases rest with
    | nil => simp [hdv, hc0]
    | cons c t =>
        obtain ⟨-, hdot, he, hE⟩ := numDelim_spec c t hd
        dsimp only
        split
        · rename_i heq2; injection heq2 with h1 _; exact absurd h1 hdot
        · rename_i heq2; injection heq2 with h1 _; exact absurd h1 he
        · rename_i heq2; injection heq2 with h1 _; exact absurd h1 hE
        · simp [hdv, hc0]

theorem scanInt_render (z : ℤ) (rest : List Char) (hd : numDelim rest = true) :
    scanInt (intChars z ++ rest) = some (z, rest) := by
  by_cases hz : z < 0
  · rw [intChars, if_pos hz]
    rw [List.cons_append, scanInt]
    rw [scanNat_render z.natAbs rest hd]
    simp only [Option.map]
    have : -((z.natAbs : ℤ)) = z := by omega
    rw [this]
  · rw [intChars, if_neg hz]
    rw [scanInt.eq_def]
    split
    · rename_i cs heq
      obtain ⟨c, t, hsh, hvh⟩ : ∃ c t, natDigitChars z.natAbs [] = c :: t ∧ isDigitCh c = true := by
        cases hnd : natDigitChars z.natAbs [] with
        | nil => exact absurd hnd (natDigitChars_ne_nil _ _)
        | cons c t =>
            refine ⟨c, t, rfl, ?_⟩
            have : c ∈ natDigitChars z.natAbs [] := by rw [hnd]; exact List.mem_cons_self c t
            obtain ⟨d, hd10, rfl⟩ := natDigitChars_digits _ c this
            exact (digitChar_spec d hd10).2
      rw [hsh] at heq
      rw [List.cons_append] at heq
      injection heq with h1 _
      rw [h1] at hvh
      exact absurd hvh (by decide)
    · rw [scanNat_render z.natAbs rest hd]
      simp only [Option.map]
      have : ((z.natAbs : ℤ)) = z := by omega
      rw [this]

theorem intChars_head (z : ℤ) :
    ∃ c t, intChars z = c :: t ∧ (c = '-' ∨ isDigitCh c = true) := by
  have hshape : ∀ n : ℕ, ∃ c t, natDigitChars n [] = c :: t ∧ isDigitCh c = true := by
    intro n
    cases hnd : natDigitChars n [] with
    | nil => exact absurd hnd (natDigitChars_ne_nil _ _)
    | cons c t =>
        refine ⟨c, t, rfl, ?_⟩
        have hm : c ∈ natDigitChars n [] := by rw [hnd]; exact List.mem_cons_self c t
        obtain ⟨d, hd10, rfl⟩ := natDigitChars_digits _ c hm
        exact (digitChar_spec d hd10).2
  by_cases hz : z < 0
  · exact ⟨'-', natDigitChars z.natAbs [], by rw [intChars, if_pos hz], Or.inl rfl⟩
  · obtain ⟨c, t, hsh, hd⟩ := hshape z.natAbs
    exact ⟨c, t, by rw [intChars, if_neg hz, hsh], Or.inr hd⟩

theorem valueHead_minus : valueHead '-' = true := by decide

theorem valueHead_digit (c : Char) (h : isDigitCh c = true) : valueHead c = true := by
  simp [valueHead, h]

theorem renderJ_head (v : JVal) :
    ∃ c t, renderJ v = c :: t ∧ valueHead c = true := by
  cases v with
  | jnull => exact ⟨'n', _, rfl, by decide⟩
  | jbool b => cases b with
      | true => exact ⟨'t', _, rfl, by decide⟩
      | false => exact ⟨'f', _, rfl, by decide⟩
  | jnum z =>
      obtain ⟨c, t, hsh, hd⟩ := intChars_head z
      refine ⟨c, t, by rw [renderJ, hsh], ?_⟩
      rcases hd with rfl | hd
      · exact valueHead_minus
      · exact valueHead_digit c hd
  | jstr s => exact ⟨'"', _, rfl, by decide⟩
  | jarr xs => exact ⟨'[', _, rfl, by decide⟩
  | jobj kvs => exact ⟨'{', _, rfl, by decide⟩

theorem renderTC_head (v : JVal) :
    ∃ c t, renderTC v = c :: t ∧ valueHead c = true := by
  cases v with
  | jnull => exact ⟨'n', _, rfl, by decide⟩
  | jbool b => cases b with
      | true => exact ⟨'t', _, rfl, by decide⟩
      | false => exact ⟨'f', _, rfl, by decide⟩
  | jnum z =>
      obtain ⟨c, t, hsh, hd⟩ := intChars_head z
      refine ⟨c, t, by rw [renderTC, hsh], ?_⟩
      rcases hd with rfl | hd
      · exact valueHead_minus
      · exact valueHead_digit c hd
  | jstr s => exact ⟨'"', _, rfl, by decide⟩
  | jarr xs => cases xs with
      | nil => exact ⟨'[', _, by rw [renderTC], by decide⟩
      | cons x t => exact ⟨'[', _, by rw [renderTC], by decide⟩
  | jobj kvs => cases kvs with
      | nil => exact ⟨'{', _, by rw [renderTC], by decide⟩
      | cons kv t => exact ⟨'{', _, by rw [renderTC], by decide⟩

theorem renderT1_head (v : JVal) :
    ∃ c t, renderT1 v = c :: t ∧ valueHead c = true := by
  cases v with
  | jnull => exact ⟨'n', _, rfl, by decide⟩
  | jbool b => cases b with
      | true => exact ⟨'t', _, rfl, by decide⟩
      | false => exact ⟨'f', _, rfl, by decide⟩
  | jnum z =>
      obtain ⟨c, t, hsh, hd⟩ := intChars_head z
      refine ⟨c, t, by rw [renderT1, hsh], ?_⟩
      rcases hd with rfl | hd
      · exact valueHead_minus
      · exact valueHead_digit c hd
  | jstr s => exact ⟨'"', _, rfl, by decide⟩
  | jarr xs => cases xs with
      | nil => exact ⟨'[', _, by rw [renderT1], by decide⟩
      | cons x t => exact ⟨'[', _, by rw [renderT1], by decide⟩
  | jobj kvs => cases kvs with
      | nil => exact ⟨'{', _, by rw [renderT1], by decide⟩
      | cons kv t => exact ⟨'{', _, by rw [renderT1], by decide⟩

theorem valueHead_spec (c : Char) (h : valueHead c = true) :
    isJsonWs c = false ∧ isPyWs c = false ∧ c ≠ ']' ∧ c ≠ '}' ∧ c ≠ ',' ∧ c ≠ ':' ∧ c ≠ '`' := by
  simp only [valueHead, Bool.or_eq_true, decide_eq_true_eq] at h
  have hcases : c = '"' ∨ c = '-' ∨ isDigitCh c = true ∨ c = 'n' ∨ c = 't' ∨ c = 'f' ∨
      c = '[' ∨ c = '{' := by tauto
  rcases hcases with rfl | rfl | hd | rfl | rfl | rfl | rfl | rfl
  · exact ⟨by decide, by decide, by decide, by decide, by decide, by decide, by decide⟩
  · exact ⟨by decide, by decide, by decide, by decide, by decide, by decide, by decide⟩
  · have hjw : isJsonWs c = false := by
      by_contra hcx
      simp only [Bool.not_eq_false] at hcx
      rcases (by simpa [isJsonWs] using hcx :
          ((c = ' ' ∨ c = '\t') ∨ c = '\n') ∨ c = '\r')
        with ((rfl | rfl) | rfl) | rfl <;> exact absurd hd (by decide)
    have hpw : isPyWs c = false := by
      by_contra hcx
      simp only [Bool.not_eq_false] at hcx
      rcases (by simpa [isPyWs] using hcx :
          ((((c = ' ' ∨ c = '\t') ∨ c = '\n') ∨ c = '\r') ∨ c = '\x0b') ∨ c = '\x0c')
        with ((((rfl | rfl) | rfl) | rfl) | rfl) | rfl <;> exact absurd hd (by decide)
    refine ⟨hjw, hpw, ?_, ?_, ?_, ?_, ?_⟩ <;>
      (intro hcx; rw [hcx] at hd; exact absurd hd (by decide))
  · exact ⟨by decide, by decide, by decide, by decide, by decide, by decide, by decide⟩
  · exact ⟨by decide, by decide, by decide, by decide, by decide, by decide, by decide⟩
  · exact ⟨by decide, by decide, by decide, by decide, by decide, by decide, by decide⟩
  · exact ⟨by decide, by decide, by decide, by decide, by decide, by decide, by decide⟩
  · exact ⟨by decide, by decide, by decide, by decide, by decide, by decide, by decide⟩

theorem jscan_succ (f : ℕ) (cs : List Char) :
    jscan (f + 1) cs =
      match cs.dropWhile isJsonWs with
      | 'n' :: 'u' :: 'l' :: 'l' :: r => some (jnull, r)
      | 't' :: 'r' :: 'u' :: 'e' :: r => some (jbool true, r)
      | 'f' :: 'a' :: 'l' :: 's' :: 'e' :: r => some (jbool false, r)
      | '"' :: r => (scanString r).map (fun p => (jstr (String.mk p.1), p.2))
      | '[' :: r =>
          (match r.dropWhile isJsonWs with
           | ']' :: r2 => some (jarr [], r2)
           | other => (jscanList f other).map (fun p => (jarr p.1, p.2)))
      | '{' :: r =>
          (match r.dropWhile isJsonWs with
           | '}' :: r2 => some (jobj [], r2)
           | other => (jscanPairs f other).map (fun p => (jobj p.1, p.2)))
      | c :: r =>
          if c = '-' || isDigitCh c then
            (scanInt (c :: r)).map (fun p => (jnum p.1, p.2))
          else none
      | [] => none := rfl

theorem jscanList_succ (f : ℕ) (cs : List Char) :
    jscanList (f + 1) cs = (do
      let (v, r) ← jscan f cs
      match r.dropWhile isJsonWs with
      | ',' :: r2 => (jscanList f r2).map (fun p => (v :: p.1, p.2))
      | ']' :: r2 => some ([v], r2)
      | _ => none) := rfl

theorem jscanPairs_succ (f : ℕ) (cs : List Char) :
    jscanPairs (f + 1) cs =
      match cs.dropWhile isJsonWs with
      | '"' :: r => do
          let (k, r1) ← scanString r
          match r1.dropWhile isJsonWs with
          | ':' :: r2 => do
              let (v, r3) ← jscan f r2
              match r3.dropWhile isJsonWs with
              | ',' :: r4 => (jscanPairs f r4).map (fun p => ((String.mk k, v) :: p.1, p.2))
              | '}' :: r4 => some ([(String.mk k, v)], r4)
              | _ => none
          | _ => none
      | _ => none := rfl

theorem numDelim_of_head (c : Char) (l : List Char) (h1 : isDigitCh c = false)
    (h2 : c ≠ '.') (h3 : c ≠ 'e') (h4 : c ≠ 'E') : numDelim (c :: l) = true := by
  simp [numDelim, h1, h2, h3, h4]

theorem numHead_ne (c : Char) (hd : c = '-' ∨ isDigitCh c = true) :
    c ≠ 'n' ∧ c ≠ 't' ∧ c ≠ 'f' ∧ c ≠ '"' ∧ c ≠ '[' ∧ c ≠ '{' := by
  rcases hd with rfl | hd
  · exact ⟨by decide, by decide, by decide, by decide, by decide, by decide⟩
  · refine ⟨?_, ?_, ?_, ?_, ?_, ?_⟩ <;>
      (intro hc; rw [hc] at hd; exact absurd hd (by decide))

theorem renderSeq_cons_shape (x : JVal) (t : List JVal) :
    ∃ s, renderSeq (x :: t) = renderJ x ++ s := by
  cases t with
  | nil => exact ⟨[], by rw [renderSeq]; simp⟩
  | cons y t' => exact ⟨',' :: renderSeq (y :: t'), by rw [renderSeq]⟩

theorem renderPairs_cons_shape (k : String) (v : JVal) (t : List (String × JVal)) :
    ∃ s, renderPairs ((k, v) :: t) = strLit k ++ ':' :: s := by
  cases t with
  | nil => exact ⟨renderJ v, by rw [renderPairs]⟩
  | cons m t' => exact ⟨renderJ v ++ ',' :: renderPairs (m :: t'), by rw [renderPairs]; simp⟩

theorem renderJ_arr_eq (xs : List JVal) :
    renderJ (jarr xs) = '[' :: (renderSeq xs ++ [']']) := by rw [renderJ]

theorem renderJ_obj_eq (kvs : List (String × JVal)) :
    renderJ (jobj kvs) = '{' :: (renderPairs kvs ++ ['}']) := by rw [renderJ]

theorem renderJ_length_pos (v : JVal) : 1 ≤ (renderJ v).length := by
  obtain ⟨c, t, heq, -⟩ := renderJ_head v
  rw [heq]
  simp

theorem strLit_length_pos (k : String) : 1 ≤ (strLit k).length := by
  rw [strLit]
  simp

theorem dropWhile_cons_of_neg (p : Char → Bool) (c : Char) (l : List Char)
    (h : p c = false) : List.dropWhile p (c :: l) = c :: l := by
  simp [List.dropWhile_cons, h]

theorem safeVL_cons (x : JVal) (t : List JVal) :
    safeVL (x :: t) = (safeV x && safeVL t) := by
  rw [safeVL]

theorem safeVP_cons (k : String) (v : JVal) (t : List (String × JVal)) :
    safeVP ((k, v) :: t) = (safeS k && safeV v && safeVP t) := by
  rw [safeVP]

theorem jscan_quote (f : ℕ) (r : List Char) :
    jscan (f + 1) ('"' :: r)
      = (scanString r).map (fun p => (jstr (String.mk p.1), p.2)) := rfl

theorem jscan_arr_step (f : ℕ) (r : List Char) :
    jscan (f + 1) ('[' :: r)
      = (match r.dropWhile isJsonWs with
         | ']' :: r2 => some (jarr [], r2)
         | other => (jscanList f other).map (fun p => (jarr p.1, p.2))) := rfl

theorem jscan_obj_step (f : ℕ) (r : List Char) :
    jscan (f + 1) ('{' :: r)
      = (match r.dropWhile isJsonWs with
         | '}' :: r2 => some (jobj [], r2)
         | other => (jscanPairs f other).map (fun p => (jobj p.1, p.2))) := rfl

theorem jscanList_close (f : ℕ) (cs : List Char) (v : JVal) (r2 : List Char)
    (h : jscan f cs = some (v, ']' :: r2)) :
    jscanList (f + 1) cs = some ([v], r2) := by
  rw [jscanList_succ, h]
  rfl

theorem jscanList_comma (f : ℕ) (cs : List Char) (v : JVal) (r2 : List Char)
    (h : jscan f cs = some (v, ',' :: r2)) :
    jscanList (f + 1) cs = (jscanList f r2).map (fun p => (v :: p.1, p.2)) := by
  rw [jscanList_succ, h]
  rfl

theorem jscanPairs_quote (f : ℕ) (r : List Char) :
    jscanPairs (f + 1) ('"' :: r)
      = (do
          let (k, r1) ← scanString r
          match r1.dropWhile isJsonWs with
          | ':' :: r2 => do
              let (v, r3) ← jscan f r2
              match r3.dropWhile isJsonWs with
              | ',' :: r4 => (jscanPairs f r4).map (fun p => ((String.mk k, v) :: p.1, p.2))
              | '}' :: r4 => some ([(String.mk k, v)], r4)
              | _ => none
          | _ => none) := rfl

theorem jscanPairs_key (f : ℕ) (r kl tail : List Char)
    (hscan : scanString r = some (kl, ':' :: tail)) :
    jscanPairs (f + 1) ('"' :: r)
      = (do
          let (v, r3) ← jscan f tail
          match r3.dropWhile isJsonWs with
          | ',' :: r4 => (jscanPairs f r4).map (fun p => ((String.mk kl, v) :: p.1, p.2))
          | '}' :: r4 => some ([(String.mk kl, v)], r4)
          | _ => none) := by
  rw [jscanPairs_quote, hscan]
  rfl

theorem jscanPairs_key_close (f : ℕ) (r kl : List Char) (v : JVal) (r4 : List Char)
    (hscan : scanString r = some (kl, ':' :: (renderJ v ++ '}' :: r4)))
    (hv : jscan f (renderJ v ++ '}' :: r4) = some (v, '}' :: r4)) :
    jscanPairs (f + 1) ('"' :: r) = some ([(String.mk kl, v)], r4) := by
  rw [jscanPairs_key f r kl _ hscan, hv]
  rfl

theorem jscanPairs_key_comma (f : ℕ) (r kl : List Char) (v : JVal) (r4 : List Char)
    (hscan : scanString r = some (kl, ':' :: (renderJ v ++ ',' :: r4)))
    (hv : jscan f (renderJ v ++ ',' :: r4) = some (v, ',' :: r4)) :
    jscanPairs (f + 1) ('"' :: r)
      = (jscanPairs f r4).map (fun p => ((String.mk kl, v) :: p.1, p.2)) := by
  rw [jscanPairs_key f r kl _ hscan, hv]
  rfl

theorem rtAll (n : ℕ) :
    (∀ v : JVal, sizeOf v ≤ n → safeV v = true →
      ∀ (fuel : ℕ) (rest : List Char), (renderJ v).length < fuel → numDelim rest = true →
        jscan fuel (renderJ v ++ rest) = some (v, rest))
    ∧ (∀ xs : List JVal, sizeOf xs ≤ n → safeVL xs = true → xs ≠ [] →
      ∀ (fuel : ℕ) (rest : List Char), (renderSeq xs).length + 1 < fuel →
        jscanList fuel (renderSeq xs ++ ']' :: rest) = some (xs, rest))
    ∧ (∀ kvs : List (String × JVal), sizeOf kvs ≤ n → safeVP kvs = true → kvs ≠ [] →
      ∀ (fuel : ℕ) (rest : List Char), (renderPairs kvs).length + 1 < fuel →
        jscanPairs fuel (renderPairs kvs ++ '}' :: rest) = some (kvs, rest)) := by
  induction n using Nat.strong_induction_on with
  | _ n ih =>
    refine ⟨?_, ?_, ?_⟩
    · intro v hsz hs fuel rest hf hnd
      cases fuel with
      | zero => exact absurd hf (by omega)
      | succ f =>
        cases v with
        | jnull => simp [renderJ, jscan_succ, isJsonWs]
        | jbool b => cases b with
            | true => simp [renderJ, jscan_succ, isJsonWs]
            | false => simp [renderJ, jscan_succ, isJsonWs]
        | jnum z =>
            obtain ⟨c0, t0, hsh, hd⟩ := intChars_head z
            obtain ⟨hn, ht, hfc, hq, hlb, hlc⟩ := numHead_ne c0 hd
            have hnws : isJsonWs c0 = false := by
              rcases hd with rfl | hd
              · decide
              · by_contra hx
                simp only [Bool.not_eq_false] at hx
                rcases (by simpa [isJsonWs] using hx :
                    ((c0 = ' ' ∨ c0 = '\t') ∨ c0 = '\n') ∨ c0 = '\r')
                  with ((rfl | rfl) | rfl) | rfl <;> exact absurd hd (by decide)
            rw [jscan_succ]
            simp only [renderJ]
            rw [hsh, List.cons_append, dropWhile_cons_of_neg _ _ _ hnws]
            split
            · rename_i heq; injection heq with h1 _; exact absurd h1 hn
            · rename_i heq; injection heq with h1 _; exact absurd h1 ht
            · rename_i heq; injection heq with h1 _; exact absurd h1 hfc
            · rename_i heq; injection heq with h1 _; exact absurd h1 hq
            · rename_i heq; injection heq with h1 _; exact absurd h1 hlb
            · rename_i heq; injection heq with h1 _; exact absurd h1 hlc
            · rename_i c r heq
              injection heq with h1 h2
              subst h1
              have hif : (c0 = '-' || isDigitCh c0) = true := by
                rcases hd with rfl | hd
                · simp
                · simp [hd]
              rw [hif]
              simp only [if_true]
              rw [← h2, ← List.cons_append, ← hsh, scanInt_render z rest hnd]
              rfl
            · rename_i heq; cases heq
        | jstr s =>
            have hsafe : ∀ c ∈ s.toList, safeChar c = true := by
              simp only [safeV, safeS] at hs
              exact List.all_eq_true.mp hs
            simp only [renderJ]
            rw [strLit_safe s (by simpa [safeV] using hs), List.cons_append, jscan_quote,
              show (s.toList ++ ['"']) ++ rest = s.toList ++ '"' :: rest from by simp,
              scanString_safe s.toList hsafe rest]
            rfl
        | jarr xs =>
            cases xs with
            | nil =>
                rw [jscan_succ]
                simp [renderJ, renderSeq, isJsonWs]
            | cons x t =>
                have hsL : safeVL (x :: t) = true := by simpa [safeV] using hs
                obtain ⟨s1, hshape⟩ := renderSeq_cons_shape x t
                obtain ⟨c0, t0, hxh, hvh⟩ := renderJ_head x
                obtain ⟨hnws, -, hnrb, -, -, -, -⟩ := valueHead_spec c0 hvh
                have hre : (renderSeq (x :: t) ++ [']']) ++ rest
                    = c0 :: (t0 ++ (s1 ++ ']' :: rest)) := by
                  rw [hshape, hxh]; simp
                have hback : c0 :: (t0 ++ (s1 ++ ']' :: rest))
                    = renderSeq (x :: t) ++ ']' :: rest := by
                  rw [hshape, hxh]; simp
                have hfuel : (renderSeq (x :: t)).length + 1 < f := by
                  have hlen : (renderJ (jarr (x :: t))).length
                      = (renderSeq (x :: t)).length + 2 := by
                    rw [renderJ_arr_eq]; simp
                  omega
                have hm : sizeOf (x :: t) < n := by
                  simp at hsz ⊢
                  omega
                have hcall := (ih _ hm).2.1 (x :: t) (le_refl _) hsL (by simp) f rest hfuel
                rw [renderJ_arr_eq, List.cons_append, jscan_arr_step, hre,
                  dropWhile_cons_of_neg _ _ _ hnws]
                split
                · rename_i heq; injection heq with h1 _; exact absurd h1 hnrb
                · rw [hback, hcall]
                  rfl
        | jobj kvs =>
            cases kvs with
            | nil =>
                rw [jscan_succ]
                simp [renderJ, renderPairs, isJsonWs]
            | cons kv t =>
                obtain ⟨k, v⟩ := kv
                have hsP : safeVP ((k, v) :: t) = true := by simpa [safeV] using hs
                obtain ⟨s1, hshape⟩ := renderPairs_cons_shape k v t
                have hre : (renderPairs ((k, v) :: t) ++ ['}']) ++ rest
                    = '"' :: ((k.toList.flatMap escapeJChar ++ ['"'])
                        ++ (':' :: (s1 ++ '}' :: rest))) := by
                  rw [hshape, strLit]; simp
                have hback : '"' :: ((k.toList.flatMap escapeJChar ++ ['"'])
                        ++ (':' :: (s1 ++ '}' :: rest)))
                    = renderPairs ((k, v) :: t) ++ '}' :: rest := by
                  rw [hshape, strLit]; simp
                have hfuel : (renderPairs ((k, v) :: t)).length + 1 < f := by
                  have hlen : (renderJ (jobj ((k, v) :: t))).length
                      = (renderPairs ((k, v) :: t)).length + 2 := by
                    rw [renderJ_obj_eq]; simp
                  omega
                have hm : sizeOf ((k, v) :: t) < n := by
                  simp at hsz ⊢
                  omega
                have hcall := (ih _ hm).2.2 ((k, v) :: t) (le_refl _) hsP (by simp) f rest hfuel
                rw [renderJ_obj_eq, List.cons_append, jscan_obj_step, hre,
                  dropWhile_cons_of_neg _ _ _ (by decide)]
                split
                · rename_i heq; injection heq with h1 _; exact absurd h1 (by decide)
                · rw [hback, hcall]
                  rfl
    · intro xs hsz hs hne fuel rest hf
      cases fuel with
      | zero => exact absurd hf (by omega)
      | succ f =>
        cases xs with
        | nil => exact absurd rfl hne
        | cons x t =>
          have hsx : safeV x = true := by
            rw [safeVL_cons, Bool.and_eq_true] at hs
            exact hs.1
          have hmx : sizeOf x < n := by
            simp at hsz ⊢
            omega
          cases t with
          | nil =>
              have hx := (ih _ hmx).1 x (le_refl _) hsx f (']' :: rest)
                (by simp only [renderSeq] at hf; omega)
                (numDelim_of_head ']' rest (by decide) (by decide) (by decide) (by decide))
              rw [show renderSeq [x] ++ ']' :: rest = renderJ x ++ ']' :: rest from by
                rw [renderSeq]]
              exact jscanList_close f _ x rest hx
          | cons y t' =>
              have hst : safeVL (y :: t') = true := by
                rw [safeVL_cons, Bool.and_eq_true] at hs
                exact hs.2
              have hlen : (renderSeq (x :: y :: t')).length
                  = (renderJ x).length + 1 + (renderSeq (y :: t')).length := by
                rw [renderSeq]; simp; omega
              have hxpos := renderJ_length_pos x
              have hx := (ih _ hmx).1 x (le_refl _) hsx f
                (',' :: (renderSeq (y :: t') ++ ']' :: rest))
                (by omega)
                (numDelim_of_head ',' _ (by decide) (by decide) (by decide) (by decide))
              have hmt : sizeOf (y :: t') < n := by
                simp at hsz ⊢
                omega
              have hcall := (ih _ hmt).2.1 (y :: t') (le_refl _) hst (by simp) f rest (by omega)
              rw [show renderSeq (x :: y :: t') ++ ']' :: rest
                  = renderJ x ++ (',' :: (renderSeq (y :: t') ++ ']' :: rest)) from by
                rw [renderSeq]; simp]
              rw [jscanList_comma f _ x _ hx, hcall]
              rfl
    · intro kvs hsz hs hne fuel rest hf
      cases fuel with
      | zero => exact absurd hf (by omega)
      | succ f =>
        cases kvs with
        | nil => exact absurd rfl hne
        | cons kv t =>
          obtain ⟨k, v⟩ := kv
          have hsk : safeS k = true := by
            rw [safeVP_cons, Bool.and_eq_true, Bool.and_eq_true] at hs
            exact hs.1.1
          have hsv : safeV v = true := by
            rw [safeVP_cons, Bool.and_eq_true, Bool.and_eq_true] at hs
            exact hs.1.2
          have hksafe : ∀ c ∈ k.toList, safeChar c = true := by
            simp only [safeS] at hsk
            exact List.all_eq_true.mp hsk
          have hmv : sizeOf v < n := by
            simp at hsz ⊢
            omega
          cases t with
          | nil =>
              have hlen : (renderPairs [(k, v)]).length
                  = (strLit k).length + 1 + (renderJ v).length := by
                rw [renderPairs]; simp; omega
              have hv := (ih _ hmv).1 v (le_refl _) hsv f ('}' :: rest) (by omega)
                (numDelim_of_head '}' rest (by decide) (by decide) (by decide) (by decide))
              have hscan : scanString (k.toList ++ '"' :: (':' :: (renderJ v ++ '}' :: rest)))
                  = some (k.toList, ':' :: (renderJ v ++ '}' :: rest)) :=
                scanString_safe k.toList hksafe _
              rw [show renderPairs [(k, v)] ++ '}' :: rest
                  = '"' :: (k.toList ++ '"' :: (':' :: (renderJ v ++ '}' :: rest))) from by
                rw [renderPairs, strLit_safe k hsk]; simp]
              rw [jscanPairs_key_close f _ k.toList v rest hscan hv]
              rfl
          | cons m t' =>
              have hst : safeVP (m :: t') = true := by
                rw [safeVP_cons, Bool.and_eq_true, Bool.and_eq_true] at hs
                exact hs.2
              have hlen : (renderPairs ((k, v) :: m :: t')).length
                  = (strLit k).length + 1 + (renderJ v).length + 1
                    + (renderPairs (m :: t')).length := by
                rw [renderPairs]; simp; omega
              have hv := (ih _ hmv).1 v (le_refl _) hsv f
                (',' :: (renderPairs (m :: t') ++ '}' :: rest))
                (by omega)
                (numDelim_of_head ',' _ (by decide) (by decide) (by decide) (by decide))
              have hscan : scanString (k.toList
                    ++ '"' :: (':' :: (renderJ v ++ ',' :: (renderPairs (m :: t') ++ '}' :: rest))))
                  = some (k.toList, ':' :: (renderJ v ++ ',' :: (renderPairs (m :: t') ++ '}' :: rest))) :=
                scanString_safe k.toList hksafe _
              have hmt : sizeOf (m :: t') < n := by
                simp at hsz ⊢
                omega
              have hcall := (ih _ hmt).2.2 (m :: t') (le_refl _) hst (by simp) f rest (by omega)
              rw [show renderPairs ((k, v) :: m :: t') ++ '}' :: rest
                  = '"' :: (k.toList ++ '"' :: (':' :: (renderJ v
                      ++ ',' :: (renderPairs (m :: t') ++ '}' :: rest)))) from by
                rw [renderPairs, strLit_safe k hsk]; simp]
              rw [jscanPairs_key_comma f _ k.toList v _ hscan hv, hcall]
              rfl

theorem rtV (v : JVal) (hs : safeV v = true) (fuel : ℕ) (rest : List Char)
    (hf : (renderJ v).length < fuel) (hnd : numDelim rest = true) :
    jscan fuel (renderJ v ++ rest) = some (v, rest) :=
  (rtAll (sizeOf v)).1 v (le_refl _) hs fuel rest hf hnd

theorem jloadsL_renderJ (v : JVal) (hs : safeV v = true) : jloadsL (renderJ v) = some v := by
  have h := rtV v hs ((renderJ v).length + 1) [] (by omega) rfl
  rw [List.append_nil] at h
  rw [jloadsL, h]
  rfl

theorem jscan_zero (cs : List Char) : jscan 0 cs = none := rfl

theorem jscan_rbracket (f : ℕ) (r : List Char) : jscan f (']' :: r) = none := by
  cases f with
  | zero => rfl
  | succ f => rfl

theorem jscanList_rbracket (f : ℕ) (r : List Char) : jscanList f (']' :: r) = none := by
  cases f with
  | zero => rfl
  | succ f => rw [jscanList_succ, jscan_rbracket]; rfl

theorem jscanPairs_rbrace (f : ℕ) (r : List Char) : jscanPairs f ('}' :: r) = none := by
  cases f with
  | zero => rfl
  | succ f => rfl

theorem jscanList_none (f : ℕ) (cs : List Char) (h : jscan f cs = none) :
    jscanList (f + 1) cs = none := by
  rw [jscanList_succ, h]
  rfl

theorem jscanPairs_key_none (f : ℕ) (r kl tail : List Char)
    (hscan : scanString r = some (kl, ':' :: tail)) (hnone : jscan f tail = none) :
    jscanPairs (f + 1) ('"' :: r) = none := by
  rw [jscanPairs_key f r kl tail hscan, hnone]
  rfl

theorem tcFree_eq (v : JVal) (h : tcFree v = true) : renderTC v = renderJ v := by
  cases v with
  | jnull => rfl
  | jbool b => cases b <;> rfl
  | jnum z => rfl
  | jstr s => rfl
  | jarr xs =>
      cases xs with
      | nil => rw [renderTC, renderJ_arr_eq]; rw [renderSeq]; rfl
      | cons x t => exact absurd h (by rw [tcFree]; simp)
  | jobj kvs =>
      cases kvs with
      | nil => rw [renderTC, renderJ_obj_eq]; rw [renderPairs]; rfl
      | cons kv t => exact absurd h (by rw [tcFree]; simp)

theorem renderTC_length_pos (v : JVal) : 1 ≤ (renderTC v).length := by
  obtain ⟨c, t, heq, -⟩ := renderTC_head v
  rw [heq]
  simp

theorem renderTC_arr_cons (x : JVal) (t : List JVal) :
    renderTC (jarr (x :: t)) = '[' :: (renderTCSeq (x :: t) ++ [',', ']']) := by
  rw [renderTC]

theorem renderTC_obj_cons (kv : String × JVal) (t : List (String × JVal)) :
    renderTC (jobj (kv :: t)) = '{' :: (renderTCPairs (kv :: t) ++ [',', '}']) := by
  rw [renderTC]

theorem renderTCSeq_one (x : JVal) : renderTCSeq [x] = renderTC x := by
  rw [renderTCSeq]

theorem renderTCSeq_cons (x y : JVal) (t : List JVal) :
    renderTCSeq (x :: y :: t) = renderTC x ++ ',' :: renderTCSeq (y :: t) := by
  rw [renderTCSeq]

theorem renderTCPairs_one (k : String) (v : JVal) :
    renderTCPairs [(k, v)] = strLit k ++ ':' :: renderTC v := by
  rw [renderTCPairs]

theorem renderTCPairs_cons (k : String) (v : JVal) (m : String × JVal)
    (t : List (String × JVal)) :
    renderTCPairs ((k, v) :: m :: t) = strLit k ++ ':' :: renderTC v ++ ',' :: renderTCPairs (m :: t) := by
  rw [renderTCPairs]

theorem tcFailAll (n : ℕ) :
    (∀ v : JVal, sizeOf v ≤ n → safeV v = true → tcFree v = false →
      ∀ (fuel : ℕ) (rest : List Char), (renderTC v).length < fuel →
        jscan fuel (renderTC v ++ rest) = none)
    ∧ (∀ xs : List JVal, sizeOf xs ≤ n → safeVL xs = true → xs ≠ [] →
      ∀ (fuel : ℕ) (rest : List Char), (renderTCSeq xs).length + 2 < fuel →
        jscanList fuel (renderTCSeq xs ++ ',' :: ']' :: rest) = none)
    ∧ (∀ kvs : List (String × JVal), sizeOf kvs ≤ n → safeVP kvs = true → kvs ≠ [] →
      ∀ (fuel : ℕ) (rest : List Char), (renderTCPairs kvs).length + 2 < fuel →
        jscanPairs fuel (renderTCPairs kvs ++ ',' :: '}' :: rest) = none) := by
  induction n using Nat.strong_induction_on with
  | _ n ih =>
    refine ⟨?_, ?_, ?_⟩
    · intro v hsz hs htc fuel rest hf
      cases fuel with
      | zero => exact absurd hf (by omega)
      | succ f =>
        cases v with
        | jnull => exact Bool.noConfusion htc
        | jbool b => exact Bool.noConfusion htc
        | jnum z => exact Bool.noConfusion htc
        | jstr s => exact Bool.noConfusion htc
        | jarr xs =>
            cases xs with
            | nil => exact Bool.noConfusion htc
            | cons x t =>
                have hsL : safeVL (x :: t) = true := by simpa [safeV] using hs
                obtain ⟨c0, t0, hxh, hvh⟩ := renderTC_head x
                obtain ⟨hnws, -, hnrb, -, -, -, -⟩ := valueHead_spec c0 hvh
                have htchead : ∃ s1, renderTCSeq (x :: t) = renderTC x ++ s1 := by
                  cases t with
                  | nil => exact ⟨[], by rw [renderTCSeq_one]; simp⟩
                  | cons y t' => exact ⟨',' :: renderTCSeq (y :: t'), by rw [renderTCSeq_cons]⟩
                obtain ⟨s1, hshape⟩ := htchead
                have hre : (renderTCSeq (x :: t) ++ [',', ']']) ++ rest
                    = c0 :: (t0 ++ (s1 ++ ',' :: ']' :: rest)) := by
                  rw [hshape, hxh]; simp
                have hback : c0 :: (t0 ++ (s1 ++ ',' :: ']' :: rest))
                    = renderTCSeq (x :: t) ++ ',' :: ']' :: rest := by
                  rw [hshape, hxh]; simp
                have hm : sizeOf (x :: t) < n := by
                  simp at hsz ⊢
                  omega
                have hlen : (renderTC (jarr (x :: t))).length
                    = (renderTCSeq (x :: t)).length + 3 := by
                  rw [renderTC_arr_cons]; simp
                have hcall := (ih _ hm).2.1 (x :: t) (le_refl _) hsL (by simp) f rest (by omega)
                rw [renderTC_arr_cons, List.cons_append, jscan_arr_step, hre,
                  dropWhile_cons_of_neg _ _ _ hnws]
                split
                · rename_i heq; injection heq with h1 _; exact absurd h1 hnrb
                · rw [hback, hcall]
                  rfl
        | jobj kvs =>
            cases kvs with
            | nil => exact Bool.noConfusion htc
            | cons kv t =>
                obtain ⟨k, v⟩ := kv
                have hsP : safeVP ((k, v) :: t) = true := by simpa [safeV] using hs
                have htchead : ∃ s1, renderTCPairs ((k, v) :: t) = strLit k ++ ':' :: s1 := by
                  cases t with
                  | nil => exact ⟨renderTC v, by rw [renderTCPairs_one]⟩
                  | cons m t' =>
                      exact ⟨renderTC v ++ ',' :: renderTCPairs (m :: t'),
                        by rw [renderTCPairs_cons]; simp⟩
                obtain ⟨s1, hshape⟩ := htchead
                have hre : (renderTCPairs ((k, v) :: t) ++ [',', '}']) ++ rest
                    = '"' :: ((k.toList.flatMap escapeJChar ++ ['"'])
                        ++ (':' :: (s1 ++ ',' :: '}' :: rest))) := by
                  rw [hshape, strLit]; simp
                have hback : '"' :: ((k.toList.flatMap escapeJChar ++ ['"'])
                        ++ (':' :: (s1 ++ ',' :: '}' :: rest)))
                    = renderTCPairs ((k, v) :: t) ++ ',' :: '}' :: rest := by
                  rw [hshape, strLit]; simp
                have hm : sizeOf ((k, v) :: t) < n := by
                  simp at hsz ⊢
                  omega
                have hlen : (renderTC (jobj ((k, v) :: t))).length
                    = (renderTCPairs ((k, v) :: t)).length + 3 := by
                  rw [renderTC_obj_cons]; simp
                have hcall := (ih _ hm).2.2 ((k, v) :: t) (le_refl _) hsP (by simp) f rest (by omega)
                rw [renderTC_obj_cons, List.cons_append, jscan_obj_step, hre,
                  dropWhile_cons_of_neg _ _ _ (by decide)]
                split
                · rename_i heq; injection heq with h1 _; exact absurd h1 (by decide)
                · rw [hback, hcall]
                  rfl
    · intro xs hsz hs hne fuel rest hf
      cases fuel with
      | zero => exact absurd hf (by omega)
      | succ f =>
        cases xs with
        | nil => exact absurd rfl hne
        | cons x t =>
          have hsx : safeV x = true := by
            rw [safeVL_cons, Bool.and_eq_true] at hs
            exact hs.1
          have hmx : sizeOf x < n := by
            simp at hsz ⊢
            omega
          cases t with
          | nil =>
              rw [renderTCSeq_one] at hf ⊢
              cases htcf : tcFree x with
              | false =>
                  have hnone := (ih _ hmx).1 x (le_refl _) hsx htcf f
                    (',' :: ']' :: rest) (by omega)
                  exact jscanList_none f _ hnone
              | true =>
                  have hx := rtV x hsx f (',' :: ']' :: rest)
                    (by rw [← tcFree_eq x htcf]; omega)
                    (numDelim_of_head ',' _ (by decide) (by decide) (by decide) (by decide))
                  rw [← tcFree_eq x htcf] at hx
                  rw [jscanList_comma f _ x _ hx, jscanList_rbracket]
                  rfl
          | cons y t' =>
              have hst : safeVL (y :: t') = true := by
                rw [safeVL_cons, Bool.and_eq_true] at hs
                exact hs.2
              have hlen : (renderTCSeq (x :: y :: t')).length
                  = (renderTC x).length + 1 + (renderTCSeq (y :: t')).length := by
                rw [renderTCSeq_cons]; simp; omega
              have hxpos := renderTC_length_pos x
              have hmt : sizeOf (y :: t') < n := by
                simp at hsz ⊢
                omega
              have hcall := (ih _ hmt).2.1 (y :: t') (le_refl _) hst (by simp) f rest (by omega)
              rw [show renderTCSeq (x :: y :: t') ++ ',' :: ']' :: rest
                  = renderTC x ++ (',' :: (renderTCSeq (y :: t') ++ ',' :: ']' :: rest)) from by
                rw [renderTCSeq_cons]; simp]
              cases htcf : tcFree x with
              | false =>
                  have hnone := (ih _ hmx).1 x (le_refl _) hsx htcf f
                    (',' :: (renderTCSeq (y :: t') ++ ',' :: ']' :: rest)) (by omega)
                  exact jscanList_none f _ hnone
              | true =>
                  have hx := rtV x hsx f (',' :: (renderTCSeq (y :: t') ++ ',' :: ']' :: rest))
                    (by rw [← tcFree_eq x htcf]; omega)
                    (numDelim_of_head ',' _ (by decide) (by decide) (by decide) (by decide))
                  rw [← tcFree_eq x htcf] at hx
                  rw [jscanList_comma f _ x _ hx, hcall]
                  rfl
    · intro kvs hsz hs hne fuel rest hf
      cases fuel with
      | zero => exact absurd hf (by omega)
      | succ f =>
        cases kvs with
        | nil => exact absurd rfl hne
        | cons kv t =>
          obtain ⟨k, v⟩ := kv
          have hsk : safeS k = true := by
            rw [safeVP_cons, Bool.and_eq_true, Bool.and_eq_true] at hs
            exact hs.1.1
          have hsv : safeV v = true := by
            rw [safeVP_cons, Bool.and_eq_true, Bool.and_eq_true] at hs
            exact hs.1.2
          have hksafe : ∀ c ∈ k.toList, safeChar c = true := by
            simp only [safeS] at hsk
            exact List.all_eq_true.mp hsk
          have hmv : sizeOf v < n := by
            simp at hsz ⊢
            omega
          have hkl : (strLit k).length = k.toList.length + 2 := by
            rw [strLit_safe k hsk]; simp
          cases t with
          | nil =>
              have hlen : (renderTCPairs [(k, v)]).length
                  = (strLit k).length + 1 + (renderTC v).length := by
                rw [renderTCPairs_one]; simp; omega
              have hscan : scanString (k.toList ++ '"' :: (':' :: (renderTC v ++ ',' :: '}' :: rest)))
                  = some (k.toList, ':' :: (renderTC v ++ ',' :: '}' :: rest)) :=
                scanString_safe k.toList hksafe _
              rw [show renderTCPairs [(k, v)] ++ ',' :: '}' :: rest
                  = '"' :: (k.toList ++ '"' :: (':' :: (renderTC v ++ ',' :: '}' :: rest))) from by
                rw [renderTCPairs_one, strLit_safe k hsk]; simp]
              cases htcf : tcFree v with
              | false =>
                  have hnone := (ih _ hmv).1 v (le_refl _) hsv htcf f
                    (',' :: '}' :: rest) (by omega)
                  exact jscanPairs_key_none f _ k.toList _ hscan hnone
              | true =>
                  have hv := rtV v hsv f (',' :: '}' :: rest)
                    (by rw [← tcFree_eq v htcf]; omega)
                    (numDelim_of_head ',' _ (by decide) (by decide) (by decide) (by decide))
                  rw [tcFree_eq v htcf] at hscan ⊢
                  rw [jscanPairs_key_comma f _ k.toList v _ hscan hv]
                  rw [jscanPairs_rbrace]
                  rfl
          | cons m t' =>
              have hst : safeVP (m :: t') = true := by
                rw [safeVP_cons, Bool.and_eq_true, Bool.and_eq_true] at hs
                exact hs.2
              have hlen : (renderTCPairs ((k, v) :: m :: t')).length
                  = (strLit k).length + 1 + (renderTC v).length + 1
                    + (renderTCPairs (m :: t')).length := by
                rw [renderTCPairs_cons]; simp; omega
              have hscan : scanString (k.toList
                    ++ '"' :: (':' :: (renderTC v ++ ',' :: (renderTCPairs (m :: t') ++ ',' :: '}' :: rest))))
                  = some (k.toList, ':' :: (renderTC v ++ ',' :: (renderTCPairs (m :: t') ++ ',' :: '}' :: rest))) :=
                scanString_safe k.toList hksafe _
              have hmt : sizeOf (m :: t') < n := by
                simp at hsz ⊢
                omega
              have hcall := (ih _ hmt).2.2 (m :: t') (le_refl _) hst (by simp) f rest (by omega)
              rw [show renderTCPairs ((k, v) :: m :: t') ++ ',' :: '}' :: rest
                  = '"' :: (k.toList ++ '"' :: (':' :: (renderTC v
                      ++ ',' :: (renderTCPairs (m :: t') ++ ',' :: '}' :: rest)))) from by
                rw [renderTCPairs_cons, strLit_safe k hsk]; simp]
              cases htcf : tcFree v with
              | false =>
                  have hnone := (ih _ hmv).1 v (le_refl _) hsv htcf f
                    (',' :: (renderTCPairs (m :: t') ++ ',' :: '}' :: rest)) (by omega)
                  exact jscanPairs_key_none f _ k.toList _ hscan hnone
              | true =>
                  have hv := rtV v hsv f (',' :: (renderTCPairs (m :: t') ++ ',' :: '}' :: rest))
                    (by rw [← tcFree_eq v htcf]; omega)
                    (numDelim_of_head ',' _ (by decide) (by decide) (by decide) (by decide))
                  rw [tcFree_eq v htcf] at hscan ⊢
                  rw [jscanPairs_key_comma f _ k.toList v _ hscan hv]
                  rw [hcall]
                  rfl

theorem rcc_append_no_comma (b : Char) (seg : List Char) (h : ∀ c ∈ seg, c ≠ ',')
    (rest : List Char) :
    repairCommaClose b (seg ++ rest) = seg ++ repairCommaClose b rest := by
  induction seg with
  | nil => rfl
  | cons c t ih =>
      rw [List.cons_append, rcc_cons_ne b c _ (h c (List.mem_cons_self c t)),
        ih (fun x hx => h x (List.mem_cons_of_mem c hx))]
      rfl

theorem intChars_no_comma (z : ℤ) : ∀ c ∈ intChars z, c ≠ ',' := by
  intro c hc
  rw [intChars] at hc
  have hdig : ∀ x ∈ natDigitChars z.natAbs [], x ≠ ',' := by
    intro x hx
    obtain ⟨d, hd10, rfl⟩ := natDigitChars_digits _ x hx
    interval_cases d <;> decide
  by_cases hz : z < 0
  · rw [if_pos hz] at hc
    rcases List.mem_cons.mp hc with rfl | hc
    · decide
    · exact hdig c hc
  · rw [if_neg hz] at hc
    exact hdig c hc

theorem head_dropWhile_safe (l : List Char) (hl : ∀ c ∈ l, safeChar c = true)
    (r2 : List Char) :
    ∃ c t, List.dropWhile isPyWs (l ++ '"' :: r2) = c :: t
      ∧ (safeChar c = true ∨ c = '"') ∧ isPyWs c = false := by
  induction l with
  | nil =>
      exact ⟨'"', r2, by rw [List.nil_append, dropWhile_cons_of_neg _ _ _ (by decide)],
        Or.inr rfl, by decide⟩
  | cons a l' ih =>
      have ha := hl a (List.mem_cons_self a l')
      cases hws : isPyWs a with
      | true =>
          obtain ⟨c, t, heq, hp, hnw⟩ := ih (fun x hx => hl x (List.mem_cons_of_mem a hx))
          exact ⟨c, t, by rw [List.cons_append, List.dropWhile_cons, hws, if_pos rfl, heq],
            hp, hnw⟩
      | false =>
          exact ⟨a, l' ++ '"' :: r2, by rw [List.cons_append, dropWhile_cons_of_neg _ _ _ hws],
            Or.inl ha, hws⟩

theorem rcc_string_body (b : Char) (hb : b = ']' ∨ b = '}') (l : List Char)
    (hl : ∀ c ∈ l, safeChar c = true) :
    ∀ r2, repairCommaClose b (l ++ '"' :: r2) = l ++ '"' :: repairCommaClose b r2 := by
  induction l with
  | nil =>
      intro r2
      rw [List.nil_append, rcc_cons_ne b '"' r2 (by decide), List.nil_append]
  | cons a l' ih =>
      intro r2
      have ha := hl a (List.mem_cons_self a l')
      have ih' := ih (fun x hx => hl x (List.mem_cons_of_mem a hx))
      by_cases hcm : a = ','
      · subst hcm
        obtain ⟨c, t, heq, hp, hnw⟩ :=
          head_dropWhile_safe l' (fun x hx => hl x (List.mem_cons_of_mem _ hx)) r2
        have hcb : c ≠ b := by
          rcases hp with hp | rfl
          · obtain ⟨-, -, -, -, -, h5, -, h7⟩ := safeChar_spec c hp
            rcases hb with rfl | rfl
            · exact h5
            · exact h7
          · rcases hb with rfl | rfl <;> decide
        rw [List.cons_append, rcc_comma_ne b c _ t heq hcb, ih' r2]
        rfl
      · rw [List.cons_append, rcc_cons_ne b a _ hcm, ih' r2]
        rfl

theorem rcc_strLit (b : Char) (hb : b = ']' ∨ b = '}') (k : String)
    (hk : safeS k = true) (rest : List Char) :
    repairCommaClose b (strLit k ++ rest) = strLit k ++ repairCommaClose b rest := by
  have hksafe : ∀ c ∈ k.toList, safeChar c = true := by
    simp only [safeS] at hk
    exact List.all_eq_true.mp hk
  rw [strLit_safe k hk]
  rw [show ('"' :: (k.toList ++ ['"'])) ++ rest = '"' :: (k.toList ++ '"' :: rest) from by simp]
  rw [rcc_cons_ne b '"' _ (by decide), rcc_string_body b hb k.toList hksafe rest]
  simp

theorem rcc_of_not_mem (b : Char) (l : List Char) (hb : b ∉ l) :
    repairCommaClose b l = l := by
  induction l with
  | nil => exact rcc_nil b
  | cons c t ih =>
      have hbt : b ∉ t := fun h => hb (List.mem_cons_of_mem c h)
      by_cases hcm : c = ','
      · subst hcm
        cases hdw : t.dropWhile isPyWs with
        | nil => rw [rcc_comma_empty b t hdw, ih hbt]
        | cons c' t' =>
            have hc' : c' ∈ t := by
              have : c' ∈ t.dropWhile isPyWs := by rw [hdw]; exact List.mem_cons_self c' t'
              exact (List.dropWhile_sublist _).subset this
            have : c' ≠ b := fun h => hbt (h ▸ hc')
            rw [rcc_comma_ne b c' t t' hdw this, ih hbt]
      · rw [rcc_cons_ne b c t hcm, ih hbt]

theorem renderT1_arr_cons (x : JVal) (t : List JVal) :
    renderT1 (jarr (x :: t)) = '[' :: (renderT1Seq (x :: t) ++ [']']) := by
  rw [renderT1]

theorem renderT1_obj_cons (kv : String × JVal) (t : List (String × JVal)) :
    renderT1 (jobj (kv :: t)) = '{' :: (renderT1Pairs (kv :: t) ++ [',', '}']) := by
  rw [renderT1]

theorem renderT1Seq_one (x : JVal) : renderT1Seq [x] = renderT1 x := by
  rw [renderT1Seq]

theorem renderT1Seq_cons (x y : JVal) (t : List JVal) :
    renderT1Seq (x :: y :: t) = renderT1 x ++ ',' :: renderT1Seq (y :: t) := by
  rw [renderT1Seq]

theorem renderT1Pairs_one (k : String) (v : JVal) :
    renderT1Pairs [(k, v)] = strLit k ++ ':' :: renderT1 v := by
  rw [renderT1Pairs]

theorem renderT1Pairs_cons (k : String) (v : JVal) (m : String × JVal)
    (t : List (String × JVal)) :
    renderT1Pairs ((k, v) :: m :: t)
      = strLit k ++ ':' :: renderT1 v ++ ',' :: renderT1Pairs (m :: t) := by
  rw [renderT1Pairs]

theorem renderTCSeq_shape (y : JVal) (t' : List JVal) :
    ∃ s1, renderTCSeq (y :: t') = renderTC y ++ s1 := by
  cases t' with
  | nil => exact ⟨[], by rw [renderTCSeq_one]; simp⟩
  | cons z t'' => exact ⟨',' :: renderTCSeq (z :: t''), by rw [renderTCSeq_cons]⟩

theorem renderTCPairs_head (m : String × JVal) (t' : List (String × JVal))
    (hs : safeVP (m :: t') = true) :
    ∃ s1, renderTCPairs (m :: t') = '"' :: s1 := by
  obtain ⟨mk, mv⟩ := m
  have hsk : safeS mk = true := by
    rw [safeVP_cons, Bool.and_eq_true, Bool.and_eq_true] at hs
    exact hs.1.1
  cases t' with
  | nil =>
      refine ⟨mk.toList ++ ['"'] ++ ':' :: renderTC mv, ?_⟩
      rw [renderTCPairs_one, strLit_safe mk hsk]
      simp
  | cons m2 t'' =>
      refine ⟨mk.toList ++ ['"'] ++ ':' :: renderTC mv ++ ',' :: renderTCPairs (m2 :: t''), ?_⟩
      rw [renderTCPairs_cons, strLit_safe mk hsk]
      simp

theorem renderT1Seq_shape (y : JVal) (t' : List JVal) :
    ∃ s1, renderT1Seq (y :: t') = renderT1 y ++ s1 := by
  cases t' with
  | nil => exact ⟨[], by rw [renderT1Seq_one]; simp⟩
  | cons z t'' => exact ⟨',' :: renderT1Seq (z :: t''), by rw [renderT1Seq_cons]⟩

theorem renderT1Pairs_head (m : String × JVal) (t' : List (String × JVal))
    (hs : safeVP (m :: t') = true) :
    ∃ s1, renderT1Pairs (m :: t') = '"' :: s1 := by
  obtain ⟨mk, mv⟩ := m
  have hsk : safeS mk = true := by
    rw [safeVP_cons, Bool.and_eq_true, Bool.and_eq_true] at hs
    exact hs.1.1
  cases t' with
  | nil =>
      refine ⟨mk.toList ++ ['"'] ++ ':' :: renderT1 mv, ?_⟩
      rw [renderT1Pairs_one, strLit_safe mk hsk]
      simp
  | cons m2 t'' =>
      refine ⟨mk.toList ++ ['"'] ++ ':' :: renderT1 mv ++ ',' :: renderT1Pairs (m2 :: t''), ?_⟩
      rw [renderT1Pairs_cons, strLit_safe mk hsk]
      simp

theorem rccT1All (n : ℕ) :
    (∀ v : JVal, sizeOf v ≤ n → safeV v = true →
      ∀ rest, repairCommaClose ']' (renderTC v ++ rest)
        = renderT1 v ++ repairCommaClose ']' rest)
    ∧ (∀ xs : List JVal, sizeOf xs ≤ n → safeVL xs = true → xs ≠ [] →
      ∀ rest, repairCommaClose ']' (renderTCSeq xs ++ ',' :: ']' :: rest)
        = renderT1Seq xs ++ ']' :: repairCommaClose ']' rest)
    ∧ (∀ kvs : List (String × JVal), sizeOf kvs ≤ n → safeVP kvs = true → kvs ≠ [] →
      ∀ rest, repairCommaClose ']' (renderTCPairs kvs ++ ',' :: '}' :: rest)
        = renderT1Pairs kvs ++ ',' :: '}' :: repairCommaClose ']' rest) := by
  induction n using Nat.strong_induction_on with
  | _ n ih =>
    refine ⟨?_, ?_, ?_⟩
    · intro v hsz hs rest
      cases v with
      | jnull =>
          rw [show renderTC jnull = ['n', 'u', 'l', 'l'] from by rw [renderTC],
            show renderT1 jnull = ['n', 'u', 'l', 'l'] from by rw [renderT1]]
          exact rcc_append_no_comma _ _ (by decide) rest
      | jbool b =>
          cases b with
          | true =>
              rw [show renderTC (jbool true) = ['t', 'r', 'u', 'e'] from by rw [renderTC],
                show renderT1 (jbool true) = ['t', 'r', 'u', 'e'] from by rw [renderT1]]
              exact rcc_append_no_comma _ _ (by decide) rest
          | false =>
              rw [show renderTC (jbool false) = ['f', 'a', 'l', 's', 'e'] from by rw [renderTC],
                show renderT1 (jbool false) = ['f', 'a', 'l', 's', 'e'] from by rw [renderT1]]
              exact rcc_append_no_comma _ _ (by decide) rest
      | jnum z =>
          rw [show renderTC (jnum z) = intChars z from by rw [renderTC],
            show renderT1 (jnum z) = intChars z from by rw [renderT1]]
          exact rcc_append_no_comma _ _ (intChars_no_comma z) rest
      | jstr s =>
          rw [show renderTC (jstr s) = strLit s from by rw [renderTC],
            show renderT1 (jstr s) = strLit s from by rw [renderT1]]
          exact rcc_strLit _ (Or.inl rfl) s (by simpa [safeV] using hs) rest
      | jarr xs =>
          cases xs with
          | nil =>
              rw [show renderTC (jarr []) = ['[', ']'] from by rw [renderTC],
                show renderT1 (jarr []) = ['[', ']'] from by rw [renderT1]]
              exact rcc_append_no_comma _ _ (by decide) rest
          | cons x t =>
              have hsL : safeVL (x :: t) = true := by simpa [safeV] using hs
              have hm : sizeOf (x :: t) < n := by simp at hsz ⊢; omega
              have hcall := (ih _ hm).2.1 (x :: t) (le_refl _) hsL (by simp) rest
              rw [renderTC_arr_cons, renderT1_arr_cons,
                show ('[' :: (renderTCSeq (x :: t) ++ [',', ']'])) ++ rest
                  = '[' :: (renderTCSeq (x :: t) ++ ',' :: ']' :: rest) from by simp,
                rcc_cons_ne _ _ _ (by decide), hcall]
              simp
      | jobj kvs =>
          cases kvs with
          | nil =>
              rw [show renderTC (jobj []) = ['{', '}'] from by rw [renderTC],
                show renderT1 (jobj []) = ['{', '}'] from by rw [renderT1]]
              exact rcc_append_no_comma _ _ (by decide) rest
          | cons kv t =>
              have hsP : safeVP (kv :: t) = true := by
                obtain ⟨k, v⟩ := kv
                simpa [safeV] using hs
              have hm : sizeOf (kv :: t) < n := by simp at hsz ⊢; omega
              have hcall := (ih _ hm).2.2 (kv :: t) (le_refl _) hsP (by simp) rest
              rw [renderTC_obj_cons, renderT1_obj_cons,
                show ('{' :: (renderTCPairs (kv :: t) ++ [',', '}'])) ++ rest
                  = '{' :: (renderTCPairs (kv :: t) ++ ',' :: '}' :: rest) from by simp,
                rcc_cons_ne _ _ _ (by decide), hcall]
              simp
    · intro xs hsz hs hne rest
      cases xs with
      | nil => exact absurd rfl hne
      | cons x t =>
        have hsx : safeV x = true := by
          rw [safeVL_cons, Bool.and_eq_true] at hs
          exact hs.1
        have hmx : sizeOf x < n := by simp at hsz ⊢; omega
        have hvx := (ih _ hmx).1 x (le_refl _) hsx
        cases t with
        | nil =>
            rw [renderTCSeq_one, renderT1Seq_one,
              show renderTC x ++ ',' :: ']' :: rest = renderTC x ++ (',' :: ']' :: rest) from rfl,
              hvx (',' :: ']' :: rest),
              rcc_comma_match ']' _ rest (dropWhile_cons_of_neg _ _ _ (by decide))]
        | cons y t' =>
            have hst : safeVL (y :: t') = true := by
              rw [safeVL_cons, Bool.and_eq_true] at hs
              exact hs.2
            have hmt : sizeOf (y :: t') < n := by simp at hsz ⊢; omega
            have hcall := (ih _ hmt).2.1 (y :: t') (le_refl _) hst (by simp) rest
            obtain ⟨c0, t0, hyh, hvh⟩ := renderTC_head y
            obtain ⟨-, hpws, hnrb, -, -, -, -⟩ := valueHead_spec c0 hvh
            obtain ⟨s1, hshape⟩ := renderTCSeq_shape y t'
            have hscrut : renderTCSeq (y :: t') ++ ',' :: ']' :: rest
                = c0 :: (t0 ++ (s1 ++ ',' :: ']' :: rest)) := by
              rw [hshape, hyh]; simp
            rw [renderTCSeq_cons, renderT1Seq_cons,
              show (renderTC x ++ ',' :: renderTCSeq (y :: t')) ++ ',' :: ']' :: rest
                = renderTC x ++ (',' :: (renderTCSeq (y :: t') ++ ',' :: ']' :: rest)) from by simp,
              hvx _,
              rcc_comma_ne ']' c0 _ _ (by rw [hscrut]; exact dropWhile_cons_of_neg _ _ _ hpws) hnrb,
              hcall]
            simp
    · intro kvs hsz hs hne rest
      cases kvs with
      | nil => exact absurd rfl hne
      | cons kv t =>
        obtain ⟨k, v⟩ := kv
        have hsk : safeS k = true := by
          rw [safeVP_cons, Bool.and_eq_true, Bool.and_eq_true] at hs
          exact hs.1.1
        have hsv : safeV v = true := by
          rw [safeVP_cons, Bool.and_eq_true, Bool.and_eq_true] at hs
          exact hs.1.2
        have hmv : sizeOf v < n := by simp at hsz ⊢; omega
        have hvv := (ih _ hmv).1 v (le_refl _) hsv
        cases t with
        | nil =>
            rw [renderTCPairs_one, renderT1Pairs_one,
              show (strLit k ++ ':' :: renderTC v) ++ ',' :: '}' :: rest
                = strLit k ++ (':' :: (renderTC v ++ ',' :: '}' :: rest)) from by simp,
              rcc_strLit ']' (Or.inl rfl) k hsk _,
              rcc_cons_ne _ ':' _ (by decide),
              hvv _,
              rcc_comma_ne ']' '}' _ rest (dropWhile_cons_of_neg _ _ _ (by decide)) (by decide),
              rcc_cons_ne _ '}' _ (by decide)]
            simp
        | cons m t' =>
            have hst : safeVP (m :: t') = true := by
              rw [safeVP_cons, Bool.and_eq_true, Bool.and_eq_true] at hs
              exact hs.2
            have hmt : sizeOf (m :: t') < n := by simp at hsz ⊢; omega
            have hcall := (ih _ hmt).2.2 (m :: t') (le_refl _) hst (by simp) rest
            obtain ⟨s1, hshape⟩ := renderTCPairs_head m t' hst
            have hscrut : renderTCPairs (m :: t') ++ ',' :: '}' :: rest
                = '"' :: (s1 ++ ',' :: '}' :: rest) := by
              rw [hshape]; simp
            obtain ⟨mk, mv⟩ := m
            rw [renderTCPairs_cons, renderT1Pairs_cons,
              show (strLit k ++ ':' :: renderTC v ++ ',' :: renderTCPairs ((mk, mv) :: t'))
                  ++ ',' :: '}' :: rest
                = strLit k ++ (':' :: (renderTC v
                    ++ (',' :: (renderTCPairs ((mk, mv) :: t') ++ ',' :: '}' :: rest)))) from by simp,
              rcc_strLit ']' (Or.inl rfl) k hsk _,
              rcc_cons_ne _ ':' _ (by decide),
              hvv _,
              rcc_comma_ne ']' '"' _ _ (by rw [hscrut]; exact dropWhile_cons_of_neg _ _ _ (by decide)) (by decide),
              hcall]
            simp

theorem rccJAll (n : ℕ) :
    (∀ v : JVal, sizeOf v ≤ n → safeV v = true →
      ∀ rest, repairCommaClose '}' (renderT1 v ++ rest)
        = renderJ v ++ repairCommaClose '}' rest)
    ∧ (∀ xs : List JVal, sizeOf xs ≤ n → safeVL xs = true → xs ≠ [] →
      ∀ rest, repairCommaClose '}' (renderT1Seq xs ++ ']' :: rest)
        = renderSeq xs ++ ']' :: repairCommaClose '}' rest)
    ∧ (∀ kvs : List (String × JVal), sizeOf kvs ≤ n → safeVP kvs = true → kvs ≠ [] →
      ∀ rest, repairCommaClose '}' (renderT1Pairs kvs ++ ',' :: '}' :: rest)
        = renderPairs kvs ++ '}' :: repairCommaClose '}' rest) := by
  induction n using Nat.strong_induction_on with
  | _ n ih =>
    refine ⟨?_, ?_, ?_⟩
    · intro v hsz hs rest
      cases v with
      | jnull =>
          rw [show renderT1 jnull = ['n', 'u', 'l', 'l'] from by rw [renderT1],
            show renderJ jnull = ['n', 'u', 'l', 'l'] from by rw [renderJ]]
          exact rcc_append_no_comma _ _ (by decide) rest
      | jbool b =>
          cases b with
          | true =>
              rw [show renderT1 (jbool true) = ['t', 'r', 'u', 'e'] from by rw [renderT1],
                show renderJ (jbool true) = ['t', 'r', 'u', 'e'] from by rw [renderJ]]
              exact rcc_append_no_comma _ _ (by decide) rest
          | false =>
              rw [show renderT1 (jbool false) = ['f', 'a', 'l', 's', 'e'] from by rw [renderT1],
                show renderJ (jbool false) = ['f', 'a', 'l', 's', 'e'] from by rw [renderJ]]
              exact rcc_append_no_comma _ _ (by decide) rest
      | jnum z =>
          rw [show renderT1 (jnum z) = intChars z from by rw [renderT1],
            show renderJ (jnum z) = intChars z from by rw [renderJ]]
          exact rcc_append_no_comma _ _ (intChars_no_comma z) rest
      | jstr s =>
          rw [show renderT1 (jstr s) = strLit s from by rw [renderT1],
            show renderJ (jstr s) = strLit s from by rw [renderJ]]
          exact rcc_strLit _ (Or.inr rfl) s (by simpa [safeV] using hs) rest
      | jarr xs =>
          cases xs with
          | nil =>
              rw [show renderT1 (jarr []) = ['[', ']'] from by rw [renderT1],
                show renderJ (jarr []) = ['[', ']'] from by rw [renderJ_arr_eq]; rw [renderSeq]; rfl]
              exact rcc_append_no_comma _ _ (by decide) rest
          | cons x t =>
              have hsL : safeVL (x :: t) = true := by simpa [safeV] using hs
              have hm : sizeOf (x :: t) < n := by simp at hsz ⊢; omega
              have hcall := (ih _ hm).2.1 (x :: t) (le_refl _) hsL (by simp) rest
              rw [renderT1_arr_cons, renderJ_arr_eq,
                show ('[' :: (renderT1Seq (x :: t) ++ [']'])) ++ rest
                  = '[' :: (renderT1Seq (x :: t) ++ ']' :: rest) from by simp,
                rcc_cons_ne _ _ _ (by decide), hcall]
              simp
      | jobj kvs =>
          cases kvs with
          | nil =>
              rw [show renderT1 (jobj []) = ['{', '}'] from by rw [renderT1],
                show renderJ (jobj []) = ['{', '}'] from by rw [renderJ_obj_eq]; rw [renderPairs]; rfl]
              exact rcc_append_no_comma _ _ (by decide) rest
          | cons kv t =>
              have hsP : safeVP (kv :: t) = true := by
                obtain ⟨k, v⟩ := kv
                simpa [safeV] using hs
              have hm : sizeOf (kv :: t) < n := by simp at hsz ⊢; omega
              have hcall := (ih _ hm).2.2 (kv :: t) (le_refl _) hsP (by simp) rest
              rw [renderT1_obj_cons, renderJ_obj_eq,
                show ('{' :: (renderT1Pairs (kv :: t) ++ [',', '}'])) ++ rest
                  = '{' :: (renderT1Pairs (kv :: t) ++ ',' :: '}' :: rest) from by simp,
                rcc_cons_ne _ _ _ (by decide), hcall]
              simp
    · intro xs hsz hs hne rest
      cases xs with
      | nil => exact absurd rfl hne
      | cons x t =>
        have hsx : safeV x = true := by
          rw [safeVL_cons, Bool.and_eq_true] at hs
          exact hs.1
        have hmx : sizeOf x < n := by simp at hsz ⊢; omega
        have hvx := (ih _ hmx).1 x (le_refl _) hsx
        cases t with
        | nil =>
            rw [renderT1Seq_one, renderSeq,
              show renderT1 x ++ ']' :: rest = renderT1 x ++ (']' :: rest) from rfl,
              hvx (']' :: rest),
              rcc_cons_ne _ ']' _ (by decide)]
        | cons y t' =>
            have hst : safeVL (y :: t') = true := by
              rw [safeVL_cons, Bool.and_eq_true] at hs
              exact hs.2
            have hmt : sizeOf (y :: t') < n := by simp at hsz ⊢; omega
            have hcall := (ih _ hmt).2.1 (y :: t') (le_refl _) hst (by simp) rest
            obtain ⟨c0, t0, hyh, hvh⟩ := renderT1_head y
            obtain ⟨-, hpws, -, hnrc, -, -, -⟩ := valueHead_spec c0 hvh
            obtain ⟨s1, hshape⟩ := renderT1Seq_shape y t'
            have hscrut : renderT1Seq (y :: t') ++ ']' :: rest
                = c0 :: (t0 ++ (s1 ++ ']' :: rest)) := by
              rw [hshape, hyh]; simp
            rw [renderT1Seq_cons, renderSeq,
              show (renderT1 x ++ ',' :: renderT1Seq (y :: t')) ++ ']' :: rest
                = renderT1 x ++ (',' :: (renderT1Seq (y :: t') ++ ']' :: rest)) from by simp,
              hvx _,
              rcc_comma_ne '}' c0 _ _ (by rw [hscrut]; exact dropWhile_cons_of_neg _ _ _ hpws) hnrc,
              hcall]
            simp
    · intro kvs hsz hs hne rest
      cases kvs with
      | nil => exact absurd rfl hne
      | cons kv t =>
        obtain ⟨k, v⟩ := kv
        have hsk : safeS k = true := by
          rw [safeVP_cons, Bool.and_eq_true, Bool.and_eq_true] at hs
          exact hs.1.1
        have hsv : safeV v = true := by
          rw [safeVP_cons, Bool.and_eq_true, Bool.and_eq_true] at hs
          exact hs.1.2
        have hmv : sizeOf v < n := by simp at hsz ⊢; omega
        have hvv := (ih _ hmv).1 v (le_refl _) hsv
        cases t with
        | nil =>
            rw [renderT1Pairs_one, renderPairs,
              show (strLit k ++ ':' :: renderT1 v) ++ ',' :: '}' :: rest
                = strLit k ++ (':' :: (renderT1 v ++ ',' :: '}' :: rest)) from by simp,
              rcc_strLit '}' (Or.inr rfl) k hsk _,
              rcc_cons_ne _ ':' _ (by decide),
              hvv _,
              rcc_comma_match '}' _ rest (dropWhile_cons_of_neg _ _ _ (by decide))]
            simp
        | cons m t' =>
            have hst : safeVP (m :: t') = true := by
              rw [safeVP_cons, Bool.and_eq_true, Bool.and_eq_true] at hs
              exact hs.2
            have hmt : sizeOf (m :: t') < n := by simp at hsz ⊢; omega
            have hcall := (ih _ hmt).2.2 (m :: t') (le_refl _) hst (by simp) rest
            obtain ⟨s1, hshape⟩ := renderT1Pairs_head m t' hst
            have hscrut : renderT1Pairs (m :: t') ++ ',' :: '}' :: rest
                = '"' :: (s1 ++ ',' :: '}' :: rest) := by
              rw [hshape]; simp
            obtain ⟨mk, mv⟩ := m
            rw [renderT1Pairs_cons, renderPairs,
              show (strLit k ++ ':' :: renderT1 v ++ ',' :: renderT1Pairs ((mk, mv) :: t'))
                  ++ ',' :: '}' :: rest
                = strLit k ++ (':' :: (renderT1 v
                    ++ (',' :: (renderT1Pairs ((mk, mv) :: t') ++ ',' :: '}' :: rest)))) from by simp,
              rcc_strLit '}' (Or.inr rfl) k hsk _,
              rcc_cons_ne _ ':' _ (by decide),
              hvv _,
              rcc_comma_ne '}' '"' _ _ (by rw [hscrut]; exact dropWhile_cons_of_neg _ _ _ (by decide)) (by decide),
              hcall]
            simp

theorem strLit_not_mem (bad : Char) (k : String) (hk : safeS k = true)
    (hb1 : bad ≠ '"') (hb2 : safeChar bad = false) : bad ∉ strLit k := by
  have hksafe : ∀ c ∈ k.toList, safeChar c = true := by
    simp only [safeS] at hk
    exact List.all_eq_true.mp hk
  rw [strLit_safe k hk]
  intro h
  rcases List.mem_cons.mp h with h1 | h1
  · exact hb1 h1
  · rcases List.mem_append.mp h1 with h2 | h2
    · rw [hksafe bad h2] at hb2; cases hb2
    · rcases List.mem_singleton.mp h2 with rfl
      exact hb1 rfl

theorem intChars_not_mem (bad : Char) (z : ℤ) (h1 : bad ≠ '-')
    (h2 : isDigitCh bad = false) : bad ∉ intChars z := by
  intro h
  have hdig : bad ∉ natDigitChars z.natAbs [] := by
    intro hx
    obtain ⟨d, hd10, heq⟩ := natDigitChars_digits _ bad hx
    rw [heq, (digitChar_spec d hd10).2] at h2
    cases h2
  rw [intChars] at h
  by_cases hz : z < 0
  · rw [if_pos hz] at h
    rcases List.mem_cons.mp h with h3 | h3
    · exact h1 h3
    · exact hdig h3
  · rw [if_neg hz] at h
    exact hdig h

theorem arrFree_obj (kvs : List (String × JVal)) : arrFree (jobj kvs) = arrFreeP kvs := by
  rw [arrFree]

theorem arrFreeP_cons (k : String) (v : JVal) (t : List (String × JVal)) :
    arrFreeP ((k, v) :: t) = (arrFree v && arrFreeP t) := by
  rw [arrFreeP]

theorem not_mem_append_i (a : Char) (l1 l2 : List Char) (h1 : a ∉ l1) (h2 : a ∉ l2) :
    a ∉ l1 ++ l2 := by
  intro h
  rcases List.mem_append.mp h with h | h
  · exact h1 h
  · exact h2 h

theorem not_mem_cons_i (a c : Char) (l : List Char) (h1 : a ≠ c) (h2 : a ∉ l) :
    a ∉ c :: l := by
  intro h
  rcases List.mem_cons.mp h with h | h
  · exact h1 h
  · exact h2 h

theorem backtick_not_mem_all (n : ℕ) :
    (∀ v : JVal, sizeOf v ≤ n → safeV v = true →
      '`' ∉ renderJ v ∧ '`' ∉ renderTC v)
    ∧ (∀ xs : List JVal, sizeOf xs ≤ n → safeVL xs = true →
      '`' ∉ renderSeq xs ∧ '`' ∉ renderTCSeq xs)
    ∧ (∀ kvs : List (String × JVal), sizeOf kvs ≤ n → safeVP kvs = true →
      '`' ∉ renderPairs kvs ∧ '`' ∉ renderTCPairs kvs) := by
  induction n using Nat.strong_induction_on with
  | _ n ih =>
    refine ⟨?_, ?_, ?_⟩
    · intro v hsz hs
      cases v with
      | jnull =>
          rw [show renderJ jnull = ['n', 'u', 'l', 'l'] from by rw [renderJ],
            show renderTC jnull = ['n', 'u', 'l', 'l'] from by rw [renderTC]]
          exact ⟨by decide, by decide⟩
      | jbool b =>
          cases b with
          | true =>
              rw [show renderJ (jbool true) = ['t', 'r', 'u', 'e'] from by rw [renderJ],
                show renderTC (jbool true) = ['t', 'r', 'u', 'e'] from by rw [renderTC]]
              exact ⟨by decide, by decide⟩
          | false =>
              rw [show renderJ (jbool false) = ['f', 'a', 'l', 's', 'e'] from by rw [renderJ],
                show renderTC (jbool false) = ['f', 'a', 'l', 's', 'e'] from by rw [renderTC]]
              exact ⟨by decide, by decide⟩
      | jnum z =>
          rw [show renderJ (jnum z) = intChars z from by rw [renderJ],
            show renderTC (jnum z) = intChars z from by rw [renderTC]]
          exact ⟨intChars_not_mem _ z (by decide) (by decide),
            intChars_not_mem _ z (by decide) (by decide)⟩
      | jstr s =>
          rw [show renderJ (jstr s) = strLit s from by rw [renderJ],
            show renderTC (jstr s) = strLit s from by rw [renderTC]]
          have hss : safeS s = true := by simpa [safeV] using hs
          exact ⟨strLit_not_mem _ s hss (by decide) (by decide),
            strLit_not_mem _ s hss (by decide) (by decide)⟩
      | jarr xs =>
          have hsL : safeVL xs = true := by simpa [safeV] using hs
          have hm : sizeOf xs < n := by simp at hsz ⊢; omega
          obtain ⟨hJ, hTC⟩ := (ih _ hm).2.1 xs (le_refl _) hsL
          constructor
          · rw [renderJ_arr_eq]
            exact not_mem_cons_i _ _ _ (by decide)
              (not_mem_append_i _ _ _ hJ (by decide))
          · cases xs with
            | nil =>
                rw [show renderTC (jarr []) = ['[', ']'] from by rw [renderTC]]
                decide
            | cons x t =>
                rw [renderTC_arr_cons]
                exact not_mem_cons_i _ _ _ (by decide)
                  (not_mem_append_i _ _ _ hTC (by decide))
      | jobj kvs =>
          have hsP : safeVP kvs = true := by simpa [safeV] using hs
          have hm : sizeOf kvs < n := by simp at hsz ⊢; omega
          obtain ⟨hJ, hTC⟩ := (ih _ hm).2.2 kvs (le_refl _) hsP
          constructor
          · rw [renderJ_obj_eq]
            exact not_mem_cons_i _ _ _ (by decide)
              (not_mem_append_i _ _ _ hJ (by decide))
          · cases kvs with
            | nil =>
                rw [show renderTC (jobj []) = ['{', '}'] from by rw [renderTC]]
                decide
            | cons kv t =>
                rw [renderTC_obj_cons]
                exact not_mem_cons_i _ _ _ (by decide)
                  (not_mem_append_i _ _ _ hTC (by decide))
    · intro xs hsz hs
      cases xs with
      | nil =>
          constructor
          · rw [renderSeq]; exact List.not_mem_nil _
          · rw [renderTCSeq]; exact List.not_mem_nil _
      | cons x t =>
        have hsx : safeV x = true := by
          rw [safeVL_cons, Bool.and_eq_true] at hs
          exact hs.1
        have hst : safeVL t = true := by
          rw [safeVL_cons, Bool.and_eq_true] at hs
          exact hs.2
        have hmx : sizeOf x < n := by simp at hsz ⊢; omega
        have hmt : sizeOf t < n := by simp at hsz ⊢; omega
        obtain ⟨hxJ, hxTC⟩ := (ih _ hmx).1 x (le_refl _) hsx
        obtain ⟨htJ, htTC⟩ := (ih _ hmt).2.1 t (le_refl _) hst
        cases t with
        | nil =>
            constructor
            · rw [renderSeq]; exact hxJ
            · rw [renderTCSeq_one]; exact hxTC
        | cons y t' =>
            constructor
            · rw [renderSeq]
              exact not_mem_append_i _ _ _ hxJ (not_mem_cons_i _ _ _ (by decide) htJ)
            · rw [renderTCSeq_cons]
              exact not_mem_append_i _ _ _ hxTC (not_mem_cons_i _ _ _ (by decide) htTC)
    · intro kvs hsz hs
      cases kvs with
      | nil =>
          constructor
          · rw [renderPairs]; exact List.not_mem_nil _
          · rw [renderTCPairs]; exact List.not_mem_nil _
      | cons kv t =>
        obtain ⟨k, v⟩ := kv
        have hsk : safeS k = true := by
          rw [safeVP_cons, Bool.and_eq_true, Bool.and_eq_true] at hs
          exact hs.1.1
        have hsv : safeV v = true := by
          rw [safeVP_cons, Bool.and_eq_true, Bool.and_eq_true] at hs
          exact hs.1.2
        have hst : safeVP t = true := by
          rw [safeVP_cons, Bool.and_eq_true, Bool.and_eq_true] at hs
          exact hs.2
        have hmv : sizeOf v < n := by simp at hsz ⊢; omega
        have hmt : sizeOf t < n := by simp at hsz ⊢; omega
        obtain ⟨hvJ, hvTC⟩ := (ih _ hmv).1 v (le_refl _) hsv
        obtain ⟨htJ, htTC⟩ := (ih _ hmt).2.2 t (le_refl _) hst
        have hkmem := strLit_not_mem '`' k hsk (by decide) (by decide)
        cases t with
        | nil =>
            constructor
            · rw [renderPairs]
              exact not_mem_append_i _ _ _ hkmem (not_mem_cons_i _ _ _ (by decide) hvJ)
            · rw [renderTCPairs_one]
              exact not_mem_append_i _ _ _ hkmem (not_mem_cons_i _ _ _ (by decide) hvTC)
        | cons m t' =>
            constructor
            · rw [renderPairs]
              exact not_mem_append_i _ _ _
                (not_mem_append_i _ _ _ hkmem (not_mem_cons_i _ _ _ (by decide) hvJ))
                (not_mem_cons_i _ _ _ (by decide) htJ)
            · rw [renderTCPairs_cons]
              exact not_mem_append_i _ _ _
                (not_mem_append_i _ _ _ hkmem (not_mem_cons_i _ _ _ (by decide) hvTC))
                (not_mem_cons_i _ _ _ (by decide) htTC)

theorem rbracket_not_mem_all (n : ℕ) :
    (∀ v : JVal, sizeOf v ≤ n → safeV v = true → arrFree v = true →
      ']' ∉ renderJ v ∧ ']' ∉ renderTC v)
    ∧ (∀ kvs : List (String × JVal), sizeOf kvs ≤ n → safeVP kvs = true → arrFreeP kvs = true →
      ']' ∉ renderPairs kvs ∧ ']' ∉ renderTCPairs kvs) := by
  induction n using Nat.strong_induction_on with
  | _ n ih =>
    refine ⟨?_, ?_⟩
    · intro v hsz hs haf
      cases v with
      | jnull =>
          rw [show renderJ jnull = ['n', 'u', 'l', 'l'] from by rw [renderJ],
            show renderTC jnull = ['n', 'u', 'l', 'l'] from by rw [renderTC]]
          exact ⟨by decide, by decide⟩
      | jbool b =>
          cases b with
          | true =>
              rw [show renderJ (jbool true) = ['t', 'r', 'u', 'e'] from by rw [renderJ],
                show renderTC (jbool true) = ['t', 'r', 'u', 'e'] from by rw [renderTC]]
              exact ⟨by decide, by decide⟩
          | false =>
              rw [show renderJ (jbool false) = ['f', 'a', 'l', 's', 'e'] from by rw [renderJ],
                show renderTC (jbool false) = ['f', 'a', 'l', 's', 'e'] from by rw [renderTC]]
              exact ⟨by decide, by decide⟩
      | jnum z =>
          rw [show renderJ (jnum z) = intChars z from by rw [renderJ],
            show renderTC (jnum z) = intChars z from by rw [renderTC]]
          exact ⟨intChars_not_mem _ z (by decide) (by decide),
            intChars_not_mem _ z (by decide) (by decide)⟩
      | jstr s =>
          rw [show renderJ (jstr s) = strLit s from by rw [renderJ],
            show renderTC (jstr s) = strLit s from by rw [renderTC]]
          have hss : safeS s = true := by simpa [safeV] using hs
          exact ⟨strLit_not_mem _ s hss (by decide) (by decide),
            strLit_not_mem _ s hss (by decide) (by decide)⟩
      | jarr xs => exact Bool.noConfusion haf
      | jobj kvs =>
          have hsP : safeVP kvs = true := by simpa [safeV] using hs
          have hafP : arrFreeP kvs = true := by rwa [arrFree_obj] at haf
          have hm : sizeOf kvs < n := by simp at hsz ⊢; omega
          obtain ⟨hJ, hTC⟩ := (ih _ hm).2 kvs (le_refl _) hsP hafP
          constructor
          · rw [renderJ_obj_eq]
            exact not_mem_cons_i _ _ _ (by decide)
              (not_mem_append_i _ _ _ hJ (by decide))
          · cases kvs with
            | nil =>
                rw [show renderTC (jobj []) = ['{', '}'] from by rw [renderTC]]
                decide
            | cons kv t =>
                rw [renderTC_obj_cons]
                exact not_mem_cons_i _ _ _ (by decide)
                  (not_mem_append_i _ _ _ hTC (by decide))
    · intro kvs hsz hs haf
      cases kvs with
      | nil =>
          constructor
          · rw [renderPairs]; exact List.not_mem_nil _
          · rw [renderTCPairs]; exact List.not_mem_nil _
      | cons kv t =>
        obtain ⟨k, v⟩ := kv
        have hsk : safeS k = true := by
          rw [safeVP_cons, Bool.and_eq_true, Bool.and_eq_true] at hs
          exact hs.1.1
        have hsv : safeV v = true := by
          rw [safeVP_cons, Bool.and_eq_true, Bool.and_eq_true] at hs
          exact hs.1.2
        have hst : safeVP t = true := by
          rw [safeVP_cons, Bool.and_eq_true, Bool.and_eq_true] at hs
          exact hs.2
        have hafv : arrFree v = true := by
          rw [arrFreeP_cons, Bool.and_eq_true] at haf
          exact haf.1
        have haft : arrFreeP t = true := by
          rw [arrFreeP_cons, Bool.and_eq_true] at haf
          exact haf.2
        have hmv : sizeOf v < n := by simp at hsz ⊢; omega
        have hmt : sizeOf t < n := by simp at hsz ⊢; omega
        obtain ⟨hvJ, hvTC⟩ := (ih _ hmv).1 v (le_refl _) hsv hafv
        obtain ⟨htJ, htTC⟩ := (ih _ hmt).2 t (le_refl _) hst haft
        have hkmem := strLit_not_mem ']' k hsk (by decide) (by decide)
        cases t with
        | nil =>
            constructor
            · rw [renderPairs]
              exact not_mem_append_i _ _ _ hkmem (not_mem_cons_i _ _ _ (by decide) hvJ)
            · rw [renderTCPairs_one]
              exact not_mem_append_i _ _ _ hkmem (not_mem_cons_i _ _ _ (by decide) hvTC)
        | cons m t' =>
            constructor
            · rw [renderPairs]
              exact not_mem_append_i _ _ _
                (not_mem_append_i _ _ _ hkmem (not_mem_cons_i _ _ _ (by decide) hvJ))
                (not_mem_cons_i _ _ _ (by decide) htJ)
            · rw [renderTCPairs_cons]
              exact not_mem_append_i _ _ _
                (not_mem_append_i _ _ _ hkmem (not_mem_cons_i _ _ _ (by decide) hvTC))
                (not_mem_cons_i _ _ _ (by decide) htTC)

theorem cutFenceTag_nil : cutFenceTag [] = [] := by
  rw [cutFenceTag.eq_def]

theorem cutFenceTag_cons_ne (c : Char) (l : List Char) (h : c ≠ '`') :
    cutFenceTag (c :: l) = c :: cutFenceTag l := by
  rw [cutFenceTag.eq_def]
  split
  · rename_i r heq
    injection heq with h1 _
    exact absurd h1 h
  · rename_i c' r heq
    injection heq with h1 h2
    subst h1; subst h2
    rfl
  · rename_i heq; cases heq

theorem cutFenceTag_json (r : List Char) :
    cutFenceTag ('`' :: '`' :: '`' :: 'j' :: 's' :: 'o' :: 'n' :: r)
      = cutFenceTag (r.dropWhile isPyWs) := by
  rw [cutFenceTag.eq_def]
  rfl

theorem cutFenceTag_append (xs ys : List Char) (h : '`' ∉ xs) :
    cutFenceTag (xs ++ ys) = xs ++ cutFenceTag ys := by
  induction xs with
  | nil => rfl
  | cons c t ih =>
      have hc : c ≠ '`' := fun hx => h (hx ▸ List.mem_cons_self c t)
      rw [List.cons_append, cutFenceTag_cons_ne c _ hc,
        ih (fun hx => h (List.mem_cons_of_mem c hx))]
      rfl

theorem cutFenceTag_of_not_mem (cs : List Char) (h : '`' ∉ cs) :
    cutFenceTag cs = cs := by
  have := cutFenceTag_append cs [] h
  rwa [List.append_nil, cutFenceTag_nil, List.append_nil] at this

theorem cutFence_nil : cutFence [] = [] := by
  rw [cutFence.eq_def]

theorem cutFence_cons_ne (c : Char) (l : List Char) (h : c ≠ '`') :
    cutFence (c :: l) = c :: cutFence l := by
  rw [cutFence.eq_def]
  split
  · rename_i r heq
    injection heq with h1 _
    exact absurd h1 h
  · rename_i c' r heq
    injection heq with h1 h2
    subst h1; subst h2
    rfl
  · rename_i heq; cases heq

theorem cutFence_fence (r : List Char) :
    cutFence ('`' :: '`' :: '`' :: r) = cutFence (r.dropWhile isPyWs) := by
  rw [cutFence.eq_def]
  rfl

theorem cutFence_append (xs ys : List Char) (h : '`' ∉ xs) :
    cutFence (xs ++ ys) = xs ++ cutFence ys := by
  induction xs with
  | nil => rfl
  | cons c t ih =>
      have hc : c ≠ '`' := fun hx => h (hx ▸ List.mem_cons_self c t)
      rw [List.cons_append, cutFence_cons_ne c _ hc,
        ih (fun hx => h (List.mem_cons_of_mem c hx))]
      rfl

theorem cutFence_of_not_mem (cs : List Char) (h : '`' ∉ cs) :
    cutFence cs = cs := by
  have := cutFence_append cs [] h
  rwa [List.append_nil, cutFence_nil, List.append_nil] at this

theorem cutFenceTag_bq1 (r : List Char) :
    cutFenceTag ('`' :: '`' :: '`' :: '\n' :: r)
      = '`' :: cutFenceTag ('`' :: '`' :: '\n' :: r) := by
  rw [cutFenceTag.eq_def]
  rfl

theorem cutFenceTag_bq2 (r : List Char) :
    cutFenceTag ('`' :: '`' :: '\n' :: r)
      = '`' :: cutFenceTag ('`' :: '\n' :: r) := by
  rw [cutFenceTag.eq_def]
  rfl

theorem cutFenceTag_bq3 (r : List Char) :
    cutFenceTag ('`' :: '\n' :: r)
      = '`' :: cutFenceTag ('\n' :: r) := by
  rw [cutFenceTag.eq_def]
  rfl

theorem cutFenceTag_fence3nl (r : List Char) :
    cutFenceTag ('`' :: '`' :: '`' :: '\n' :: r)
      = '`' :: '`' :: '`' :: '\n' :: cutFenceTag r := by
  rw [cutFenceTag_bq1, cutFenceTag_bq2, cutFenceTag_bq3,
    cutFenceTag_cons_ne '\n' r (by decide)]

theorem cutFenceTag_closer : cutFenceTag ['\n', '`', '`', '`'] = ['\n', '`', '`', '`'] := by
  simp [cutFenceTag]

theorem cutFence_closer : cutFence ['\n', '`', '`', '`'] = ['\n'] := by
  simp [cutFence]

theorem dropWhile_append_of_all (p : Char → Bool) (l1 l2 : List Char)
    (h : ∀ c ∈ l1, p c = true) :
    List.dropWhile p (l1 ++ l2) = List.dropWhile p l2 := by
  induction l1 with
  | nil => rfl
  | cons c t ih =>
      rw [List.cons_append, List.dropWhile_cons, h c (List.mem_cons_self c t), if_pos rfl,
        ih (fun x hx => h x (List.mem_cons_of_mem c hx))]

theorem pyStripL_render (body tail : List Char)
    (hhead : ∃ c t, body = c :: t ∧ isPyWs c = false)
    (hlast : ∃ c, body.getLast? = some c ∧ isPyWs c = false)
    (htail : ∀ c ∈ tail, isPyWs c = true) :
    pyStripL (body ++ tail) = body := by
  obtain ⟨c0, t0, hb, hc0⟩ := hhead
  obtain ⟨cl, hgl, hcl⟩ := hlast
  have h1 : List.dropWhile isPyWs (body ++ tail) = body ++ tail := by
    rw [hb, List.cons_append, dropWhile_cons_of_neg _ _ _ hc0]
  rw [pyStripL, h1, dropEndWhile, List.reverse_append,
    dropWhile_append_of_all isPyWs tail.reverse body.reverse
      (fun c hc => htail c (List.mem_reverse.mp hc))]
  have hrev : ∃ rt, body.reverse = cl :: rt := by
    cases hr : body.reverse with
    | nil =>
        rw [← List.head?_reverse, hr] at hgl
        cases hgl
    | cons a rt =>
        rw [← List.head?_reverse, hr] at hgl
        injection hgl with h2
        exact ⟨rt, by rw [h2]⟩
  obtain ⟨rt, hrev⟩ := hrev
  rw [hrev, dropWhile_cons_of_neg _ _ _ hcl, ← hrev, List.reverse_reverse]

theorem dropWhile_ne_cons_self (c : Char) (l : List Char) :
    List.dropWhile (fun x => x ≠ c) (c :: l) = c :: l := by
  rw [List.dropWhile_cons]
  simp

theorem upToLast_whole (c : Char) (mid : List Char) :
    upToLast c (mid ++ [c]) = some (mid ++ [c]) := by
  rw [upToLast]
  rw [show (mid ++ [c]).reverse = c :: mid.reverse from by simp]
  rw [dropWhile_ne_cons_self]
  rw [show (c :: mid.reverse : List Char) = (mid ++ [c]).reverse from by simp]
  split
  · rename_i heq
    rw [List.reverse_eq_nil_iff] at heq
    rcases List.append_ne_nil_of_right_ne_nil mid (List.cons_ne_nil c []) heq with ⟨⟩
  · rw [List.reverse_reverse]

theorem fromFirst_whole (o : Char) (t : List Char) :
    fromFirst o (o :: t) = some (o :: t) := by
  rw [fromFirst, dropWhile_ne_cons_self]

theorem grabSpan_whole (o c : Char) (mid : List Char) :
    grabSpan o c (o :: (mid ++ [c])) = some (o :: (mid ++ [c])) := by
  rw [grabSpan,
    show o :: (mid ++ [c]) = (o :: mid) ++ [c] from by simp,
    upToLast_whole c (o :: mid)]
  rw [show ((o :: mid) ++ [c] : List Char) = o :: (mid ++ [c]) from by simp]
  exact fromFirst_whole o _

theorem upToLast_none (c : Char) (cs : List Char) (h : c ∉ cs) :
    upToLast c cs = none := by
  rw [upToLast]
  have : List.dropWhile (fun x => x ≠ c) cs.reverse = [] := by
    rw [List.dropWhile_eq_nil_iff]
    intro x hx
    simp only [ne_eq, decide_eq_true_eq]
    intro hxc
    exact h (hxc ▸ List.mem_reverse.mp hx)
  rw [this]

theorem grabSpan_none (o c : Char) (cs : List Char) (h : c ∉ cs) :
    grabSpan o c cs = none := by
  rw [grabSpan, upToLast_none c cs h]
  rfl

theorem renderT1_eq_renderTC_arrFree (n : ℕ) :
    (∀ v : JVal, sizeOf v ≤ n → arrFree v = true → renderT1 v = renderTC v)
    ∧ (∀ kvs : List (String × JVal), sizeOf kvs ≤ n → arrFreeP kvs = true →
        renderT1Pairs kvs = renderTCPairs kvs) := by
  induction n using Nat.strong_induction_on with
  | _ n ih =>
    refine ⟨?_, ?_⟩
    · intro v hsz haf
      cases v with
      | jnull => rfl
      | jbool b => cases b <;> rfl
      | jnum z => rfl
      | jstr s => rfl
      | jarr xs => exact Bool.noConfusion haf
      | jobj kvs =>
          have hafP : arrFreeP kvs = true := by rwa [arrFree_obj] at haf
          have hm : sizeOf kvs < n := by simp at hsz ⊢; omega
          have hP := (ih _ hm).2 kvs (le_refl _) hafP
          cases kvs with
          | nil => rfl
          | cons kv t =>
              rw [renderT1_obj_cons, renderTC_obj_cons, hP]
    · intro kvs hsz haf
      cases kvs with
      | nil => rfl
      | cons kv t =>
        obtain ⟨k, v⟩ := kv
        have hafv : arrFree v = true := by
          rw [arrFreeP_cons, Bool.and_eq_true] at haf
          exact haf.1
        have haft : arrFreeP t = true := by
          rw [arrFreeP_cons, Bool.and_eq_true] at haf
          exact haf.2
        have hmv : sizeOf v < n := by simp at hsz ⊢; omega
        have hmt : sizeOf t < n := by simp at hsz ⊢; omega
        have hv := (ih _ hmv).1 v (le_refl _) hafv
        have ht := (ih _ hmt).2 t (le_refl _) haft
        cases t with
        | nil => rw [renderT1Pairs_one, renderTCPairs_one, hv]
        | cons m t' =>
            rw [renderT1Pairs_cons, renderTCPairs_cons, hv, ht]

theorem jloadsL_renderTC_fail (v : JVal) (hs : safeV v = true) (htc : tcFree v = false) :
    jloadsL (renderTC v) = none := by
  have h := (tcFailAll (sizeOf v)).1 v (le_refl _) hs htc ((renderTC v).length + 1) []
    (by omega)
  rw [List.append_nil] at h
  rw [jloadsL, h]

theorem repair_renderTC (v : JVal) (hs : safeV v = true) :
    repairCommaClose '}' (repairCommaClose ']' (renderTC v)) = renderJ v := by
  have h1 := (rccT1All (sizeOf v)).1 v (le_refl _) hs []
  rw [List.append_nil, rcc_nil, List.append_nil] at h1
  have h2 := (rccJAll (sizeOf v)).1 v (le_refl _) hs []
  rw [List.append_nil, rcc_nil, List.append_nil] at h2
  rw [h1, h2]

theorem repair_fc_renderTC (v : JVal) (hs : safeV v = true) (haf : arrFree v = true) :
    repairCommaClose ']' (repairCommaClose '}' (renderTC v)) = renderJ v := by
  have ht1 := (renderT1_eq_renderTC_arrFree (sizeOf v)).1 v (le_refl _) haf
  have h2 := (rccJAll (sizeOf v)).1 v (le_refl _) hs []
  rw [List.append_nil, rcc_nil, List.append_nil] at h2
  rw [← ht1, h2]
  exact rcc_of_not_mem ']' (renderJ v)
    (((rbracket_not_mem_all (sizeOf v)).1 v (le_refl _) hs haf).1)

theorem renderMaybeTC_false (v : JVal) : renderMaybeTC false v = renderJ v := by
  rw [renderMaybeTC]
  rfl

theorem renderMaybeTC_true (v : JVal) : renderMaybeTC true v = renderTC v := by
  rw [renderMaybeTC]
  rfl

theorem renderMaybeTC_head (tc : Bool) (v : JVal) :
    ∃ c t, renderMaybeTC tc v = c :: t ∧ valueHead c = true := by
  cases tc with
  | false => rw [renderMaybeTC_false]; exact renderJ_head v
  | true => rw [renderMaybeTC_true]; exact renderTC_head v

theorem munge_eq (body : List Char) (w : FenceWrap)
    (hbq : '`' ∉ body)
    (hhead : ∃ c t, body = c :: t ∧ isPyWs c = false)
    (hlast : ∃ c, body.getLast? = some c ∧ isPyWs c = false) :
    pyStripL (cutFence (cutFenceTag (applyFence w (String.mk body)).toList)) = body := by
  obtain ⟨c0, t0, hb, hc0⟩ := hhead
  have hdrop : List.dropWhile isPyWs ('\n' :: (body ++ ['\n', '`', '`', '`']))
      = body ++ ['\n', '`', '`', '`'] := by
    rw [List.dropWhile_cons]
    rw [show isPyWs '\n' = true from by decide, if_pos rfl]
    rw [hb, List.cons_append, dropWhile_cons_of_neg _ _ _ hc0, ← List.cons_append, ← hb]
  cases w with
  | plain =>
      rw [show (applyFence FenceWrap.plain (String.mk body)).toList = body from rfl]
      rw [cutFenceTag_of_not_mem body hbq, cutFence_of_not_mem body hbq]
      have hres := pyStripL_render body [] ⟨c0, t0, hb, hc0⟩ hlast (by intro c hc; cases hc)
      rwa [List.append_nil] at hres
  | fencedJson =>
      have htoList : (applyFence FenceWrap.fencedJson (String.mk body)).toList
          = '`' :: '`' :: '`' :: 'j' :: 's' :: 'o' :: 'n' ::
              ('\n' :: (body ++ ['\n', '`', '`', '`'])) := by
        rw [show (applyFence FenceWrap.fencedJson (String.mk body)).toList
            = (("```json\n" : String) ++ String.mk body ++ ("\n```" : String)).data from rfl]
        rw [String.data_append, String.data_append]
        rw [show (("```json\n" : String)).data
            = ['`', '`', '`', 'j', 's', 'o', 'n', '\n'] from rfl]
        rw [show (("\n```" : String)).data = ['\n', '`', '`', '`'] from rfl]
        rw [show (String.mk body).data = body from rfl]
        simp
      rw [htoList, cutFenceTag_json, hdrop,
        cutFenceTag_append body _ hbq, cutFenceTag_closer,
        cutFence_append body _ hbq, cutFence_closer]
      exact pyStripL_render body ['\n'] ⟨c0, t0, hb, hc0⟩ hlast
        (by intro c hc; rcases List.mem_singleton.mp hc with rfl; decide)
  | fenced =>
      have htoList : (applyFence FenceWrap.fenced (String.mk body)).toList
          = '`' :: '`' :: '`' :: '\n' :: (body ++ ['\n', '`', '`', '`']) := by
        rw [show (applyFence FenceWrap.fenced (String.mk body)).toList
            = (("```\n" : String) ++ String.mk body ++ ("\n```" : String)).data from rfl]
        rw [String.data_append, String.data_append]
        rw [show (("```\n" : String)).data = ['`', '`', '`', '\n'] from rfl]
        rw [show (("\n```" : String)).data = ['\n', '`', '`', '`'] from rfl]
        rw [show (String.mk body).data = body from rfl]
        simp
      rw [htoList, cutFenceTag_fence3nl,
        cutFenceTag_append body _ hbq, cutFenceTag_closer,
        cutFence_fence, hdrop,
        cutFence_append body _ hbq, cutFence_closer]
      exact pyStripL_render body ['\n'] ⟨c0, t0, hb, hc0⟩ hlast
        (by intro c hc; rcases List.mem_singleton.mp hc with rfl; decide)

theorem renderMaybeTC_last_arr (tc : Bool) (xs : List JVal) :
    ∃ c, (renderMaybeTC tc (jarr xs)).getLast? = some c ∧ isPyWs c = false := by
  refine ⟨']', ?_, by decide⟩
  cases tc with
  | false =>
      rw [renderMaybeTC_false, renderJ_arr_eq,
        show '[' :: (renderSeq xs ++ [']']) = ('[' :: renderSeq xs) ++ [']'] from by simp]
      exact List.getLast?_concat _
  | true =>
      rw [renderMaybeTC_true]
      cases xs with
      | nil =>
          rw [show renderTC (jarr []) = ['[', ']'] from by rw [renderTC]]
          rfl
      | cons x t =>
          rw [renderTC_arr_cons,
            show '[' :: (renderTCSeq (x :: t) ++ [',', ']'])
              = (('[' :: renderTCSeq (x :: t)) ++ [',']) ++ [']'] from by simp]
          exact List.getLast?_concat _

theorem renderMaybeTC_last_obj (tc : Bool) (kvs : List (String × JVal)) :
    ∃ c, (renderMaybeTC tc (jobj kvs)).getLast? = some c ∧ isPyWs c = false := by
  refine ⟨'}', ?_, by decide⟩
  cases tc with
  | false =>
      rw [renderMaybeTC_false, renderJ_obj_eq,
        show '{' :: (renderPairs kvs ++ ['}']) = ('{' :: renderPairs kvs) ++ ['}'] from by simp]
      exact List.getLast?_concat _
  | true =>
      rw [renderMaybeTC_true]
      cases kvs with
      | nil =>
          rw [show renderTC (jobj []) = ['{', '}'] from by rw [renderTC]]
          rfl
      | cons kv t =>
          rw [renderTC_obj_cons,
            show '{' :: (renderTCPairs (kv :: t) ++ [',', '}'])
              = (('{' :: renderTCPairs (kv :: t)) ++ [',']) ++ ['}'] from by simp]
          exact List.getLast?_concat _

theorem renderMaybeTC_bq (tc : Bool) (v : JVal) (hs : safeV v = true) :
    '`' ∉ renderMaybeTC tc v := by
  obtain ⟨hJ, hTC⟩ := (backtick_not_mem_all (sizeOf v)).1 v (le_refl _) hs
  cases tc with
  | false => rw [renderMaybeTC_false]; exact hJ
  | true => rw [renderMaybeTC_true]; exact hTC

theorem renderMaybeTC_head_ws (tc : Bool) (v : JVal) :
    ∃ c t, renderMaybeTC tc v = c :: t ∧ isPyWs c = false := by
  obtain ⟨c, t, heq, hvh⟩ := renderMaybeTC_head tc v
  exact ⟨c, t, heq, (valueHead_spec c hvh).2.1⟩

theorem grabSpan_arr (tc : Bool) (xs : List JVal) :
    grabSpan '[' ']' (renderMaybeTC tc (jarr xs))
      = some (renderMaybeTC tc (jarr xs)) := by
  cases tc with
  | false =>
      rw [renderMaybeTC_false, renderJ_arr_eq]
      exact grabSpan_whole '[' ']' (renderSeq xs)
  | true =>
      rw [renderMaybeTC_true]
      cases xs with
      | nil =>
          rw [show renderTC (jarr []) = ['[', ']'] from by rw [renderTC]]
          rw [show (['[', ']'] : List Char) = '[' :: (([] : List Char) ++ [']']) from rfl]
          exact grabSpan_whole '[' ']' []
      | cons x t =>
          rw [renderTC_arr_cons,
            show '[' :: (renderTCSeq (x :: t) ++ [',', ']'])
              = '[' :: ((renderTCSeq (x :: t) ++ [',']) ++ [']']) from by simp]
          exact grabSpan_whole '[' ']' _

theorem grabSpan_obj (tc : Bool) (kvs : List (String × JVal)) :
    grabSpan '{' '}' (renderMaybeTC tc (jobj kvs))
      = some (renderMaybeTC tc (jobj kvs)) := by
  cases tc with
  | false =>
      rw [renderMaybeTC_false, renderJ_obj_eq]
      exact grabSpan_whole '{' '}' (renderPairs kvs)
  | true =>
      rw [renderMaybeTC_true]
      cases kvs with
      | nil =>
          rw [show renderTC (jobj []) = ['{', '}'] from by rw [renderTC]]
          rw [show (['{', '}'] : List Char) = '{' :: (([] : List Char) ++ ['}']) from rfl]
          exact grabSpan_whole '{' '}' []
      | cons kv t =>
          rw [renderTC_obj_cons,
            show '{' :: (renderTCPairs (kv :: t) ++ [',', '}'])
              = '{' :: ((renderTCPairs (kv :: t) ++ [',']) ++ ['}']) from by simp]
          exact grabSpan_whole '{' '}' _

theorem grabSpan_obj_arr_none (tc : Bool) (kvs : List (String × JVal))
    (hs : safeV (jobj kvs) = true) (haf : arrFree (jobj kvs) = true) :
    grabSpan '[' ']' (renderMaybeTC tc (jobj kvs)) = none := by
  obtain ⟨hJ, hTC⟩ := (rbracket_not_mem_all (sizeOf (jobj kvs))).1 (jobj kvs) (le_refl _) hs haf
  cases tc with
  | false => rw [renderMaybeTC_false]; exact grabSpan_none '[' ']' _ hJ
  | true => rw [renderMaybeTC_true]; exact grabSpan_none '[' ']' _ hTC

theorem jloadsL_renderMaybeTC_strict (tc : Bool) (v : JVal) (hs : safeV v = true)
    (h : tc = false ∨ tcFree v = true) :
    jloadsL (renderMaybeTC tc v) = some v := by
  cases tc with
  | false => rw [renderMaybeTC_false]; exact jloadsL_renderJ v hs
  | true =>
      rcases h with h | h
      · cases h
      · rw [renderMaybeTC_true, tcFree_eq v h]
        exact jloadsL_renderJ v hs

theorem extractCE_arr (w : FenceWrap) (tc : Bool) (xs : List JVal)
    (hs : safeV (jarr xs) = true) :
    ClaimExtractorAgent.extract_json_from_text
      (applyFence w (String.mk (renderMaybeTC tc (jarr xs)))) = some (jarr xs) := by
  have hmunge := munge_eq (renderMaybeTC tc (jarr xs)) w
    (renderMaybeTC_bq tc _ hs) (renderMaybeTC_head_ws tc _) (renderMaybeTC_last_arr tc xs)
  unfold ClaimExtractorAgent.extract_json_from_text
  dsimp only
  rw [hmunge, grabSpan_arr tc xs]
  dsimp only
  by_cases hstrict : tc = false ∨ tcFree (jarr xs) = true
  · rw [jloadsL_renderMaybeTC_strict tc _ hs hstrict]
  · have htc : tc = true := by
      cases tc with
      | false => exact absurd (Or.inl rfl) hstrict
      | true => rfl
    have hfree : tcFree (jarr xs) = false := by
      cases h : tcFree (jarr xs) with
      | false => rfl
      | true => exact absurd (Or.inr h) hstrict
    subst htc
    rw [renderMaybeTC_true]
    rw [jloadsL_renderTC_fail _ hs hfree]
    dsimp only
    rw [repair_renderTC _ hs, jloadsL_renderJ _ hs]

theorem extractCE_obj (w : FenceWrap) (tc : Bool) (kvs : List (String × JVal))
    (hs : safeV (jobj kvs) = true) (haf : arrFree (jobj kvs) = true) :
    ClaimExtractorAgent.extract_json_from_text
      (applyFence w (String.mk (renderMaybeTC tc (jobj kvs)))) = some (jobj kvs) := by
  have hmunge := munge_eq (renderMaybeTC tc (jobj kvs)) w
    (renderMaybeTC_bq tc _ hs) (renderMaybeTC_head_ws tc _) (renderMaybeTC_last_obj tc kvs)
  unfold ClaimExtractorAgent.extract_json_from_text
  dsimp only
  rw [hmunge, grabSpan_obj_arr_none tc kvs hs haf]
  dsimp only
  rw [grabSpan_obj tc kvs]
  dsimp only
  by_cases hstrict : tc = false ∨ tcFree (jobj kvs) = true
  · rw [jloadsL_renderMaybeTC_strict tc _ hs hstrict]
  · have htc : tc = true := by
      cases tc with
      | false => exact absurd (Or.inl rfl) hstrict
      | true => rfl
    have hfree : tcFree (jobj kvs) = false := by
      cases h : tcFree (jobj kvs) with
      | false => rfl
      | true => exact absurd (Or.inr h) hstrict
    subst htc
    rw [renderMaybeTC_true]
    rw [jloadsL_renderTC_fail _ hs hfree]
    dsimp only
    rw [repair_renderTC _ hs, jloadsL_renderJ _ hs]

theorem extractFC_obj (w : FenceWrap) (tc : Bool) (kvs : List (String × JVal))
    (hs : safeV (jobj kvs) = true) (haf : arrFree (jobj kvs) = true) :
    FactCheckerAgent.extract_json_from_text
      (applyFence w (String.mk (renderMaybeTC tc (jobj kvs)))) = jobj kvs := by
  have hmunge := munge_eq (renderMaybeTC tc (jobj kvs)) w
    (renderMaybeTC_bq tc _ hs) (renderMaybeTC_head_ws tc _) (renderMaybeTC_last_obj tc kvs)
  unfold FactCheckerAgent.extract_json_from_text
  dsimp only
  rw [hmunge, grabSpan_obj tc kvs]
  dsimp only
  by_cases hstrict : tc = false ∨ tcFree (jobj kvs) = true
  · rw [jloadsL_renderMaybeTC_strict tc _ hs hstrict]
  · have htc : tc = true := by
      cases tc with
      | false => exact absurd (Or.inl rfl) hstrict
      | true => rfl
    have hfree : tcFree (jobj kvs) = false := by
      cases h : tcFree (jobj kvs) with
      | false => rfl
      | true => exact absurd (Or.inr h) hstrict
    subst htc
    rw [renderMaybeTC_true]
    rw [jloadsL_renderTC_fail _ hs hfree]
    dsimp only
    rw [repair_fc_renderTC _ hs haf, jloadsL_renderJ _ hs]

/-- C7: the round-trip claim as stated is false.  (1) On a rendered object
containing an array, the claim-extractor parser returns the greedy `[.*]`
span (the inner array), not the object.  (2) The fact-checker parser never
recovers a top-level array: it falls back to its fixed object.  (3) With a
trailing comma inserted before a closing bracket, the repair regex also
fires on a `,]` sequence inside a string literal, corrupting the value. -/
theorem c7_parser_roundtrip_counterexample :
    (ClaimExtractorAgent.extract_json_from_text
        (renderStr (JVal.jobj [(("a" : String), JVal.jarr [JVal.jnum 1])]))
        = some (JVal.jarr [JVal.jnum 1])
      ∧ JVal.jarr [JVal.jnum 1] ≠ JVal.jobj [(("a" : String), JVal.jarr [JVal.jnum 1])])
    ∧ (FactCheckerAgent.extract_json_from_text (renderStr (JVal.jarr [JVal.jnum 1]))
        = FactCheckerAgent.parseFallback
      ∧ FactCheckerAgent.parseFallback ≠ JVal.jarr [JVal.jnum 1])
    ∧ (ClaimExtractorAgent.extract_json_from_text
        (String.mk (renderTC (JVal.jarr [JVal.jstr ("a,]" : String)])))
        = some (JVal.jarr [JVal.jstr ("a]" : String)])
      ∧ JVal.jarr [JVal.jstr ("a]" : String)] ≠ JVal.jarr [JVal.jstr ("a,]" : String)]) := by
  refine ⟨⟨?_, ?_⟩, ⟨?_, ?_⟩, ?_, ?_⟩
  · simp [ClaimExtractorAgent.extract_json_from_text, renderStr, renderJ, renderSeq, renderPairs,
      strLit, escapeJChar, intChars, natDigitChars, cutFenceTag, cutFence, pyStripL,
      dropEndWhile, isPyWs, grabSpan, upToLast, fromFirst, jloadsL, jscan, jscanList, jscanPairs,
      scanString, scanInt, scanNat, isJsonWs, isDigitCh, digitsVal]
  · exact fun h => JVal.noConfusion h
  · have h : renderStr (JVal.jarr [JVal.jnum 1]) = ("[1]" : String) := by
      simp [renderStr, renderJ, renderSeq, intChars, natDigitChars]
    rw [h]
    simp [FactCheckerAgent.extract_json_from_text, cutFenceTag, cutFence, pyStripL,
      dropEndWhile, isPyWs, grabSpan, upToLast, fromFirst]
  · exact fun h => JVal.noConfusion h
  · have hr : String.mk (renderTC (JVal.jarr [JVal.jstr ("a,]" : String)]))
        = ("[\"a,]\",]" : String) := by
      simp [renderTC, renderTCSeq, strLit, escapeJChar]
    rw [hr]
    unfold ClaimExtractorAgent.extract_json_from_text
    dsimp only
    have h1 : pyStripL (cutFence (cutFenceTag (("[\"a,]\",]" : String)).toList))
        = (("[\"a,]\",]" : String)).toList := by
      simp [cutFenceTag, cutFence, pyStripL, dropEndWhile, isPyWs]
    rw [h1]
    have h2 : grabSpan '[' ']' ((("[\"a,]\",]" : String)).toList)
        = some ((("[\"a,]\",]" : String)).toList) := by
      simp [grabSpan, upToLast, fromFirst]
    rw [h2]
    have h3 : jloadsL ((("[\"a,]\",]" : String)).toList) = none := rfl
    dsimp only
    rw [h3]
    have h4 : repairCommaClose '}' (repairCommaClose ']' (("[\"a,]\",]" : String).toList))
        = ("[\"a]\"]" : String).toList := by
      simp [rcc_nil, rcc_cons_ne, rcc_comma_empty, rcc_comma_ne, rcc_comma_match, isPyWs]
    dsimp only
    rw [h4]
    rfl
  · intro h
    simp only [JVal.jarr.injEq, List.cons.injEq, JVal.jstr.injEq, and_true] at h
    exact absurd h (by decide)

/-- C7 (amended): the round-trip does hold on the fragment the pipeline
exchanges, with the forced restrictions.  For a value whose strings use only
safe characters (printable, no quote, backslash, backtick, bracket or brace),
rendered compactly — optionally with trailing commas inserted before the
closing bracket of every non-empty array/object and optionally wrapped in
``` or ```json fences — the claim-extractor parser recovers exactly the
original value when the top level is an array, or an object containing no
array anywhere; and the fact-checker parser does so for array-free
objects. -/
theorem c7_parser_roundtrip_amended (v : JVal) (w : FenceWrap) (tc : Bool)
    (hsafe : safeV v = true)
    (hshape : (∃ xs, v = JVal.jarr xs) ∨ ((∃ kvs, v = JVal.jobj kvs) ∧ arrFree v = true)) :
    ClaimExtractorAgent.extract_json_from_text
        (applyFence w (String.mk (renderMaybeTC tc v))) = some v
    ∧ ((∃ kvs, v = JVal.jobj kvs) →
        FactCheckerAgent.extract_json_from_text
          (applyFence w (String.mk (renderMaybeTC tc v))) = v) := by
  rcases hshape with ⟨xs, rfl⟩ | ⟨⟨kvs, rfl⟩, haf⟩
  · refine ⟨extractCE_arr w tc xs hsafe, ?_⟩
    rintro ⟨kvs, h⟩
    exact JVal.noConfusion h
  · exact ⟨extractCE_obj w tc kvs hsafe haf,
      fun _ => extractFC_obj w tc kvs hsafe haf⟩

/-- Witness: the amended round-trip at a concrete safe object, fenced and
with a trailing comma. -/
theorem c7_parser_roundtrip_amended_witness :
    safeV (JVal.jobj [(("k" : String), JVal.jstr ("hello, world" : String))]) = true
    ∧ ClaimExtractorAgent.extract_json_from_text
        (applyFence FenceWrap.fencedJson (String.mk (renderMaybeTC true
          (JVal.jobj [(("k" : String), JVal.jstr ("hello, world" : String))]))))
      = some (JVal.jobj [(("k" : String), JVal.jstr ("hello, world" : String))])
    ∧ FactCheckerAgent.extract_json_from_text
        (applyFence FenceWrap.fencedJson (String.mk (renderMaybeTC true
          (JVal.jobj [(("k" : String), JVal.jstr ("hello, world" : String))]))))
      = JVal.jobj [(("k" : String), JVal.jstr ("hello, world" : String))] := by
  have hsafe : safeV (JVal.jobj [(("k" : String), JVal.jstr ("hello, world" : String))]) = true := by
    simp [safeV, safeVP, safeS, safeChar]
  have h := c7_parser_roundtrip_amended
    (JVal.jobj [(("k" : String), JVal.jstr ("hello, world" : String))])
    FenceWrap.fencedJson true hsafe
    (Or.inr ⟨⟨_, rfl⟩, by simp [arrFree, arrFreeP]⟩)
  exact ⟨hsafe, h.1, h.2 ⟨_, rfl⟩⟩
